import Mathlib

/-!
# heka-clever-plugins: `FirehoseOutput`

A shallow embedding of `firehose_output.go` and of the parts of the Go standard
library that `FirehoseOutput.Run` calls (`encoding/json`, `unicode/utf8`,
`time`), followed by the properties of the forwarding loop.

Conventions.
* A Go `string` / `[]byte` is a list of bytes, each byte a natural number.
  Every function below is total on arbitrary naturals; a number above 255 is
  treated like any other byte that is not valid UTF-8.
* Go's bit operations on bytes and runes are written with `/` and `%`
  (`x >> 6` is `x / 64`, `x & 0x3F` is `x % 64`, `a | b` on disjoint bits is
  `a + b`).
* The decoder and the encoder take the `float64` conversions as a parameter,
  see `Strconv`.  Go's conversions are the instance `float64`: a `float64` is
  its 64-bit IEEE 754 pattern, `strconv.ParseFloat` rounds the decimal literal
  to the nearest `float64` (ties to even, overflow is an error), and the
  encoder writes the shortest decimal that parses back to the same `float64`.
  Both are computed with exact integer arithmetic, and `float64_lawful` shows
  that they round-trip.
* The process's local time zone is a parameter of the model: a function from
  Unix seconds to the offset, in seconds, east of UTC in force at that instant.
* `encoding/json` is modelled as documented for Go 1.22: the decoder into
  `interface{}` and `map[string]interface{}` with the scanner's limit of
  10000 nested arrays and objects, the encoder with HTML escaping and sorted
  map keys.
* Loops over a byte string carry a fuel; `unquoteAux_fuel`,
  `appendStringAux_fuel` and `parse_fuel` show that the fuel given is never
  exhausted.
* `Run` is modelled on the finite sequence of packs its channel delivers; its
  result is the sequence of calls it makes on its collaborators, how it ends
  (return or panic), and the final state of the record client.
-/

namespace HekaCleverPlugins

/-- A Go string or byte slice. -/
abbrev Bytes := List Nat

/-- Bytes of an ASCII string literal. -/
def ascii (s : String) : Bytes := s.data.map Char.toNat

/-! ## unicode/utf8 -/

namespace utf8

/-- Go `utf8.RuneError`, U+FFFD. -/
def RuneError : Nat := 0xFFFD

/-- Go `utf8.ValidRune`: a Unicode scalar value. -/
def ValidRune (r : Nat) : Bool :=
  (decide (r < 0xD800)) || (decide (0xDFFF < r) && decide (r ≤ 0x10FFFF))

/-- Go `utf8.EncodeRune`: the UTF-8 encoding of `r`; a surrogate or a value
above U+10FFFF is encoded as U+FFFD. -/
def EncodeRune (r : Nat) : Bytes :=
  if r ≤ 0x7F then [r]
  else if r ≤ 0x7FF then [0xC0 + r / 64, 0x80 + r % 64]
  else if 0x10FFFF < r ∨ (0xD800 ≤ r ∧ r ≤ 0xDFFF) then [0xEF, 0xBF, 0xBD]
  else if r ≤ 0xFFFF then [0xE0 + r / 4096, 0x80 + r / 64 % 64, 0x80 + r % 64]
  else [0xF0 + r / 262144, 0x80 + r / 4096 % 64, 0x80 + r / 64 % 64, 0x80 + r % 64]

/-- Continuation byte test of `utf8.DecodeRune` (`locb ≤ b ≤ hicb`). -/
def isCont (b : Nat) : Bool := decide (0x80 ≤ b) && decide (b ≤ 0xBF)

/-- Go `utf8.DecodeRune`: the first rune of `p` and its width in bytes.  An
invalid or truncated encoding yields `(RuneError, 1)`, an empty input
`(RuneError, 0)`.  The case analysis on the first byte is the table `first`
with its `acceptRanges`. -/
def DecodeRune (p : Bytes) : Nat × Nat :=
  match p with
  | [] => (RuneError, 0)
  | p0 :: t =>
    if p0 < 0x80 then (p0, 1)
    else if p0 < 0xC2 then (RuneError, 1)
    else if p0 < 0xE0 then
      match t with
      | b1 :: _ => if isCont b1 then ((p0 % 32) * 64 + b1 % 64, 2) else (RuneError, 1)
      | [] => (RuneError, 1)
    else if p0 < 0xF0 then
      match t with
      | b1 :: b2 :: _ =>
        let lo := if p0 = 0xE0 then 0xA0 else 0x80
        let hi := if p0 = 0xED then 0x9F else 0xBF
        if b1 < lo ∨ hi < b1 then (RuneError, 1)
        else if isCont b2 then ((p0 % 16) * 4096 + (b1 % 64) * 64 + b2 % 64, 3)
        else (RuneError, 1)
      | _ => (RuneError, 1)
    else if p0 < 0xF5 then
      match t with
      | b1 :: b2 :: b3 :: _ =>
        let lo := if p0 = 0xF0 then 0x90 else 0x80
        let hi := if p0 = 0xF4 then 0x8F else 0xBF
        if b1 < lo ∨ hi < b1 then (RuneError, 1)
        else if isCont b2 then
          if isCont b3 then
            ((p0 % 8) * 262144 + (b1 % 64) * 4096 + (b2 % 64) * 64 + b3 % 64, 4)
          else (RuneError, 1)
        else (RuneError, 1)
      | _ => (RuneError, 1)
    else (RuneError, 1)

end utf8

/-! ## strconv

`encoding/json` decodes a JSON number into a `float64` with
`strconv.ParseFloat` and writes a `float64` back with `strconv.AppendFloat`.
The decoder and the encoder below take these conversions as a parameter; Go's
are the instance `float64`, defined after them. -/

/-- The `float64` operations used by `encoding/json`. -/
structure Strconv where
  /-- The type `float64`. -/
  Float64 : Type
  /-- The call `strconv.ParseFloat(s, 64)` on a JSON number literal; `none` is a range error. -/
  ParseFloat : Bytes → Option Float64
  /-- The test `math.IsInf(f, 0) || math.IsNaN(f)`. -/
  IsInfOrNaN : Float64 → Bool
  /-- The text that json's `floatEncoder` writes for a finite `f`. -/
  FormatFloat : Float64 → Bytes

/-- The `error` values that reach `Run`, by the call that returned them. -/
inductive Error where
  /-- Returned by `json.Unmarshal`: a `SyntaxError` or an `UnmarshalTypeError`. -/
  | unmarshal : Error
  /-- Returned by `json.Marshal`: an `UnsupportedValueError`. -/
  | marshal : Error
  /-- Returned by `RecordPutter.PutRecord`, with a code chosen by the client. -/
  | putRecord (code : Nat) : Error
  deriving DecidableEq, Repr

/-! ## encoding/json: values -/

namespace json

/-- What `json.Unmarshal` stores in an `interface{}`: `nil`, `bool`, `float64`,
`string`, `[]interface{}` or `map[string]interface{}`.  A map is represented
by its entries in increasing key order (see `mapassign`). -/
inductive Value (F : Type) where
  | null : Value F
  | bool (b : Bool) : Value F
  | number (f : F) : Value F
  | string (s : Bytes) : Value F
  | array (xs : List (Value F)) : Value F
  | object (m : List (Bytes × Value F)) : Value F

/-- Go's `<` on strings: bytewise lexicographic order. -/
def strLess : Bytes → Bytes → Bool
  | [], [] => false
  | [], _ :: _ => true
  | _ :: _, [] => false
  | a :: s, b :: t => if a < b then true else if b < a then false else strLess s t

/-- The map assignment `m[k] = v` on a non-nil map. -/
def mapassign {V : Type} (k : Bytes) (v : V) : List (Bytes × V) → List (Bytes × V)
  | [] => [(k, v)]
  | (k1, v1) :: rest =>
    if k = k1 then (k, v) :: rest
    else if strLess k k1 then (k, v) :: (k1, v1) :: rest
    else (k1, v1) :: mapassign k v rest

/-- The map index expression `m[k]` with its presence flag. -/
def mapaccess {V : Type} (k : Bytes) : List (Bytes × V) → Option V
  | [] => none
  | (k1, v1) :: rest => if k = k1 then some v1 else mapaccess k rest

/-- The map built by assigning the members of a JSON object in source order
to an empty map (a later duplicate key overwrites an earlier one). -/
def mapOfMembers {V : Type} (ms : List (Bytes × V)) : List (Bytes × V) :=
  ms.foldl (fun m kv => mapassign kv.1 kv.2 m) []

/-! ## encoding/json: decoding -/

/-- The scanner's `isSpace`: space, tab, carriage return, line feed. -/
def isSpace (c : Nat) : Bool := c = 32 || c = 9 || c = 13 || c = 10

/-- Skip JSON white space. -/
def skipSpace : Bytes → Bytes
  | [] => []
  | c :: t => if isSpace c then skipSpace t else c :: t

/-- Decimal digit test. -/
def isDigit (c : Nat) : Bool := decide (48 ≤ c) && decide (c ≤ 57)

/-- The longest run of decimal digits at the front of the input, and the rest. -/
def scanDigits : Bytes → Bytes × Bytes
  | [] => ([], [])
  | c :: t => if isDigit c then (c :: (scanDigits t).1, (scanDigits t).2) else ([], c :: t)

/-- Scanner states `stateE`, `stateESign`, `stateE0`: an optional exponent. -/
def scanExp (acc : Bytes) (s : Bytes) : Option (Bytes × Bytes) :=
  match s with
  | [] => some (acc, [])
  | c :: t =>
    if c = 101 ∨ c = 69 then
      match t with
      | [] => none
      | x :: u =>
        if x = 43 ∨ x = 45 then
          if (scanDigits u).1 = [] then none
          else some (acc ++ c :: x :: (scanDigits u).1, (scanDigits u).2)
        else
          if (scanDigits t).1 = [] then none
          else some (acc ++ c :: (scanDigits t).1, (scanDigits t).2)
    else some (acc, c :: t)

/-- Scanner states `stateDot`, `stateDot0`: an optional fraction, then the exponent. -/
def scanFrac (acc : Bytes) (s : Bytes) : Option (Bytes × Bytes) :=
  match s with
  | 46 :: t =>
    if (scanDigits t).1 = [] then none
    else scanExp (acc ++ 46 :: (scanDigits t).1) (scanDigits t).2
  | _ => scanExp acc s

/-- Scanner states `stateNeg`, `state0`, `state1`: the integer part. -/
def scanInt (acc : Bytes) (s : Bytes) : Option (Bytes × Bytes) :=
  match s with
  | [] => none
  | c :: t =>
    if c = 48 then scanFrac (acc ++ [48]) t
    else if 49 ≤ c ∧ c ≤ 57 then scanFrac (acc ++ c :: (scanDigits t).1) (scanDigits t).2
    else none

/-- The number literal at the front of the input and what follows it; `none`
when the input does not start with a JSON number. -/
def scanNumber (s : Bytes) : Option (Bytes × Bytes) :=
  match s with
  | 45 :: t => scanInt [45] t
  | _ => scanInt [] s

/-- Value of a hexadecimal digit. -/
def hexVal (c : Nat) : Option Nat :=
  if 48 ≤ c ∧ c ≤ 57 then some (c - 48)
  else if 97 ≤ c ∧ c ≤ 102 then some (c - 97 + 10)
  else if 65 ≤ c ∧ c ≤ 70 then some (c - 65 + 10)
  else none

/-- Go `getu4` on the four bytes after a backslash and `u`: the 16-bit value
and the rest of the input. -/
def getu4 (s : Bytes) : Option (Nat × Bytes) :=
  match s with
  | a :: b :: c :: d :: t =>
    match hexVal a, hexVal b, hexVal c, hexVal d with
    | some x, some y, some z, some w => some (((x * 16 + y) * 16 + z) * 16 + w, t)
    | _, _, _, _ => none
  | _ => none

/-- Go `utf16.IsSurrogate`. -/
def isSurrogate (r : Nat) : Bool := decide (0xD800 ≤ r) && decide (r < 0xE000)

/-- Go `utf16.DecodeRune`: the code point of a surrogate pair, U+FFFD when
the two values are not a valid pair. -/
def utf16DecodeRune (r1 r2 : Nat) : Nat :=
  if 0xD800 ≤ r1 ∧ r1 < 0xDC00 ∧ 0xDC00 ≤ r2 ∧ r2 < 0xE000 then
    (r1 - 0xD800) * 1024 + (r2 - 0xDC00) + 0x10000
  else utf8.RuneError

/-- One escape sequence after its backslash, as the scanner accepts it and
`unquote` decodes it: the decoded bytes and the input after the escape.  A
`\u` escape holding a surrogate is combined with a following `\u` escape when
the two form a valid pair and is replaced by U+FFFD otherwise. -/
def unescape (t : Bytes) : Option (Bytes × Bytes) :=
  match t with
  | [] => none
  | e :: u =>
    if e = 34 ∨ e = 92 ∨ e = 47 then some ([e], u)
    else if e = 98 then some ([8], u)
    else if e = 102 then some ([12], u)
    else if e = 110 then some ([10], u)
    else if e = 114 then some ([13], u)
    else if e = 116 then some ([9], u)
    else if e = 117 then
      match getu4 u with
      | none => none
      | some (rr, u1) =>
        if isSurrogate rr then
          match u1 with
          | 92 :: 117 :: u2 =>
            match getu4 u2 with
            | some (rr1, u3) =>
              if utf16DecodeRune rr rr1 = utf8.RuneError then
                some (utf8.EncodeRune utf8.RuneError, u1)
              else some (utf8.EncodeRune (utf16DecodeRune rr rr1), u3)
            | none => some (utf8.EncodeRune utf8.RuneError, u1)
          | _ => some (utf8.EncodeRune utf8.RuneError, u1)
        else some (utf8.EncodeRune rr, u1)
    else none

/-- The string literal after its opening quote: the scanner's `stateInString`
family together with `unquote`.  Returns the decoded Go string and the input
after the closing quote; `none` on a control character, a bad escape or a
missing closing quote.  Each round consumes at least one byte, so a fuel of
the input length is enough (see `unquote`). -/
def unquoteAux : Nat → Bytes → Option (Bytes × Bytes)
  | 0, _ => none
  | _ + 1, [] => none
  | fuel + 1, c :: t =>
    if c = 34 then some ([], t)
    else if c = 92 then
      match unescape t with
      | none => none
      | some (piece, u) => (unquoteAux fuel u).map (fun r => (piece ++ r.1, r.2))
    else if c < 32 then none
    else if c < 128 then (unquoteAux fuel t).map (fun r => (c :: r.1, r.2))
    else
      (unquoteAux fuel ((c :: t).drop (utf8.DecodeRune (c :: t)).2)).map
        (fun r => (utf8.EncodeRune (utf8.DecodeRune (c :: t)).1 ++ r.1, r.2))

/-- A string literal after its opening quote. -/
def unquote (s : Bytes) : Option (Bytes × Bytes) := unquoteAux s.length s

/-- The scanner's constant `maxNestingDepth`. -/
def maxNestingDepth : Nat := 10000

mutual
/-- The decoder's `valueInterface`: the JSON value at the front of the input
(after optional white space) as a Go value, and the input that follows it.
`depth` is the number of arrays and objects open around the value (the length
of the scanner's `parseState`); opening one more when `maxNestingDepth` are
open already is the scanner's error "exceeded max depth".  `none` when the
text is not valid JSON, is nested too deeply, or a number is out of range for
`float64` (in all cases `Unmarshal` returns a non-nil error). -/
def parseValue (sc : Strconv) : Nat → Nat → Bytes → Option (Value sc.Float64 × Bytes)
  | 0, _, _ => none
  | fuel + 1, depth, s =>
    match skipSpace s with
    | [] => none
    | c :: t =>
      if c = 123 then
        if maxNestingDepth ≤ depth then none
        else
          match skipSpace t with
          | 125 :: t1 => some (Value.object [], t1)
          | _ =>
            (parseMembers sc fuel (depth + 1) t).map
              (fun r => (Value.object (mapOfMembers r.1), r.2))
      else if c = 91 then
        if maxNestingDepth ≤ depth then none
        else
          match skipSpace t with
          | 93 :: t1 => some (Value.array [], t1)
          | _ => (parseElements sc fuel (depth + 1) t).map (fun r => (Value.array r.1, r.2))
      else if c = 34 then (unquote t).map (fun r => (Value.string r.1, r.2))
      else if c = 116 then
        match t with
        | 114 :: 117 :: 101 :: t1 => some (Value.bool true, t1)
        | _ => none
      else if c = 102 then
        match t with
        | 97 :: 108 :: 115 :: 101 :: t1 => some (Value.bool false, t1)
        | _ => none
      else if c = 110 then
        match t with
        | 117 :: 108 :: 108 :: t1 => some (Value.null, t1)
        | _ => none
      else
        match scanNumber (c :: t) with
        | none => none
        | some (lit, rest) => (sc.ParseFloat lit).map (fun f => (Value.number f, rest))
/-- The elements of a non-empty array up to and including the closing
bracket, `depth` counting the array itself. -/
def parseElements (sc : Strconv) :
    Nat → Nat → Bytes → Option (List (Value sc.Float64) × Bytes)
  | 0, _, _ => none
  | fuel + 1, depth, s =>
    match parseValue sc fuel depth s with
    | none => none
    | some (v, r) =>
      match skipSpace r with
      | 44 :: r1 => (parseElements sc fuel depth r1).map (fun q => (v :: q.1, q.2))
      | 93 :: r1 => some ([v], r1)
      | _ => none
/-- The members of a non-empty object, in source order, up to and including
the closing brace, `depth` counting the object itself. -/
def parseMembers (sc : Strconv) :
    Nat → Nat → Bytes → Option (List (Bytes × Value sc.Float64) × Bytes)
  | 0, _, _ => none
  | fuel + 1, depth, s =>
    match skipSpace s with
    | 34 :: t =>
      match unquote t with
      | none => none
      | some (k, r) =>
        match skipSpace r with
        | 58 :: r1 =>
          match parseValue sc fuel depth r1 with
          | none => none
          | some (v, r2) =>
            match skipSpace r2 with
            | 44 :: r3 => (parseMembers sc fuel depth r3).map (fun q => ((k, v) :: q.1, q.2))
            | 125 :: r3 => some ([(k, v)], r3)
            | _ => none
        | _ => none
    | _ => none
end

/-- The whole input as one JSON value: `checkValid` followed by decoding into
an `interface{}`, starting with no array or object open.  Nested calls of the
parser alternate with consumed bytes, so a fuel of twice the input length
plus two is never exhausted (see `parseValue_decode_fuel`). -/
def decode (sc : Strconv) (data : Bytes) : Option (Value sc.Float64) :=
  match parseValue sc (2 * data.length + 2) 0 data with
  | none => none
  | some (v, rest) => if skipSpace rest = [] then some v else none

/-- The call `json.Unmarshal(data, &object)` for `object` of type
`map[string]interface{}` holding an empty map.  The result is the new value of
`object` (`none` is the nil map) or the error: a JSON object is stored as a
map, the JSON `null` sets `object` to nil without error, every other value is
an `UnmarshalTypeError`. -/
def Unmarshal (sc : Strconv) (data : Bytes) :
    Except Error (Option (List (Bytes × Value sc.Float64))) :=
  match decode sc data with
  | none => Except.error Error.unmarshal
  | some (Value.object m) => Except.ok (some m)
  | some Value.null => Except.ok none
  | some _ => Except.error Error.unmarshal

/-! ## encoding/json: encoding -/

/-- The table `hex` of the encoder: the lower-case hexadecimal digit. -/
def hexDigit (n : Nat) : Nat := if n < 10 then 48 + n else 87 + n

/-- The table `htmlSafeSet`: ASCII bytes written unescaped. -/
def htmlSafe (b : Nat) : Bool :=
  decide (0x20 ≤ b) && decide (b < 0x80) && !(b = 34 || b = 92 || b = 60 || b = 62 || b = 38)

/-- The loop of `appendString` (HTML escaping on, as `Marshal` sets it). -/
def appendStringAux : Nat → Bytes → Bytes
  | 0, _ => []
  | _ + 1, [] => []
  | fuel + 1, b :: t =>
    if b < 0x80 then
      if htmlSafe b then b :: appendStringAux fuel t
      else if b = 92 ∨ b = 34 then 92 :: b :: appendStringAux fuel t
      else if b = 8 then 92 :: 98 :: appendStringAux fuel t
      else if b = 12 then 92 :: 102 :: appendStringAux fuel t
      else if b = 10 then 92 :: 110 :: appendStringAux fuel t
      else if b = 13 then 92 :: 114 :: appendStringAux fuel t
      else if b = 9 then 92 :: 116 :: appendStringAux fuel t
      else 92 :: 117 :: 48 :: 48 :: hexDigit (b / 16) :: hexDigit (b % 16) ::
        appendStringAux fuel t
    else if (utf8.DecodeRune (b :: t)).1 = utf8.RuneError ∧ (utf8.DecodeRune (b :: t)).2 = 1 then
      92 :: 117 :: 102 :: 102 :: 102 :: 100 :: appendStringAux fuel t
    else if (utf8.DecodeRune (b :: t)).1 = 0x2028 ∨ (utf8.DecodeRune (b :: t)).1 = 0x2029 then
      92 :: 117 :: 50 :: 48 :: 50 :: hexDigit ((utf8.DecodeRune (b :: t)).1 % 16) ::
        appendStringAux fuel ((b :: t).drop (utf8.DecodeRune (b :: t)).2)
    else
      (b :: t).take (utf8.DecodeRune (b :: t)).2 ++
        appendStringAux fuel ((b :: t).drop (utf8.DecodeRune (b :: t)).2)

/-- The encoder's `appendString`: a Go string as a quoted JSON string. -/
def appendString (s : Bytes) : Bytes := 34 :: (appendStringAux s.length s ++ [34])

mutual
/-- The encoder for an `interface{}` holding a decoded value; `none` is the
`UnsupportedValueError` for an infinite or NaN `float64`. -/
def encodeValue (sc : Strconv) : Value sc.Float64 → Option Bytes
  | Value.null => some [110, 117, 108, 108]
  | Value.bool true => some [116, 114, 117, 101]
  | Value.bool false => some [102, 97, 108, 115, 101]
  | Value.number f => if sc.IsInfOrNaN f then none else some (sc.FormatFloat f)
  | Value.string s => some (appendString s)
  | Value.array [] => some [91, 93]
  | Value.array (x :: xs) =>
    match encodeValue sc x, encodeElements sc xs with
    | some a, some b => some (91 :: (a ++ b))
    | _, _ => none
  | Value.object [] => some [123, 125]
  | Value.object ((k, x) :: ms) =>
    match encodeValue sc x, encodeMembers sc ms with
    | some a, some b => some (123 :: (appendString k ++ 58 :: (a ++ b)))
    | _, _ => none
/-- The remaining elements of an array, each after a comma, and the closing bracket. -/
def encodeElements (sc : Strconv) : List (Value sc.Float64) → Option Bytes
  | [] => some [93]
  | x :: xs =>
    match encodeValue sc x, encodeElements sc xs with
    | some a, some b => some (44 :: (a ++ b))
    | _, _ => none
/-- The remaining members of a map, each after a comma, in key order, and the
closing brace. -/
def encodeMembers (sc : Strconv) : List (Bytes × Value sc.Float64) → Option Bytes
  | [] => some [125]
  | (k, x) :: ms =>
    match encodeValue sc x, encodeMembers sc ms with
    | some a, some b => some (44 :: (appendString k ++ 58 :: (a ++ b)))
    | _, _ => none
end

/-- The call `json.Marshal(object)` for `object` of type
`map[string]interface{}`: a nil map is written as `null`, a map as a JSON
object with its keys in increasing order. -/
def Marshal (sc : Strconv) (object : Option (List (Bytes × Value sc.Float64))) :
    Except Error Bytes :=
  match object with
  | none => Except.ok [110, 117, 108, 108]
  | some m =>
    match encodeValue sc (Value.object m) with
    | none => Except.error Error.marshal
    | some b => Except.ok b

end json

/-! ## strconv and math: `float64`

A `float64` is represented by its bits (`math.Float64bits`): sign, eleven bits
of biased exponent, fifty-two bits of fraction.  A finite `float64` has the
value `m * 2 ^ e` for its mantissa `m < 2 ^ 53` and its exponent
`-1074 ≤ e ≤ 971`, see `mantExp`. -/

namespace strconv

/-- The value of a string of decimal digits. -/
def digitsVal (ds : Bytes) : Nat := ds.foldl (fun a c => 10 * a + (c - 48)) 0

/-- The exponent of a literal as `readFloat` accumulates it,
`if e < 10000 { e = e*10 + int(s[i]) - '0' }`: exact up to 99999. -/
def expVal (ds : Bytes) : Nat :=
  ds.foldl (fun e c => if e < 10000 then e * 10 + (c - 48) else e) 0

/-- The input after an optional sign `+` or `-`. -/
def skipSign (s : Bytes) : Bytes :=
  match s with
  | 43 :: t => t
  | 45 :: t => t
  | _ => s

/-- The exponent part of a literal in `readFloat`: nothing, or `e` or `E`, an
optional sign and at least one digit, up to the end of the literal. -/
def readExp (s : Bytes) : Option Int :=
  match s with
  | [] => some 0
  | c :: t =>
    if c = 101 ∨ c = 69 then
      let ds := (json.scanDigits (skipSign t)).1
      if ds = [] ∨ (json.scanDigits (skipSign t)).2 ≠ [] then none
      else some (if t.head? = some 45 then -(expVal ds : Int) else (expVal ds : Int))
    else none

/-- The fraction digits of a literal in `readFloat` and what follows them,
given the input after the integer digits. -/
def readFrac (s : Bytes) : Bytes × Bytes :=
  match s with
  | 46 :: t => json.scanDigits t
  | _ => ([], s)

/-- Go `readFloat` on a decimal literal (optional sign, digits with an
optional point, optional exponent): the sign, the decimal mantissa and the
decimal exponent, the literal denoting `mantissa * 10 ^ exponent`.  `none` is
the syntax error; the other forms `ParseFloat` reads (hexadecimal, `Inf`,
`NaN`) never occur in a JSON number and are reported as errors here. -/
def readFloat (s : Bytes) : Option (Bool × Nat × Int) :=
  let neg := decide (s.head? = some 45)
  let ip := (json.scanDigits (skipSign s)).1
  let fp := (readFrac (json.scanDigits (skipSign s)).2).1
  if ip = [] ∧ fp = [] then none
  else
    match readExp (readFrac (json.scanDigits (skipSign s)).2).2 with
    | none => none
    | some e => some (neg, digitsVal (ip ++ fp), e - (fp.length : Int))

/-- The loop of `bitLen`. -/
def bitLenAux : Nat → Nat → Nat
  | 0, _ => 0
  | fuel + 1, n => if n = 0 then 0 else bitLenAux fuel (n / 2) + 1

/-- The number of binary digits of `n` (Go `bits.Len`). -/
def bitLen (n : Nat) : Nat := bitLenAux n n

/-- The binary exponent of the positive ratio `n / d`: the `L` with
`2 ^ L ≤ n / d < 2 ^ (L + 1)`. -/
def floorLog2 (n d : Nat) : Int :=
  let l : Int := (bitLen n : Int) - (bitLen d : Int)
  if d * 2 ^ l.toNat ≤ n * 2 ^ (-l).toNat then l else l - 1

/-- The rounding of `decimal.floatBits`: the positive ratio `n / d` as a
mantissa `m` and a binary exponent `e ≥ -1074`, `m * 2 ^ e` being the nearest
such value to `n / d` with `m < 2 ^ 53`, ties going to the even mantissa.  The
exponent is that of `n / d` scaled to 53 bits, or -1074 for a denormal; a
mantissa rounded up to `2 ^ 53` is shifted down. -/
def roundRatio (n d : Nat) : Nat × Int :=
  let e : Int := max (floorLog2 n d - 52) (-1074)
  let num := n * 2 ^ (-e).toNat
  let den := d * 2 ^ e.toNat
  let q := num / den
  let r := num % den
  let m := if 2 * r < den then q else if den < 2 * r then q + 1 else q + q % 2
  if m = 2 ^ 53 then (2 ^ 52, e + 1) else (m, e)

/-- The bits of the `float64` with the given sign, mantissa and exponent;
`none` is the overflow (`ErrRange`) of an exponent above 971. -/
def floatBits (neg : Bool) (me : Nat × Int) : Option Nat :=
  if 971 < me.2 then none
  else some ((if neg then 2 ^ 63 else 0) +
    (if me.1 < 2 ^ 52 then me.1 else (me.2 + 1075).toNat * 2 ^ 52 + (me.1 - 2 ^ 52)))

/-- The `float64` nearest to `mant * 10 ^ exp`, with the given sign (Go
`atof64` after `readFloat`).  A zero mantissa gives a signed zero. -/
def atof (neg : Bool) (mant : Nat) (exp : Int) : Option Nat :=
  if mant = 0 then some (if neg then 2 ^ 63 else 0)
  else floatBits neg (roundRatio (mant * 10 ^ exp.toNat) (10 ^ (-exp).toNat))

/-- The call `strconv.ParseFloat(s, 64)` on a decimal literal: the bits of
the nearest `float64`; `none` is a non-nil error (syntax or range). -/
def ParseFloat (s : Bytes) : Option Nat :=
  match readFloat s with
  | none => none
  | some (neg, mant, exp) => atof neg mant exp

/-- Decimal digits of `u`, most significant first, prepended to `acc`. -/
def decimalAux : Nat → Nat → Bytes → Bytes
  | 0, _, acc => acc
  | fuel + 1, u, acc => if u = 0 then acc else decimalAux fuel (u / 10) ((48 + u % 10) :: acc)

/-- Decimal digits of `u`, at least one. -/
def decimal (u : Nat) : Bytes := if u = 0 then [48] else decimalAux u u []

/-- The loop of `trim`. -/
def trimAux : Nat → Nat → Int → Nat × Int
  | 0, c, x => (c, x)
  | fuel + 1, c, x => if c ≠ 0 ∧ c % 10 = 0 then trimAux fuel (c / 10) (x + 1) else (c, x)

/-- Go `trim` on the decimal `c * 10 ^ x`: trailing zeros of `c` are moved
into the exponent. -/
def trim (c : Nat) (x : Int) : Nat × Int := trimAux c c x

/-- Mantissa and exponent of the finite `float64` with the given bits, as
`FormatFloat` extracts them: a biased exponent of zero is a denormal. -/
def mantExp (bits : Nat) : Nat × Int :=
  if bits / 2 ^ 52 % 2 ^ 11 = 0 then (bits % 2 ^ 52, -1074)
  else (bits % 2 ^ 52 + 2 ^ 52, ((bits / 2 ^ 52 % 2 ^ 11 : Nat) : Int) - 1075)

/-- The decimal `c.1 * 10 ^ c.2` with the given sign parses to the `float64`
with the given bits.  This is the test of `roundShortest` that a decimal lies
between its bounds `lower` and `upper`, the half-way points to the
neighbouring `float64` values, which are included when the mantissa is even:
the decimals between them are those that round to this `float64`. -/
def parsesTo (bits : Nat) (neg : Bool) (c : Nat × Int) : Bool :=
  decide (atof neg c.1 c.2 = some bits)

/-- The loop of `roundShortest` over the digits of the exact decimal
`I * 10 ^ x0` of a `float64`, `nd0` being the number of digits of `I`.  With
`n` digits kept, the decimal is rounded down when only that parses back,
rounded up when only that parses back, rounded to nearest (ties to the even
digit) when both do; otherwise one more digit is kept.  With all digits kept
the decimal is exact. -/
def shortestAux (bits : Nat) (neg : Bool) (I : Nat) (x0 : Int) (nd0 : Nat) :
    Nat → Nat → Nat × Int
  | 0, _ => trim I x0
  | fuel + 1, n =>
    let p := 10 ^ (nd0 - n)
    let down := trim (I / p) (x0 + ((nd0 - n : Nat) : Int))
    let up := trim (I / p + 1) (x0 + ((nd0 - n : Nat) : Int))
    if parsesTo bits neg down then
      if parsesTo bits neg up then
        if 2 * (I % p) < p ∨ (2 * (I % p) = p ∧ I / p % 2 = 0) then down else up
      else down
    else if parsesTo bits neg up then up
    else shortestAux bits neg I x0 nd0 fuel (n + 1)

/-- The shortest decimal `c.1 * 10 ^ c.2` that parses back to the non-zero
finite `float64` with the given bits, the nearest to its value among those of
that length (`FormatFloat` with precision -1).  The exact decimal of
`m * 2 ^ e` is `m * 2 ^ e` itself when `e ≥ 0` and `m * 5 ^ -e * 10 ^ e`
otherwise. -/
def shortest (bits : Nat) : Nat × Int :=
  let neg := decide (bits / 2 ^ 63 % 2 = 1)
  let me := mantExp bits
  let I := me.1 * (if 0 ≤ me.2 then 2 ^ me.2.toNat else 5 ^ (-me.2).toNat)
  let x0 : Int := if 0 ≤ me.2 then 0 else me.2
  let nd0 := (decimal I).length
  shortestAux bits neg I x0 nd0 (nd0 - 1) 1

/-- Go `fmtE` (`%e`) with all the digits `ds` of a decimal `0.ds * 10 ^ dp`:
first digit, point and further digits if any, `e`, the sign of the exponent
`dp - 1` and its digits, at least two (a `float64` has a decimal exponent
below 1000). -/
def fmtE (ds : Bytes) (dp : Int) : Bytes :=
  (match ds with
    | [] => [48]
    | d :: t => d :: (if t = [] then [] else 46 :: t)) ++
  101 :: (if dp - 1 < 0 then 45 else 43) ::
    (if (dp - 1).natAbs < 10 then [48, 48 + (dp - 1).natAbs] else decimal (dp - 1).natAbs)

/-- Go `fmtF` (`%f`) with all the digits `ds` of a decimal `0.ds * 10 ^ dp`:
the integer part, padded with zeros or `0`, then a point and the fraction if
there is one. -/
def fmtF (ds : Bytes) (dp : Int) : Bytes :=
  (if 0 < dp then ds.take dp.toNat ++ List.replicate (dp.toNat - ds.length) 48 else [48]) ++
  (if dp < (ds.length : Int) then 46 :: (List.replicate (-dp).toNat 48 ++ ds.drop dp.toNat)
   else [])

end strconv

namespace json

/-- The bits of the `float64` constant `1e-6`. -/
def float1eMinus6 : Nat := 0x3EB0C6F7A0B5ED8D

/-- The bits of the `float64` constant `1e21`. -/
def float1e21 : Nat := 0x444B1AE4D6E2EF50

/-- The clean-up of `floatEncoder` after `%e`: `e-09` becomes `e-9`. -/
def cleanExp (b : Bytes) : Bytes :=
  match b.reverse with
  | x :: 48 :: s :: 101 :: r => if s = 45 ∨ s = 43 then (x :: s :: 101 :: r).reverse else b
  | _ => b

/-- The encoder `floatEncoder(64)` on a finite `float64`: the shortest
decimal, written with `%e` when the absolute value is below `1e-6` or at
least `1e21` (finite positive `float64` values compare as their bits do) and
with `%f` otherwise. -/
def floatEncoder (bits : Nat) : Bytes :=
  let sign : Bytes := if bits / 2 ^ 63 % 2 = 1 then [45] else []
  let abs := bits % 2 ^ 63
  if abs = 0 then sign ++ [48]
  else
    let c := strconv.shortest bits
    let ds := strconv.decimal c.1
    let dp : Int := (ds.length : Int) + c.2
    if abs < float1eMinus6 ∨ float1e21 ≤ abs then cleanExp (sign ++ strconv.fmtE ds dp)
    else sign ++ strconv.fmtF ds dp

end json

/-- Go's `float64` conversions. -/
def float64 : Strconv where
  Float64 := Nat
  ParseFloat := strconv.ParseFloat
  IsInfOrNaN := fun bits => decide (bits / 2 ^ 52 % 2 ^ 11 = 2047)
  FormatFloat := json.floatEncoder

/-! ## Well-formed strings and values

The strings and values that `json.Unmarshal` produces, and on which
`json.Marshal` followed by `json.Unmarshal` is the identity. -/

/-- Valid UTF-8: a concatenation of encodings of Unicode scalar values (the
strings on which Go's `utf8.ValidString` holds). -/
inductive ValidString : Bytes → Prop where
  | nil : ValidString []
  | cons (r : Nat) (s : Bytes) : utf8.ValidRune r = true → ValidString s →
      ValidString (utf8.EncodeRune r ++ s)

/-- What `json.appendStringAux` writes for one rune of a valid string. -/
def escapeRune (r : Nat) : Bytes :=
  if r < 0x80 then
    if json.htmlSafe r then [r]
    else if r = 92 ∨ r = 34 then [92, r]
    else if r = 8 then [92, 98]
    else if r = 12 then [92, 102]
    else if r = 10 then [92, 110]
    else if r = 13 then [92, 114]
    else if r = 9 then [92, 116]
    else [92, 117, 48, 48, json.hexDigit (r / 16), json.hexDigit (r % 16)]
  else if r = 0x2028 ∨ r = 0x2029 then [92, 117, 50, 48, 50, json.hexDigit (r % 16)]
  else utf8.EncodeRune r

/-- What can follow a value in the encoder's output: nothing, a comma, a
closing bracket or a closing brace. -/
def valueEnd : Bytes → Bool
  | [] => true
  | c :: _ => c = 44 || c = 93 || c = 125

/-- The `float64` value `f` is finite, and the text the encoder writes for it
is a JSON number literal that `ParseFloat` converts back to `f`. -/
def Strconv.RoundTrips (sc : Strconv) (f : sc.Float64) : Prop :=
  sc.IsInfOrNaN f = false ∧ sc.ParseFloat (sc.FormatFloat f) = some f ∧
    ∀ rest, valueEnd rest = true →
      json.scanNumber (sc.FormatFloat f ++ rest) = some (sc.FormatFloat f, rest)

/-- The round-trip law of `strconv`: every `float64` that `ParseFloat` returns
for a literal is finite and survives formatting and parsing (Go formats with
the shortest digits that parse back to the same value, see `float64_lawful`). -/
def Strconv.Lawful (sc : Strconv) : Prop :=
  ∀ lit f, sc.ParseFloat lit = some f → sc.RoundTrips f

/-- The keys of a map representation are strictly increasing. -/
def SortedKeys {V : Type} (m : List (Bytes × V)) : Prop :=
  (m.map Prod.fst).Pairwise (fun a b => json.strLess a b = true)

/-- A value as `json.Unmarshal` builds it: strings and keys are valid UTF-8,
numbers round-trip, maps are represented with increasing keys. -/
inductive WF (sc : Strconv) : json.Value sc.Float64 → Prop where
  | null : WF sc json.Value.null
  | bool (b : Bool) : WF sc (json.Value.bool b)
  | number (f : sc.Float64) : sc.RoundTrips f → WF sc (json.Value.number f)
  | string (s : Bytes) : ValidString s → WF sc (json.Value.string s)
  | array (xs : List (json.Value sc.Float64)) : (∀ x ∈ xs, WF sc x) →
      WF sc (json.Value.array xs)
  | object (m : List (Bytes × json.Value sc.Float64)) : SortedKeys m →
      (∀ kv ∈ m, ValidString kv.1) → (∀ kv ∈ m, WF sc kv.2) →
      WF sc (json.Value.object m)

/-- A value without an infinite or NaN number: what `json.Marshal` accepts. -/
inductive Finite (sc : Strconv) : json.Value sc.Float64 → Prop where
  | null : Finite sc json.Value.null
  | bool (b : Bool) : Finite sc (json.Value.bool b)
  | number (f : sc.Float64) : sc.IsInfOrNaN f = false → Finite sc (json.Value.number f)
  | string (s : Bytes) : Finite sc (json.Value.string s)
  | array (xs : List (json.Value sc.Float64)) : (∀ x ∈ xs, Finite sc x) →
      Finite sc (json.Value.array xs)
  | object (m : List (Bytes × json.Value sc.Float64)) : (∀ kv ∈ m, Finite sc kv.2) →
      Finite sc (json.Value.object m)

/-- The first byte of an encoded value is not white space and closes neither
an array nor an object. -/
def HeadOK (b : Bytes) : Prop :=
  ∃ c t, b = c :: t ∧ json.isSpace c = false ∧ c ≠ 93 ∧ c ≠ 125

mutual
/-- The number of arrays and objects nested in a value, the value itself
included: what the scanner's `parseState` grows by while reading it. -/
def nesting {F : Type} : json.Value F → Nat
  | json.Value.array xs => nestingElements xs + 1
  | json.Value.object m => nestingMembers m + 1
  | _ => 0
/-- The largest `nesting` among the elements of an array. -/
def nestingElements {F : Type} : List (json.Value F) → Nat
  | [] => 0
  | x :: xs => max (nesting x) (nestingElements xs)
/-- The largest `nesting` among the values of a map. -/
def nestingMembers {F : Type} : List (Bytes × json.Value F) → Nat
  | [] => 0
  | (_, x) :: ms => max (nesting x) (nestingMembers ms)
end

/-- Decoding undoes encoding for the value `v`: whatever follows the encoded
text, with any fuel of at least twice its length, and at any depth that
leaves room for the nesting of `v`. -/
def ParsesBack (sc : Strconv) (v : json.Value sc.Float64) : Prop :=
  ∀ b, json.encodeValue sc v = some b → ∀ rest, valueEnd rest = true → ∀ fuel,
    2 * b.length ≤ fuel → ∀ depth, depth + nesting v ≤ json.maxNestingDepth →
      json.parseValue sc fuel depth (b ++ rest) = some (v, rest)

/-! ## time -/

namespace time

/-- A `time.Time`: seconds and nanoseconds since the Unix epoch.  Its location
is always `Local` here, see `Format`. -/
structure Time where
  sec : Int
  nsec : Int

/-- Go `time.Unix(sec, nsec)`, which normalises `nsec` into `[0, 1e9)`.  Go's
integer division truncates toward zero. -/
def Unix (sec nsec : Int) : Time :=
  if nsec < 0 ∨ nsec ≥ 1000000000 then
    let n : Int := if nsec < 0 then -((-nsec) / 1000000000) else nsec / 1000000000
    let sec1 := sec + n
    let nsec1 := nsec - n * 1000000000
    if nsec1 < 0 then { sec := sec1 - 1, nsec := nsec1 + 1000000000 }
    else { sec := sec1, nsec := nsec1 }
  else { sec := sec, nsec := nsec }

/-- The constant `unixToInternal + internalToAbsolute`. -/
def unixToAbsolute : Int := 9223372028715321600

/-- The constant `absoluteZeroYear`. -/
def absoluteZeroYear : Int := -292277022399

/-- The table `daysBefore`. -/
def daysBefore : List Nat := [0, 31, 59, 90, 120, 151, 181, 212, 243, 273, 304, 334, 365]

/-- Go `isLeap`. -/
def isLeap (year : Int) : Bool :=
  decide (year % 4 = 0) && (decide (year % 100 ≠ 0) || decide (year % 400 = 0))

/-- Go `absDate(abs, true)`: year, month (January is 1) and day of the month
of an absolute time in seconds. -/
def absDate (abs : Nat) : Int × Nat × Nat :=
  let d := abs / 86400
  -- 400-year cycles
  let n400 := d / 146097
  let d1 := d - 146097 * n400
  -- 100-year cycles
  let n100 := d1 / 36524 - d1 / 36524 / 4
  let d2 := d1 - 36524 * n100
  -- 4-year cycles
  let n4 := d2 / 1461
  let d3 := d2 - 1461 * n4
  -- years within a 4-year cycle
  let n1 := d3 / 365 - d3 / 365 / 4
  let yday := d3 - 365 * n1
  let year : Int := ((400 * n400 + 100 * n100 + 4 * n4 + n1 : Nat) : Int) + absoluteZeroYear
  if isLeap year ∧ yday = 31 + 29 - 1 then (year, 2, 29)
  else
    let day := if isLeap year ∧ yday > 31 + 29 - 1 then yday - 1 else yday
    let month := day / 31
    let fin := daysBefore.getD (month + 1) 0
    if day ≥ fin then (year, month + 2, day - fin + 1)
    else (year, month + 1, day - daysBefore.getD month 0 + 1)

/-- Go `absClock`: hour, minute and second of an absolute time. -/
def absClock (abs : Nat) : Nat × Nat × Nat :=
  let sec := abs % 86400
  let hour := sec / 3600
  let sec1 := sec - hour * 3600
  let min := sec1 / 60
  (hour, min, sec1 - min * 60)

/-- Decimal digits of `u`, most significant first, prepended to `acc`. -/
def decimalAux : Nat → Nat → Bytes → Bytes
  | 0, _, acc => acc
  | fuel + 1, u, acc => if u = 0 then acc else decimalAux fuel (u / 10) ((48 + u % 10) :: acc)

/-- Decimal digits of `u`, at least one. -/
def decimal (u : Nat) : Bytes := if u = 0 then [48] else decimalAux u u []

/-- Go `appendInt`: `x` in decimal, zero-padded to at least `width` digits,
with a leading minus sign when negative. -/
def appendInt (x : Int) (width : Nat) : Bytes :=
  (if x < 0 then [45] else []) ++
    (List.replicate (width - (decimal x.natAbs).length) 48 ++ decimal x.natAbs)

/-- Go `formatNano(b, nanosec, 3, false)`: a dot and the first three of the
nine zero-padded digits of the nanoseconds. -/
def formatNano3 (nanosec : Nat) : Bytes :=
  46 :: ((List.range 9).map (fun i => 48 + nanosec / 10 ^ (8 - i) % 10)).take 3

/-- The call `t.Format("2006-01-02 15:04:05.000")` for a `t` in the `Local`
location, `zone` giving the local offset (seconds east of UTC) in force at a
given Unix second.  The absolute time is a `uint64`. -/
def Format (zone : Int → Int) (t : Time) : Bytes :=
  let abs := ((t.sec + zone t.sec + unixToAbsolute) % 2 ^ 64).toNat
  let date := absDate abs
  let clock := absClock abs
  appendInt date.1 4 ++ 45 :: (appendInt date.2.1 2 ++ 45 :: (appendInt date.2.2 2 ++
    32 :: (appendInt clock.1 2 ++ 58 :: (appendInt clock.2.1 2 ++ 58 ::
      (appendInt clock.2.2 2 ++ formatNano3 (t.nsec % 2 ^ 64).toNat)))))

end time

/-! ## firehose_output.go -/

/-- The fields of a `message.Message` that `Run` reads: the payload and the
timestamp, an `int64` of nanoseconds since the Unix epoch. -/
structure Message where
  Payload : Bytes
  Timestamp : Int

/-- A `pipeline.PipelinePack`. -/
structure PipelinePack where
  Message : Message

/-- The interface `aws.RecordPutter`.  The client carries a state of its own
(connection, service side); `PutRecord` returns the error code or `none` for
a nil error. -/
structure RecordPutter (σ : Type) where
  PutRecord : σ → Bytes → σ × Option Nat

/-- The struct `FirehoseOutput`. -/
structure FirehoseOutput (σ : Type) where
  client : RecordPutter σ
  timestampColumn : Bytes

/-- The struct `FirehoseOutputConfig`. -/
structure FirehoseOutputConfig where
  Stream : Bytes
  Region : Bytes
  TimestampColumn : Bytes

/-- The method `FirehoseOutput.ConfigStruct`. -/
def ConfigStruct : FirehoseOutputConfig := { Stream := [], Region := [], TimestampColumn := [] }

/-- The method `FirehoseOutput.Init`; `NewFirehose` is the constructor
`aws.NewFirehose(region, stream)`. -/
def Init {σ : Type} (NewFirehose : Bytes → Bytes → RecordPutter σ)
    (config : FirehoseOutputConfig) : FirehoseOutput σ :=
  { client := NewFirehose config.Region config.Stream,
    timestampColumn := config.TimestampColumn }

/-- The calls `Run` makes on its collaborators, in the order of the source. -/
inductive Call where
  | GetPayload : Call
  | GetTimestamp : Call
  | Recycle : Call
  | Unmarshal (data : Bytes) : Call
  | Marshal : Call
  | PutRecord (record : Bytes) : Call
  | LogError (err : Error) : Call
  deriving DecidableEq, Repr

/-- A call together with the position, in the inbound channel, of the pack
being processed when it is made. -/
abbrev Event := Nat × Call

/-- How one round of the loop ends: the loop goes on to the next pack, or the
goroutine panics. -/
inductive Flow where
  | next : Flow
  | panic : Flow
  deriving DecidableEq, Repr

/-- How `Run` ends: it returns its error result (always nil), or it panics. -/
inductive Outcome where
  | returned (err : Option Error) : Outcome
  | panicked : Outcome
  deriving DecidableEq, Repr

/-- Lines 48 to 51: `object[f.timestampColumn] = timestamp` when the column is
set.  `none` is the runtime panic "assignment to entry in nil map". -/
def stamp {F : Type} (timestampColumn : Bytes) (timestamp : Bytes)
    (object : Option (List (Bytes × json.Value F))) :
    Option (Option (List (Bytes × json.Value F))) :=
  if timestampColumn ≠ [] then
    match object with
    | none => none
    | some m => some (some (json.mapassign timestampColumn (json.Value.string timestamp) m))
  else some object

/-- The body of the `for` loop of `Run` (lines 36 to 64) for the pack at
position `i`, the client being in state `s`: the calls made, how the round
ends, and the state of the client after it. -/
def iteration {σ : Type} (sc : Strconv) (zone : Int → Int) (f : FirehoseOutput σ)
    (i : Nat) (pack : PipelinePack) (s : σ) : List Event × Flow × σ :=
  let payload := pack.Message.Payload
  let timestamp := time.Format zone (time.Unix 0 pack.Message.Timestamp)
  let head : List Event :=
    [(i, Call.GetPayload), (i, Call.GetTimestamp), (i, Call.Recycle), (i, Call.Unmarshal payload)]
  match json.Unmarshal sc payload with
  | Except.error err => (head ++ [(i, Call.LogError err)], Flow.next, s)
  | Except.ok object =>
    match stamp f.timestampColumn timestamp object with
    | none => (head, Flow.panic, s)
    | some object1 =>
      match json.Marshal sc object1 with
      | Except.error err => (head ++ [(i, Call.Marshal), (i, Call.LogError err)], Flow.next, s)
      | Except.ok record =>
        match f.client.PutRecord s record with
        | (s1, some code) =>
          (head ++ [(i, Call.Marshal), (i, Call.PutRecord record),
            (i, Call.LogError (Error.putRecord code))], Flow.next, s1)
        | (s1, none) => (head ++ [(i, Call.Marshal), (i, Call.PutRecord record)], Flow.next, s1)

/-- The loop `for pack := range or.InChan()` from position `i` on, over the
packs still to come on the channel, followed by `return nil`. -/
def runLoop {σ : Type} (sc : Strconv) (zone : Int → Int) (f : FirehoseOutput σ) :
    Nat → List PipelinePack → σ → List Event × Outcome × σ
  | _, [], s => ([], Outcome.returned none, s)
  | i, pack :: rest, s =>
    match iteration sc zone f i pack s with
    | (evs, Flow.panic, s1) => (evs, Outcome.panicked, s1)
    | (evs, Flow.next, s1) =>
      (evs ++ (runLoop sc zone f (i + 1) rest s1).1, (runLoop sc zone f (i + 1) rest s1).2)

/-- The method `FirehoseOutput.Run` on the finite sequence of packs that the
inbound channel delivers before it is closed: the calls made in order, the
outcome, and the final state of the client. -/
def Run {σ : Type} (sc : Strconv) (zone : Int → Int) (f : FirehoseOutput σ)
    (inChan : List PipelinePack) (s : σ) : List Event × Outcome × σ :=
  runLoop sc zone f 0 inChan s

/-! ## Vocabulary of the properties -/

/-- The `PutRecord` calls of a sequence of events, in order: the position of
the pack and the record submitted. -/
def putRecords (evs : List Event) : List (Nat × Bytes) :=
  evs.filterMap (fun e =>
    match e.2 with
    | Call.PutRecord record => some (e.1, record)
    | _ => none)

/-- The errors logged in a sequence of events, in order, with the position of
the pack. -/
def logErrors (evs : List Event) : List (Nat × Error) :=
  evs.filterMap (fun e =>
    match e.2 with
    | Call.LogError err => some (e.1, err)
    | _ => none)

/-- The record that lines 36 to 53 compute for a pack, when decoding, stamping
and encoding all succeed. -/
def recordOf (sc : Strconv) (zone : Int → Int) (timestampColumn : Bytes)
    (pack : PipelinePack) : Option Bytes :=
  match json.Unmarshal sc pack.Message.Payload with
  | Except.error _ => none
  | Except.ok object =>
    match stamp timestampColumn (time.Format zone (time.Unix 0 pack.Message.Timestamp))
        object with
    | none => none
    | some object1 =>
      match json.Marshal sc object1 with
      | Except.error _ => none
      | Except.ok record => some record

/-- The first four calls of a round: payload, timestamp, release, decoding. -/
def headCalls (i : Nat) (pack : PipelinePack) : List Event :=
  [(i, Call.GetPayload), (i, Call.GetTimestamp), (i, Call.Recycle),
    (i, Call.Unmarshal pack.Message.Payload)]

/-- The events that log an error returned by `PutRecord`. -/
def isSinkErrorLog (e : Event) : Bool :=
  match e.2 with
  | Call.LogError (Error.putRecord _) => true
  | _ => false

/-- A client that accepts every record; its state counts the calls. -/
def acceptAll : RecordPutter Nat :=
  { PutRecord := fun s _ => (s + 1, none) }

/-- A client that rejects the first record and every second one after it with
error code 7 and accepts the others; its state counts the calls. -/
def rejectEveryOther : RecordPutter Nat :=
  { PutRecord := fun s _ => (s + 1, if s % 2 = 0 then some 7 else none) }

/-- The number `n` in `w` decimal digits, zero-padded (its low `w` digits). -/
def zeroPadded (w n : Nat) : Bytes :=
  (List.range w).map (fun i => 48 + n / 10 ^ (w - 1 - i) % 10)

/-- The empty array inside `k` arrays: a value with `k + 1` levels of nesting. -/
def nested {F : Type} : Nat → json.Value F
  | 0 => json.Value.array []
  | k + 1 => json.Value.array [nested k]

/-- The time zone UTC: offset zero at every instant. -/
def utc : Int → Int := fun _ => 0

/-- A `Strconv` for examples: the one-digit literals `0` to `9`, on which
`float64` conversion is exact.  Every other literal is reported out of range,
which the real library does not do; the instance only serves to evaluate
examples whose numbers are single digits. -/
def digitStrconv : Strconv where
  Float64 := Nat
  ParseFloat := fun s =>
    match s with
    | [c] => if 48 ≤ c ∧ c ≤ 57 then some (c - 48) else none
    | _ => none
  IsInfOrNaN := fun _ => false
  FormatFloat := fun n => [48 + n]

/-! ## Strings: quoting and unquoting -/

section Strings
open utf8 json

theorem decode_encode (r : Nat) (t : Bytes) (hv : ValidRune r = true) (h : 0x80 ≤ r) :
    DecodeRune (EncodeRune r ++ t) = (r, (EncodeRune r).length) ∧
    ∃ b u, EncodeRune r = b :: u ∧ 0x80 ≤ b := by
  simp only [ValidRune, Bool.or_eq_true, Bool.and_eq_true, decide_eq_true_eq] at hv
  unfold EncodeRune
  by_cases h1 : r ≤ 0x7F
  · omega
  by_cases h2 : r ≤ 0x7FF
  · simp only [h1, h2, if_false, if_true]
    refine ⟨?_, _, _, rfl, by omega⟩
    simp only [DecodeRune, List.cons_append, List.nil_append, isCont]
    have a1 : ¬ (0xC0 + r / 64 < 0x80) := by omega
    have a2 : ¬ (0xC0 + r / 64 < 0xC2) := by omega
    have a3 : (0xC0 + r / 64 < 0xE0) := by omega
    simp only [a1, a2, a3, if_false, if_true, Bool.and_eq_true, decide_eq_true_eq]
    rw [if_pos (by omega)]
    simp only [List.length_cons, List.length_nil, Prod.mk.injEq, and_true]
    omega
  have h3 : ¬ (0x10FFFF < r ∨ (0xD800 ≤ r ∧ r ≤ 0xDFFF)) := by omega
  by_cases h4 : r ≤ 0xFFFF
  · simp only [h1, h2, h3, h4, if_false, if_true]
    refine ⟨?_, _, _, rfl, by omega⟩
    simp only [DecodeRune, List.cons_append, List.nil_append, isCont]
    have a1 : ¬ (0xE0 + r / 4096 < 0x80) := by omega
    have a2 : ¬ (0xE0 + r / 4096 < 0xC2) := by omega
    have a3 : ¬ (0xE0 + r / 4096 < 0xE0) := by omega
    have a4 : (0xE0 + r / 4096 < 0xF0) := by omega
    simp only [a1, a2, a3, a4, if_false, if_true, Bool.and_eq_true, decide_eq_true_eq]
    rw [if_neg (by split_ifs <;> omega), if_pos (by omega)]
    simp only [List.length_cons, List.length_nil, Prod.mk.injEq, and_true]
    omega
  · simp only [h1, h2, h3, h4, if_false, if_true]
    refine ⟨?_, _, _, rfl, by omega⟩
    simp only [DecodeRune, List.cons_append, List.nil_append, isCont]
    have a1 : ¬ (0xF0 + r / 262144 < 0x80) := by omega
    have a2 : ¬ (0xF0 + r / 262144 < 0xC2) := by omega
    have a3 : ¬ (0xF0 + r / 262144 < 0xE0) := by omega
    have a4 : ¬ (0xF0 + r / 262144 < 0xF0) := by omega
    have a5 : (0xF0 + r / 262144 < 0xF5) := by omega
    simp only [a1, a2, a3, a4, a5, if_false, if_true, Bool.and_eq_true, decide_eq_true_eq]
    rw [if_neg (by split_ifs <;> omega), if_pos (by omega), if_pos (by omega)]
    simp only [List.length_cons, List.length_nil, Prod.mk.injEq, and_true]
    omega
theorem encodeRune_length_ge (r : Nat) (h : 0x80 ≤ r) : 2 ≤ (EncodeRune r).length := by
  unfold EncodeRune
  split_ifs <;> first | omega | simp

theorem appendStringAux_rune (r : Nat) (hv : ValidRune r = true) (s : Bytes) (fuel : Nat) :
    appendStringAux (fuel + 1) (EncodeRune r ++ s) = escapeRune r ++ appendStringAux fuel s := by
  by_cases h : r < 0x80
  · have e : EncodeRune r = [r] := by simp [EncodeRune]; omega
    rw [e]
    simp only [List.cons_append, List.nil_append, appendStringAux, escapeRune, h, if_true]
    split_ifs <;> simp
  · obtain ⟨hd, b, u, hbu, hb⟩ := decode_encode r s hv (by omega)
    have hl := encodeRune_length_ge r (by omega)
    have hne : ¬ (b < 0x80) := by omega
    have hd2 : DecodeRune (b :: (u ++ s)) = (r, (EncodeRune r).length) := by
      rw [← hd, hbu]; rfl
    rw [hbu, List.cons_append, appendStringAux]
    simp only [hne, if_false, hd2]
    rw [if_neg (by omega)]
    have hdrop : List.drop (EncodeRune r).length (b :: (u ++ s)) = s := by
      rw [← List.cons_append, ← hbu]; simp
    have htake : List.take (EncodeRune r).length (b :: (u ++ s)) = EncodeRune r := by
      rw [← List.cons_append, ← hbu]; simp
    rw [hdrop, htake]
    simp only [escapeRune, h, if_false]
    split_ifs <;> simp [hbu]

theorem hexVal_hexDigit (n : Nat) (h : n < 16) : hexVal (hexDigit n) = some n := by
  unfold hexDigit hexVal
  split_ifs <;> first | omega | (simp; done) | (simp; omega)

theorem getu4_hex (a b : Nat) (ha : a < 16) (hb : b < 16) (t : Bytes) :
    getu4 (48 :: 48 :: hexDigit a :: hexDigit b :: t) = some (a * 16 + b, t) := by
  have h0 : hexVal 48 = some 0 := by decide
  simp [getu4, h0, hexVal_hexDigit a ha, hexVal_hexDigit b hb]

theorem unescape_u (u : Bytes) (rr : Nat) (u1 : Bytes)
    (hg : getu4 u = some (rr, u1)) (hs : isSurrogate rr = false) :
    unescape (117 :: u) = some (EncodeRune rr, u1) := by
  simp [unescape, hg, hs]

theorem unquoteAux_escape (fuel : Nat) (t piece u : Bytes)
    (h : unescape t = some (piece, u)) :
    unquoteAux (fuel + 1) (92 :: t) =
      (unquoteAux fuel u).map (fun q => (piece ++ q.1, q.2)) := by
  simp [unquoteAux, h]

theorem unquoteAux_rune (r : Nat) (hv : ValidRune r = true) (t : Bytes) (fuel : Nat) :
    unquoteAux (fuel + 1) (escapeRune r ++ t) =
      (unquoteAux fuel t).map (fun q => (EncodeRune r ++ q.1, q.2)) := by
  by_cases h : r < 0x80
  · have e : EncodeRune r = [r] := by simp [EncodeRune]; omega
    rw [e]
    simp only [escapeRune, h, if_true]
    by_cases hs : htmlSafe r = true
    · simp only [hs, if_true]
      simp only [htmlSafe, Bool.and_eq_true, decide_eq_true_eq, Bool.not_eq_true',
        Bool.or_eq_false_iff, decide_eq_false_iff_not] at hs
      have c1 : ¬ r = 34 := by omega
      have c2 : ¬ r = 92 := by omega
      have c3 : ¬ r < 32 := by omega
      simp [unquoteAux, c1, c2, c3, h]
    · simp only [hs]
      simp only [htmlSafe, Bool.and_eq_true, decide_eq_true_eq, Bool.not_eq_true',
        Bool.or_eq_false_iff, decide_eq_false_iff_not] at hs
      by_cases c1 : r = 92
      · subst c1; exact unquoteAux_escape fuel _ _ _ (by simp [unescape])
      by_cases c2 : r = 34
      · subst c2; exact unquoteAux_escape fuel _ _ _ (by simp [unescape])
      by_cases c3 : r = 8
      · subst c3; exact unquoteAux_escape fuel _ _ _ (by simp [unescape])
      by_cases c4 : r = 12
      · subst c4; exact unquoteAux_escape fuel _ _ _ (by simp [unescape])
      by_cases c5 : r = 10
      · subst c5; exact unquoteAux_escape fuel _ _ _ (by simp [unescape])
      by_cases c6 : r = 13
      · subst c6; exact unquoteAux_escape fuel _ _ _ (by simp [unescape])
      by_cases c7 : r = 9
      · subst c7; exact unquoteAux_escape fuel _ _ _ (by simp [unescape])
      simp only [c1, c2, c3, c4, c5, c6, c7, or_self, if_false, Bool.false_eq_true]
      have hg := getu4_hex (r / 16) (r % 16) (by omega) (by omega) t
      have hr : r / 16 * 16 + r % 16 = r := by omega
      rw [hr] at hg
      have hsur : isSurrogate r = false := by
        simp [isSurrogate]; omega
      have := unquoteAux_escape fuel _ _ _ (unescape_u _ r t hg hsur)
      rw [e] at this
      exact this
  · simp only [escapeRune, h, if_false]
    by_cases c1 : r = 0x2028
    · subst c1
      simp only [true_or, if_true]
      have hg : getu4 (50 :: 48 :: 50 :: hexDigit (0x2028 % 16) :: t) = some (0x2028, t) := by
        simp [getu4, hexVal, hexDigit]
      exact unquoteAux_escape fuel _ _ _ (unescape_u _ 0x2028 t hg (by decide))
    by_cases c2 : r = 0x2029
    · subst c2
      simp only [or_true, if_true]
      have hg : getu4 (50 :: 48 :: 50 :: hexDigit (0x2029 % 16) :: t) = some (0x2029, t) := by
        simp [getu4, hexVal, hexDigit]
      exact unquoteAux_escape fuel _ _ _ (unescape_u _ 0x2029 t hg (by decide))
    simp only [c1, c2, or_self, if_false]
    obtain ⟨hd, b, u, hbu, hb⟩ := decode_encode r t hv (by omega)
    have hd2 : DecodeRune (b :: (u ++ t)) = (r, (EncodeRune r).length) := by
      rw [← hd, hbu]; rfl
    have hdrop : List.drop (EncodeRune r).length (b :: (u ++ t)) = t := by
      rw [← List.cons_append, ← hbu]; simp
    have e1 : ¬ b = 34 := by omega
    have e2 : ¬ b = 92 := by omega
    have e3 : ¬ b < 32 := by omega
    have e4 : ¬ b < 128 := by omega
    have hgoal : unquoteAux (fuel + 1) (b :: (u ++ t)) =
        (unquoteAux fuel t).map (fun q => (EncodeRune r ++ q.1, q.2)) := by
      simp only [unquoteAux, e1, e2, e3, e4, if_false, hd2, hdrop]
    rw [← hgoal, hbu, List.cons_append]

theorem appendStringAux_nil (fuel : Nat) : appendStringAux fuel [] = [] := by
  cases fuel <;> rfl

theorem escapeRune_length_pos (r : Nat) : 1 ≤ (escapeRune r).length := by
  unfold escapeRune EncodeRune
  split_ifs <;> simp

theorem encodeRune_length_pos (r : Nat) : 1 ≤ (EncodeRune r).length := by
  unfold EncodeRune
  split_ifs <;> simp

theorem unquoteAux_appendStringAux (s : Bytes) (hs : ValidString s) :
    ∀ (rest : Bytes) (fa fu : Nat), s.length ≤ fa →
      (appendStringAux fa s).length + 1 ≤ fu →
      unquoteAux fu (appendStringAux fa s ++ 34 :: rest) = some (s, rest) := by
  induction hs with
  | nil =>
    intro rest fa fu _ hfu
    rw [appendStringAux_nil] at hfu ⊢
    obtain ⟨n, rfl⟩ : ∃ n, fu = n + 1 := ⟨fu - 1, by simp at hfu; omega⟩
    simp [unquoteAux]
  | cons r s hv _ ih =>
    intro rest fa fu hfa hfu
    have hl := encodeRune_length_pos r
    have he := escapeRune_length_pos r
    obtain ⟨n, rfl⟩ : ∃ n, fa = n + 1 := ⟨fa - 1, by simp at hfa; omega⟩
    rw [appendStringAux_rune r hv] at hfu ⊢
    obtain ⟨k, rfl⟩ : ∃ k, fu = k + 1 := ⟨fu - 1, by simp at hfu; omega⟩
    rw [List.append_assoc, unquoteAux_rune r hv]
    rw [ih rest n k (by simp at hfa; omega) (by simp at hfu; omega)]
    rfl

theorem unquote_appendString (s : Bytes) (hs : ValidString s) (rest : Bytes) :
    ∃ body, appendString s ++ rest = 34 :: body ∧ unquote body = some (s, rest) := by
  refine ⟨appendStringAux s.length s ++ 34 :: rest, by simp [appendString], ?_⟩
  exact unquoteAux_appendStringAux s hs rest _ _ (le_refl _) (by simp)

end Strings

/-! ## Maps -/

section Maps
open json

theorem strLess_irrefl (a : Bytes) : strLess a a = false := by
  induction a with
  | nil => rfl
  | cons x s ih => simp [strLess, ih]

theorem strLess_asymm : ∀ (a b : Bytes), strLess a b = true → strLess b a = false
  | [], [], h => by simp [strLess] at h
  | [], _ :: _, _ => by simp [strLess]
  | _ :: _, [], h => by simp [strLess] at h
  | x :: s, y :: t, h => by
    simp only [strLess] at h ⊢
    by_cases h1 : x < y
    · have h2 : ¬ y < x := by omega
      simp [h2, h1]
    · by_cases h2 : y < x
      · simp [h1, h2] at h
      · simp only [h1, h2, if_false] at h ⊢
        exact strLess_asymm s t h

theorem strLess_trans (a b c : Bytes) (h1 : strLess a b = true) (h2 : strLess b c = true) :
    strLess a c = true := by
  induction a generalizing b c with
  | nil =>
    cases c with
    | nil => cases b <;> simp [strLess] at h2
    | cons z u => simp [strLess]
  | cons x s ih =>
    cases b with
    | nil => simp [strLess] at h1
    | cons y t =>
      cases c with
      | nil => simp [strLess] at h2
      | cons z u =>
        simp only [strLess] at h1 h2 ⊢
        by_cases a1 : x < y
        · by_cases a2 : y < z
          · have : x < z := by omega
            simp [this]
          · by_cases a3 : z < y
            · simp [a2, a3] at h2
            · have : x < z := by omega
              simp [this]
        · by_cases a2 : y < x
          · simp [a1, a2] at h1
          · simp only [a1, a2, if_false] at h1
            have e : x = y := by omega
            subst e
            by_cases a3 : x < z
            · simp [a3]
            · by_cases a4 : z < x
              · simp [a3, a4] at h2
              · simp only [a3, a4, if_false] at h2 ⊢
                exact ih t u h1 h2

theorem strLess_total : ∀ (a b : Bytes), a ≠ b → strLess a b = false → strLess b a = true
  | [], [], h, _ => absurd rfl h
  | [], _ :: _, _, h => by simp [strLess] at h
  | _ :: _, [], _, _ => by simp [strLess]
  | x :: s, y :: t, hne, h => by
    simp only [strLess] at h ⊢
    by_cases h1 : x < y
    · simp [h1] at h
    · by_cases h2 : y < x
      · simp [h2]
      · simp only [h1, h2, if_false] at h ⊢
        have e : x = y := by omega
        subst e
        exact strLess_total s t (fun hst => hne (by rw [hst])) h

theorem mem_mapassign {V : Type} (k : Bytes) (v : V) (m : List (Bytes × V)) :
    ∀ kv ∈ mapassign k v m, kv = (k, v) ∨ kv ∈ m := by
  induction m with
  | nil => intro kv h; simp [mapassign] at h; exact Or.inl h
  | cons hd rest ih =>
    obtain ⟨k1, v1⟩ := hd
    intro kv h
    simp only [mapassign] at h
    split_ifs at h with h1 h2
    · simp only [List.mem_cons] at h ⊢
      rcases h with h | h
      · exact Or.inl h
      · exact Or.inr (Or.inr h)
    · simp only [List.mem_cons] at h ⊢
      rcases h with h | h | h
      · exact Or.inl h
      · exact Or.inr (Or.inl h)
      · exact Or.inr (Or.inr h)
    · simp only [List.mem_cons] at h ⊢
      rcases h with h | h
      · exact Or.inr (Or.inl h)
      · rcases ih kv h with h | h
        · exact Or.inl h
        · exact Or.inr (Or.inr h)

theorem sortedKeys_cons {V : Type} (k : Bytes) (v : V) (m : List (Bytes × V)) :
    SortedKeys ((k, v) :: m) ↔ (∀ kv ∈ m, strLess k kv.1 = true) ∧ SortedKeys m := by
  simp [SortedKeys, List.pairwise_cons]

theorem sortedKeys_mapassign {V : Type} (k : Bytes) (v : V) (m : List (Bytes × V))
    (h : SortedKeys m) : SortedKeys (mapassign k v m) := by
  induction m with
  | nil => simp [mapassign, SortedKeys]
  | cons hd rest ih =>
    obtain ⟨k1, v1⟩ := hd
    rw [sortedKeys_cons] at h
    simp only [mapassign]
    split_ifs with h1 h2
    · subst h1
      rw [sortedKeys_cons]; exact h
    · rw [sortedKeys_cons, sortedKeys_cons]
      refine ⟨?_, h⟩
      intro kv hkv
      simp only [List.mem_cons] at hkv
      rcases hkv with rfl | hkv
      · exact h2
      · exact strLess_trans _ _ _ h2 (h.1 kv hkv)
    · rw [sortedKeys_cons]
      refine ⟨?_, ih h.2⟩
      intro kv hkv
      rcases mem_mapassign k v rest kv hkv with rfl | hkv
      · exact strLess_total _ _ h1 (by simpa using h2)
      · exact h.1 kv hkv

theorem sortedKeys_mapOfMembersFrom {V : Type} (ms acc : List (Bytes × V))
    (h : SortedKeys acc) :
    SortedKeys (ms.foldl (fun m kv => mapassign kv.1 kv.2 m) acc) := by
  induction ms generalizing acc with
  | nil => exact h
  | cons kv ms ih => exact ih _ (sortedKeys_mapassign _ _ _ h)

theorem mem_mapOfMembersFrom {V : Type} (ms acc : List (Bytes × V)) :
    ∀ kv ∈ ms.foldl (fun m kv => mapassign kv.1 kv.2 m) acc, kv ∈ acc ∨ kv ∈ ms := by
  induction ms generalizing acc with
  | nil => intro kv h; exact Or.inl h
  | cons hd ms ih =>
    intro kv h
    rcases ih _ kv h with h | h
    · rcases mem_mapassign _ _ _ kv h with rfl | h
      · exact Or.inr (List.mem_cons_self _ _)
      · exact Or.inl h
    · exact Or.inr (List.mem_cons_of_mem _ h)

theorem sortedKeys_mapOfMembers {V : Type} (ms : List (Bytes × V)) :
    SortedKeys (mapOfMembers ms) :=
  sortedKeys_mapOfMembersFrom ms [] (by simp [SortedKeys])

theorem mem_mapOfMembers {V : Type} (ms : List (Bytes × V)) :
    ∀ kv ∈ mapOfMembers ms, kv ∈ ms := by
  intro kv h
  rcases mem_mapOfMembersFrom ms [] kv h with h | h
  · simp at h
  · exact h

theorem mapassign_append {V : Type} (k : Bytes) (v : V) (m : List (Bytes × V))
    (h : ∀ kv ∈ m, strLess kv.1 k = true) : mapassign k v m = m ++ [(k, v)] := by
  induction m with
  | nil => rfl
  | cons hd rest ih =>
    obtain ⟨k1, v1⟩ := hd
    have h1 : strLess k1 k = true := h (k1, v1) (List.mem_cons_self _ _)
    have h2 : ¬ k = k1 := by
      intro e; subst e; rw [strLess_irrefl] at h1; exact Bool.noConfusion h1
    have h3 : strLess k k1 = false := strLess_asymm _ _ h1
    simp only [mapassign, h2, h3, if_false, Bool.false_eq_true, List.cons_append]
    rw [ih (fun kv hkv => h kv (List.mem_cons_of_mem _ hkv))]

theorem mapOfMembersFrom_sorted {V : Type} (ms acc : List (Bytes × V))
    (h : SortedKeys (acc ++ ms)) :
    ms.foldl (fun m kv => mapassign kv.1 kv.2 m) acc = acc ++ ms := by
  induction ms generalizing acc with
  | nil => simp
  | cons kv ms ih =>
    have hacc : ∀ x ∈ acc, strLess x.1 kv.1 = true := by
      intro x hx
      simp only [SortedKeys, List.map_append, List.map_cons, List.pairwise_append] at h
      exact h.2.2 x.1 (List.mem_map_of_mem _ hx) kv.1 (List.mem_cons_self _ _)
    simp only [List.foldl_cons]
    rw [mapassign_append _ _ _ hacc, ih _ (by simpa using h)]
    simp

theorem mapOfMembers_sorted {V : Type} (m : List (Bytes × V)) (h : SortedKeys m) :
    mapOfMembers m = m := by
  have := mapOfMembersFrom_sorted m [] (by simpa using h)
  simpa [mapOfMembers] using this

theorem mapaccess_mapassign {V : Type} (k k1 : Bytes) (v : V) (m : List (Bytes × V)) :
    mapaccess k (mapassign k1 v m) = if k = k1 then some v else mapaccess k m := by
  induction m with
  | nil => simp [mapassign, mapaccess]
  | cons hd rest ih =>
    obtain ⟨k2, v2⟩ := hd
    simp only [mapassign]
    split_ifs with h1 h2 h3 h4 h5 <;> simp_all [mapaccess]

end Maps

/-! ## Decoding yields well-formed values -/

section Decoding
open utf8 json

theorem validString_byte (c : Nat) (s : Bytes) (hc : c < 128) (hs : ValidString s) :
    ValidString (c :: s) := by
  have e : EncodeRune c = [c] := by simp [EncodeRune]; omega
  have := ValidString.cons c s (by simp [ValidRune]; omega) hs
  rwa [e] at this

theorem validString_encodeRune (r : Nat) (s : Bytes) (hs : ValidString s) :
    ValidString (EncodeRune r ++ s) := by
  by_cases hv : ValidRune r = true
  · exact ValidString.cons r s hv hs
  · have e : EncodeRune r = EncodeRune RuneError := by
      simp only [ValidRune, Bool.or_eq_true, Bool.and_eq_true, decide_eq_true_eq] at hv
      have h1 : ¬ r ≤ 0x7F := by omega
      have h2 : ¬ r ≤ 0x7FF := by omega
      have h3 : 0x10FFFF < r ∨ (0xD800 ≤ r ∧ r ≤ 0xDFFF) := by omega
      simp only [EncodeRune, h1, h2, h3, if_false, if_true]
      rfl
    rw [e]
    exact ValidString.cons RuneError s (by decide) hs

theorem validString_unescape (t piece u : Bytes) (h : unescape t = some (piece, u))
    (s : Bytes) (hs : ValidString s) : ValidString (piece ++ s) := by
  unfold unescape at h
  split at h
  · simp at h
  · rename_i e u0
    split_ifs at h with c1 c2 c3 c4 c5 c6 c7
    · simp only [Option.some.injEq, Prod.mk.injEq] at h
      rw [← h.1]; exact validString_byte _ _ (by omega) hs
    · simp only [Option.some.injEq, Prod.mk.injEq] at h
      rw [← h.1]; exact validString_byte _ _ (by omega) hs
    · simp only [Option.some.injEq, Prod.mk.injEq] at h
      rw [← h.1]; exact validString_byte _ _ (by omega) hs
    · simp only [Option.some.injEq, Prod.mk.injEq] at h
      rw [← h.1]; exact validString_byte _ _ (by omega) hs
    · simp only [Option.some.injEq, Prod.mk.injEq] at h
      rw [← h.1]; exact validString_byte _ _ (by omega) hs
    · simp only [Option.some.injEq, Prod.mk.injEq] at h
      rw [← h.1]; exact validString_byte _ _ (by omega) hs
    · split at h
      · simp at h
      · split_ifs at h
        · split at h
          · split at h
            · split_ifs at h
              all_goals
                simp only [Option.some.injEq, Prod.mk.injEq] at h
                rw [← h.1]; exact validString_encodeRune _ _ hs
            · simp only [Option.some.injEq, Prod.mk.injEq] at h
              rw [← h.1]; exact validString_encodeRune _ _ hs
          · simp only [Option.some.injEq, Prod.mk.injEq] at h
            rw [← h.1]; exact validString_encodeRune _ _ hs
        · simp only [Option.some.injEq, Prod.mk.injEq] at h
          rw [← h.1]; exact validString_encodeRune _ _ hs

theorem option_map_eq_some {f : Bytes → Bytes} {o : Option (Bytes × Bytes)} {x r : Bytes}
    (h : o.map (fun q => (f q.1, q.2)) = some (x, r)) : ∃ y, o = some (y, r) ∧ x = f y := by
  cases o with
  | none => simp at h
  | some q =>
    obtain ⟨y, z⟩ := q
    simp only [Option.map_some', Option.some.injEq, Prod.mk.injEq] at h
    exact ⟨y, by rw [h.2], h.1.symm⟩

theorem validString_unquoteAux (fuel : Nat) :
    ∀ (s x r : Bytes), unquoteAux fuel s = some (x, r) → ValidString x := by
  induction fuel with
  | zero => intro s x r h; simp [unquoteAux] at h
  | succ n ih =>
    intro s x r h
    cases s with
    | nil => simp [unquoteAux] at h
    | cons c t =>
      rw [unquoteAux] at h
      split_ifs at h with h1 h2 h3 h4
      · simp only [Option.some.injEq, Prod.mk.injEq] at h
        rw [← h.1]; exact ValidString.nil
      · split at h
        · simp at h
        · rename_i piece u hu
          obtain ⟨y, hy, rfl⟩ := option_map_eq_some (f := fun z => piece ++ z) h
          exact validString_unescape _ _ _ hu _ (ih _ _ _ hy)
      · obtain ⟨y, hy, rfl⟩ := option_map_eq_some (f := fun z => c :: z) h
        exact validString_byte _ _ (by omega) (ih _ _ _ hy)
      · obtain ⟨y, hy, rfl⟩ := option_map_eq_some (f := fun z => _ ++ z) h
        exact validString_encodeRune _ _ (ih _ _ _ hy)

theorem validString_unquote (s x r : Bytes) (h : unquote s = some (x, r)) : ValidString x :=
  validString_unquoteAux _ s x r h

end Decoding

section DecodingValues
open utf8 json

theorem wf_parse (sc : Strconv) (hsc : sc.Lawful) (fuel : Nat) :
    (∀ d s v r, parseValue sc fuel d s = some (v, r) → WF sc v) ∧
    (∀ d s vs r, parseElements sc fuel d s = some (vs, r) → ∀ x ∈ vs, WF sc x) ∧
    (∀ d s ms r, parseMembers sc fuel d s = some (ms, r) →
      (∀ kv ∈ ms, ValidString kv.1) ∧ (∀ kv ∈ ms, WF sc kv.2)) := by
  induction fuel with
  | zero =>
    refine ⟨?_, ?_, ?_⟩ <;> intro d s v r h
    · simp [parseValue] at h
    · simp [parseElements] at h
    · simp [parseMembers] at h
  | succ n ih =>
    obtain ⟨ihv, ihe, ihm⟩ := ih
    refine ⟨?_, ?_, ?_⟩
    · intro d s v r h
      rw [parseValue] at h
      split at h
      · simp at h
      · rename_i c t _
        split_ifs at h
        · split at h
          · simp only [Option.some.injEq, Prod.mk.injEq] at h
            rw [← h.1]
            exact WF.object [] (by simp [SortedKeys]) (by simp) (by simp)
          · rw [Option.map_eq_some'] at h
            obtain ⟨⟨ms, r1⟩, hp, he⟩ := h
            simp only [Prod.mk.injEq] at he
            rw [← he.1]
            obtain ⟨hk, hw⟩ := ihm _ _ _ _ hp
            exact WF.object _ (sortedKeys_mapOfMembers ms)
              (fun kv hkv => hk kv (mem_mapOfMembers ms kv hkv))
              (fun kv hkv => hw kv (mem_mapOfMembers ms kv hkv))
        · split at h
          · simp only [Option.some.injEq, Prod.mk.injEq] at h
            rw [← h.1]
            exact WF.array [] (by simp)
          · rw [Option.map_eq_some'] at h
            obtain ⟨⟨vs, r1⟩, hp, he⟩ := h
            simp only [Prod.mk.injEq] at he
            rw [← he.1]
            exact WF.array _ (ihe _ _ _ _ hp)
        · rw [Option.map_eq_some'] at h
          obtain ⟨⟨x, r1⟩, hp, he⟩ := h
          simp only [Prod.mk.injEq] at he
          rw [← he.1]
          exact WF.string _ (validString_unquote _ _ _ hp)
        · split at h
          · simp only [Option.some.injEq, Prod.mk.injEq] at h
            rw [← h.1]; exact WF.bool _
          · simp at h
        · split at h
          · simp only [Option.some.injEq, Prod.mk.injEq] at h
            rw [← h.1]; exact WF.bool _
          · simp at h
        · split at h
          · simp only [Option.some.injEq, Prod.mk.injEq] at h
            rw [← h.1]; exact WF.null
          · simp at h
        · split at h
          · simp at h
          · rw [Option.map_eq_some'] at h
            obtain ⟨f, hp, he⟩ := h
            simp only [Prod.mk.injEq] at he
            rw [← he.1]
            exact WF.number f (hsc _ _ hp)
    · intro d s vs r h
      rw [parseElements] at h
      split at h
      · simp at h
      · rename_i v r0 hv
        split at h
        · rw [Option.map_eq_some'] at h
          obtain ⟨⟨q, r1⟩, hp, he⟩ := h
          simp only [Prod.mk.injEq] at he
          rw [← he.1]
          intro x hx
          simp only [List.mem_cons] at hx
          rcases hx with rfl | hx
          · exact ihv _ _ _ _ hv
          · exact ihe _ _ _ _ hp x hx
        · simp only [Option.some.injEq, Prod.mk.injEq] at h
          rw [← h.1]
          intro x hx
          simp only [List.mem_singleton] at hx
          rw [hx]; exact ihv _ _ _ _ hv
        · simp at h
    · intro d s ms r h
      rw [parseMembers] at h
      split at h
      · split at h
        · simp at h
        · rename_i k r0 hk
          split at h
          · split at h
            · simp at h
            · rename_i v r2 hv
              split at h
              · rw [Option.map_eq_some'] at h
                obtain ⟨⟨q, r1⟩, hp, he⟩ := h
                simp only [Prod.mk.injEq] at he
                rw [← he.1]
                obtain ⟨hk1, hw1⟩ := ihm _ _ _ _ hp
                constructor
                · intro kv hx
                  simp only [List.mem_cons] at hx
                  rcases hx with rfl | hx
                  · exact validString_unquote _ _ _ hk
                  · exact hk1 kv hx
                · intro kv hx
                  simp only [List.mem_cons] at hx
                  rcases hx with rfl | hx
                  · exact ihv _ _ _ _ hv
                  · exact hw1 kv hx
              · simp only [Option.some.injEq, Prod.mk.injEq] at h
                rw [← h.1]
                constructor
                · intro kv hx
                  simp only [List.mem_singleton] at hx
                  rw [hx]; exact validString_unquote _ _ _ hk
                · intro kv hx
                  simp only [List.mem_singleton] at hx
                  rw [hx]; exact ihv _ _ _ _ hv
              · simp at h
          · simp at h
      · simp at h

theorem wf_decode (sc : Strconv) (hsc : sc.Lawful) (data : Bytes) (v : Value sc.Float64)
    (h : decode sc data = some v) : WF sc v := by
  unfold decode at h
  split at h
  · simp at h
  · rename_i v1 rest hp
    split_ifs at h
    simp only [Option.some.injEq] at h
    rw [← h]
    exact (wf_parse sc hsc _).1 _ _ _ _ hp

theorem wf_Unmarshal (sc : Strconv) (hsc : sc.Lawful) (data : Bytes)
    (m : List (Bytes × Value sc.Float64))
    (h : Unmarshal sc data = Except.ok (some m)) : WF sc (Value.object m) := by
  unfold Unmarshal at h
  split at h
  · simp at h
  · rename_i m1 hd
    simp only [Except.ok.injEq, Option.some.injEq] at h
    rw [← h]; exact wf_decode sc hsc _ _ hd
  · simp at h
  · simp at h

theorem nestingElements_le {F : Type} (xs : List (Value F)) (n : Nat) :
    nestingElements xs ≤ n ↔ ∀ x ∈ xs, nesting x ≤ n := by
  induction xs with
  | nil => simp [nestingElements]
  | cons x xs ih => simp [nestingElements, ih]

theorem nestingMembers_le {F : Type} (m : List (Bytes × Value F)) (n : Nat) :
    nestingMembers m ≤ n ↔ ∀ kv ∈ m, nesting kv.2 ≤ n := by
  induction m with
  | nil => simp [nestingMembers]
  | cons kv m ih =>
    obtain ⟨k, x⟩ := kv
    simp [nestingMembers, ih]

/-- A parsed value has no more arrays and objects nested in it than the
scanner's limit leaves room for at the depth where it is read. -/
theorem nesting_parse (sc : Strconv) (fuel : Nat) :
    (∀ d s v r, parseValue sc fuel d s = some (v, r) → nesting v ≤ maxNestingDepth - d) ∧
    (∀ d s vs r, parseElements sc fuel d s = some (vs, r) →
      ∀ x ∈ vs, nesting x ≤ maxNestingDepth - d) ∧
    (∀ d s ms r, parseMembers sc fuel d s = some (ms, r) →
      ∀ kv ∈ ms, nesting kv.2 ≤ maxNestingDepth - d) := by
  induction fuel with
  | zero =>
    refine ⟨?_, ?_, ?_⟩ <;> intro d s v r h
    · simp [parseValue] at h
    · simp [parseElements] at h
    · simp [parseMembers] at h
  | succ n ih =>
    obtain ⟨ihv, ihe, ihm⟩ := ih
    refine ⟨?_, ?_, ?_⟩
    · intro d s v r h
      rw [parseValue] at h
      split at h
      · simp at h
      · rename_i c t _
        by_cases c1 : c = 123
        · rw [if_pos c1] at h
          by_cases hd : maxNestingDepth ≤ d
          · rw [if_pos hd] at h; simp at h
          rw [if_neg hd] at h
          split at h
          · simp only [Option.some.injEq, Prod.mk.injEq] at h
            rw [← h.1]
            simp only [nesting, nestingMembers]
            omega
          · rw [Option.map_eq_some'] at h
            obtain ⟨⟨ms, r1⟩, hp, he⟩ := h
            simp only [Prod.mk.injEq] at he
            rw [← he.1]
            have hb := ihm _ _ _ _ hp
            have : nestingMembers (mapOfMembers ms) ≤ maxNestingDepth - (d + 1) :=
              (nestingMembers_le _ _).2 (fun kv hkv => hb kv (mem_mapOfMembers ms kv hkv))
            simp only [nesting]
            omega
        rw [if_neg c1] at h
        by_cases c2 : c = 91
        · rw [if_pos c2] at h
          by_cases hd : maxNestingDepth ≤ d
          · rw [if_pos hd] at h; simp at h
          rw [if_neg hd] at h
          split at h
          · simp only [Option.some.injEq, Prod.mk.injEq] at h
            rw [← h.1]
            simp only [nesting, nestingElements]
            omega
          · rw [Option.map_eq_some'] at h
            obtain ⟨⟨vs, r1⟩, hp, he⟩ := h
            simp only [Prod.mk.injEq] at he
            rw [← he.1]
            have : nestingElements vs ≤ maxNestingDepth - (d + 1) :=
              (nestingElements_le _ _).2 (ihe _ _ _ _ hp)
            simp only [nesting]
            omega
        rw [if_neg c2] at h
        split_ifs at h
        · rw [Option.map_eq_some'] at h
          obtain ⟨⟨x, r1⟩, hp, he⟩ := h
          simp only [Prod.mk.injEq] at he
          rw [← he.1]; simp [nesting]
        · split at h
          · simp only [Option.some.injEq, Prod.mk.injEq] at h
            rw [← h.1]; simp [nesting]
          · simp at h
        · split at h
          · simp only [Option.some.injEq, Prod.mk.injEq] at h
            rw [← h.1]; simp [nesting]
          · simp at h
        · split at h
          · simp only [Option.some.injEq, Prod.mk.injEq] at h
            rw [← h.1]; simp [nesting]
          · simp at h
        · split at h
          · simp at h
          · rw [Option.map_eq_some'] at h
            obtain ⟨f, hp, he⟩ := h
            simp only [Prod.mk.injEq] at he
            rw [← he.1]; simp [nesting]
    · intro d s vs r h
      rw [parseElements] at h
      split at h
      · simp at h
      · rename_i v r0 hv
        split at h
        · rw [Option.map_eq_some'] at h
          obtain ⟨⟨q, r1⟩, hp, he⟩ := h
          simp only [Prod.mk.injEq] at he
          rw [← he.1]
          intro x hx
          simp only [List.mem_cons] at hx
          rcases hx with rfl | hx
          · exact ihv _ _ _ _ hv
          · exact ihe _ _ _ _ hp x hx
        · simp only [Option.some.injEq, Prod.mk.injEq] at h
          rw [← h.1]
          intro x hx
          simp only [List.mem_singleton] at hx
          rw [hx]; exact ihv _ _ _ _ hv
        · simp at h
    · intro d s ms r h
      rw [parseMembers] at h
      split at h
      · split at h
        · simp at h
        · rename_i k r0 hk
          split at h
          · split at h
            · simp at h
            · rename_i v r2 hv
              split at h
              · rw [Option.map_eq_some'] at h
                obtain ⟨⟨q, r1⟩, hp, he⟩ := h
                simp only [Prod.mk.injEq] at he
                rw [← he.1]
                intro kv hx
                simp only [List.mem_cons] at hx
                rcases hx with rfl | hx
                · exact ihv _ _ _ _ hv
                · exact ihm _ _ _ _ hp kv hx
              · simp only [Option.some.injEq, Prod.mk.injEq] at h
                rw [← h.1]
                intro kv hx
                simp only [List.mem_singleton] at hx
                rw [hx]; exact ihv _ _ _ _ hv
              · simp at h
          · simp at h
      · simp at h

theorem nesting_decode (sc : Strconv) (data : Bytes) (v : Value sc.Float64)
    (h : decode sc data = some v) : nesting v ≤ maxNestingDepth := by
  unfold decode at h
  split at h
  · simp at h
  · rename_i v1 rest hp
    split_ifs at h
    simp only [Option.some.injEq] at h
    rw [← h]
    exact (nesting_parse sc _).1 _ _ _ _ hp

theorem nesting_Unmarshal (sc : Strconv) (data : Bytes)
    (m : List (Bytes × Value sc.Float64))
    (h : Unmarshal sc data = Except.ok (some m)) :
    nesting (Value.object m) ≤ maxNestingDepth := by
  unfold Unmarshal at h
  split at h
  · simp at h
  · rename_i m1 hd
    simp only [Except.ok.injEq, Option.some.injEq] at h
    rw [← h]; exact nesting_decode sc _ _ hd
  · simp at h
  · simp at h

end DecodingValues

/-! ## Encoding followed by decoding -/

section RoundTrip
open utf8 json

theorem scanNumber_head (s l r : Bytes) (h : scanNumber s = some (l, r)) :
    ∃ c t, s = c :: t ∧ (c = 45 ∨ (48 ≤ c ∧ c ≤ 57)) := by
  cases s with
  | nil => simp [scanNumber, scanInt] at h
  | cons c t =>
    refine ⟨c, t, rfl, ?_⟩
    by_cases hc : c = 45
    · exact Or.inl hc
    · right
      have : scanNumber (c :: t) = scanInt [] (c :: t) := by
        unfold scanNumber
        split
        · rename_i t1 heq
          simp only [List.cons.injEq] at heq
          exact absurd heq.1 hc
        · rfl
      rw [this] at h
      simp only [scanInt] at h
      split_ifs at h with h1 h2
      · omega
      · omega

theorem formatFloat_head (sc : Strconv) (f : sc.Float64) (h : sc.RoundTrips f) :
    ∃ c t, sc.FormatFloat f = c :: t ∧ (c = 45 ∨ (48 ≤ c ∧ c ≤ 57)) := by
  have := h.2.2 [] rfl
  rw [List.append_nil] at this
  exact scanNumber_head _ _ _ this

theorem encodeValue_head (sc : Strconv) (v : Value sc.Float64) (hw : WF sc v) (b : Bytes)
    (h : encodeValue sc v = some b) : HeadOK b := by
  cases hw with
  | null =>
    simp only [encodeValue, Option.some.injEq] at h
    exact ⟨_, _, h.symm, by decide, by decide, by decide⟩
  | bool x =>
    cases x <;> simp only [encodeValue, Option.some.injEq] at h <;>
      exact ⟨_, _, h.symm, by decide, by decide, by decide⟩
  | number f hf =>
    simp only [encodeValue, hf.1, Bool.false_eq_true, if_false, Option.some.injEq] at h
    obtain ⟨c, t, e, hc⟩ := formatFloat_head sc f hf
    refine ⟨c, t, by rw [← h, e], ?_, by omega, by omega⟩
    simp only [isSpace, Bool.or_eq_false_iff, decide_eq_false_iff_not]
    omega
  | string s hs =>
    simp only [encodeValue, Option.some.injEq] at h
    exact ⟨34, _, by rw [← h]; rfl, by decide, by decide, by decide⟩
  | array xs hx =>
    cases xs with
    | nil =>
      simp only [encodeValue, Option.some.injEq] at h
      exact ⟨_, _, h.symm, by decide, by decide, by decide⟩
    | cons x xs =>
      simp only [encodeValue] at h
      split at h
      · simp only [Option.some.injEq] at h
        exact ⟨_, _, h.symm, by decide, by decide, by decide⟩
      · simp at h
  | object m hs hk hv =>
    cases m with
    | nil =>
      simp only [encodeValue, Option.some.injEq] at h
      exact ⟨_, _, h.symm, by decide, by decide, by decide⟩
    | cons kv m =>
      obtain ⟨k, x⟩ := kv
      simp only [encodeValue] at h
      split at h
      · simp only [Option.some.injEq] at h
        exact ⟨_, _, h.symm, by decide, by decide, by decide⟩
      · simp at h

theorem skipSpace_cons (c : Nat) (t : Bytes) (h : isSpace c = false) :
    skipSpace (c :: t) = c :: t := by
  simp [skipSpace, h]

theorem encodeElements_head (sc : Strconv) (xs : List (Value sc.Float64)) (b : Bytes)
    (h : encodeElements sc xs = some b) :
    b = [93] ∨ ∃ t, b = 44 :: t := by
  cases xs with
  | nil => simp only [encodeElements, Option.some.injEq] at h; exact Or.inl h.symm
  | cons x xs =>
    simp only [encodeElements] at h
    split at h
    · simp only [Option.some.injEq] at h; exact Or.inr ⟨_, h.symm⟩
    · simp at h

theorem encodeMembers_head (sc : Strconv) (ms : List (Bytes × Value sc.Float64)) (b : Bytes)
    (h : encodeMembers sc ms = some b) :
    b = [125] ∨ ∃ t, b = 44 :: t := by
  cases ms with
  | nil => simp only [encodeMembers, Option.some.injEq] at h; exact Or.inl h.symm
  | cons kv ms =>
    obtain ⟨k, x⟩ := kv
    simp only [encodeMembers] at h
    split at h
    · simp only [Option.some.injEq] at h; exact Or.inr ⟨_, h.symm⟩
    · simp at h

theorem parseElements_encode (sc : Strconv) (xs : List (Value sc.Float64)) :
    (∀ x ∈ xs, ParsesBack sc x) → ∀ (x : Value sc.Float64) (bx b rest : Bytes) (fuel : Nat),
      ParsesBack sc x → encodeValue sc x = some bx → encodeElements sc xs = some b →
      2 * (bx.length + b.length) ≤ fuel → ∀ depth,
      depth + nesting x ≤ maxNestingDepth →
      (∀ z ∈ xs, depth + nesting z ≤ maxNestingDepth) →
      parseElements sc fuel depth (bx ++ (b ++ rest)) = some (x :: xs, rest) := by
  induction xs with
  | nil =>
    intro _ x bx b rest fuel hx hbx hb hf depth hdx _
    simp only [encodeElements, Option.some.injEq] at hb
    subst hb
    obtain ⟨n, rfl⟩ : ∃ n, fuel = n + 1 := ⟨fuel - 1, by simp at hf; omega⟩
    rw [parseElements]
    simp only [List.cons_append, List.nil_append]
    rw [hx bx hbx (93 :: rest) rfl n (by simp at hf; omega) depth hdx]
    simp [skipSpace, isSpace]
  | cons y ys ih =>
    intro hall x bx b rest fuel hx hbx hb hf depth hdx hdz
    simp only [encodeElements] at hb
    split at hb
    · rename_i bp bq hy hys
      simp only [Option.some.injEq] at hb
      subst hb
      obtain ⟨n, rfl⟩ : ∃ n, fuel = n + 1 := ⟨fuel - 1, by simp at hf; omega⟩
      rw [parseElements]
      simp only [List.cons_append]
      rw [hx bx hbx (44 :: (bp ++ bq ++ rest)) rfl n (by simp at hf; omega) depth hdx]
      have hrec := ih (fun z hz => hall z (List.mem_cons_of_mem _ hz)) y bp bq rest n
        (hall y (List.mem_cons_self _ _)) hy hys (by simp at hf; omega) depth
        (hdz y (List.mem_cons_self _ _)) (fun z hz => hdz z (List.mem_cons_of_mem _ hz))
      simp only [List.append_assoc] at hrec ⊢
      simp [skipSpace, isSpace, hrec]
    · simp at hb

theorem parseMembers_encode (sc : Strconv) (ms : List (Bytes × Value sc.Float64)) :
    (∀ kv ∈ ms, ValidString kv.1) → (∀ kv ∈ ms, ParsesBack sc kv.2) →
    ∀ (k : Bytes) (x : Value sc.Float64) (bx b rest : Bytes) (fuel : Nat),
      ValidString k → ParsesBack sc x → encodeValue sc x = some bx →
      encodeMembers sc ms = some b →
      2 * ((appendString k).length + 1 + bx.length + b.length) ≤ fuel → ∀ depth,
      depth + nesting x ≤ maxNestingDepth →
      (∀ z ∈ ms, depth + nesting z.2 ≤ maxNestingDepth) →
      parseMembers sc fuel depth (appendString k ++ 58 :: (bx ++ (b ++ rest))) =
        some ((k, x) :: ms, rest) := by
  induction ms with
  | nil =>
    intro _ _ k x bx b rest fuel hk hx hbx hb hf depth hdx _
    simp only [encodeMembers, Option.some.injEq] at hb
    subst hb
    obtain ⟨n, rfl⟩ : ∃ n, fuel = n + 1 := ⟨fuel - 1, by simp at hf; omega⟩
    obtain ⟨body, e, hu⟩ := unquote_appendString k hk (58 :: (bx ++ ([125] ++ rest)))
    rw [parseMembers, e]
    simp only [List.cons_append, List.nil_append] at hu ⊢
    have hv := hx bx hbx (125 :: rest) rfl n (by simp at hf; omega) depth hdx
    simp [skipSpace, isSpace, hu, hv]
  | cons kv ms ih =>
    obtain ⟨k1, y⟩ := kv
    intro hkeys hall k x bx b rest fuel hk hx hbx hb hf depth hdx hdz
    simp only [encodeMembers] at hb
    split at hb
    · rename_i bp bq hy hys
      simp only [Option.some.injEq] at hb
      subst hb
      obtain ⟨n, rfl⟩ : ∃ n, fuel = n + 1 := ⟨fuel - 1, by simp at hf; omega⟩
      obtain ⟨body, e, hu⟩ := unquote_appendString k hk
        (58 :: (bx ++ (44 :: (appendString k1 ++ 58 :: (bp ++ bq)) ++ rest)))
      rw [parseMembers, e]
      simp only [List.cons_append, List.append_assoc] at hu ⊢
      have hv := hx bx hbx (44 :: (appendString k1 ++ 58 :: (bp ++ (bq ++ rest)))) rfl n
        (by simp at hf; omega) depth hdx
      have hrec := ih (fun z hz => hkeys z (List.mem_cons_of_mem _ hz))
        (fun z hz => hall z (List.mem_cons_of_mem _ hz)) k1 y bp bq rest n
        (hkeys (k1, y) (List.mem_cons_self _ _)) (hall (k1, y) (List.mem_cons_self _ _))
        hy hys (by simp at hf; omega) depth
        (hdz (k1, y) (List.mem_cons_self _ _)) (fun z hz => hdz z (List.mem_cons_of_mem _ hz))
      simp [skipSpace, isSpace, hu, hv, hrec]
    · simp at hb

theorem valueEnd_elements (sc : Strconv) (xs : List (Value sc.Float64)) (b rest : Bytes)
    (h : encodeElements sc xs = some b) : valueEnd (b ++ rest) = true := by
  rcases encodeElements_head sc xs b h with rfl | ⟨t, rfl⟩ <;> rfl

theorem valueEnd_members (sc : Strconv) (ms : List (Bytes × Value sc.Float64)) (b rest : Bytes)
    (h : encodeMembers sc ms = some b) : valueEnd (b ++ rest) = true := by
  rcases encodeMembers_head sc ms b h with rfl | ⟨t, rfl⟩ <;> rfl

theorem parsesBack_of_wf (sc : Strconv) (v : Value sc.Float64) (hw : WF sc v) :
    ParsesBack sc v := by
  induction hw with
  | null =>
    intro b hb rest _ fuel hf depth _
    simp only [encodeValue, Option.some.injEq] at hb
    subst hb
    obtain ⟨n, rfl⟩ : ∃ n, fuel = n + 1 := ⟨fuel - 1, by simp at hf; omega⟩
    simp [parseValue, skipSpace, isSpace]
  | bool x =>
    intro b hb rest _ fuel hf depth _
    cases x <;> simp only [encodeValue, Option.some.injEq] at hb <;> subst hb <;>
      (obtain ⟨n, rfl⟩ : ∃ n, fuel = n + 1 := ⟨fuel - 1, by simp at hf; omega⟩) <;>
      simp [parseValue, skipSpace, isSpace]
  | number f hf =>
    intro b hb rest hrest fuel hfuel depth _
    simp only [encodeValue, hf.1, Bool.false_eq_true, if_false, Option.some.injEq] at hb
    subst hb
    obtain ⟨c, t, e, hc⟩ := formatFloat_head sc f hf
    have hlen : 1 ≤ (sc.FormatFloat f).length := by rw [e]; simp
    obtain ⟨n, rfl⟩ : ∃ n, fuel = n + 1 := ⟨fuel - 1, by omega⟩
    have hscan := hf.2.2 rest hrest
    rw [e] at hscan
    have hsp : isSpace c = false := by
      simp only [isSpace, Bool.or_eq_false_iff, decide_eq_false_iff_not]; omega
    rw [parseValue, e, List.cons_append, skipSpace_cons c _ hsp]
    have c1 : ¬ c = 123 := by omega
    have c2 : ¬ c = 91 := by omega
    have c3 : ¬ c = 34 := by omega
    have c4 : ¬ c = 116 := by omega
    have c5 : ¬ c = 102 := by omega
    have c6 : ¬ c = 110 := by omega
    simp only [c1, c2, c3, c4, c5, c6, if_false]
    rw [List.cons_append] at hscan
    rw [hscan]
    simp only [← e, hf.2.1, Option.map_some']
  | string s hs =>
    intro b hb rest _ fuel hf depth _
    simp only [encodeValue, Option.some.injEq] at hb
    subst hb
    obtain ⟨n, rfl⟩ : ∃ n, fuel = n + 1 :=
      ⟨fuel - 1, by simp [appendString] at hf; omega⟩
    obtain ⟨body, e, hu⟩ := unquote_appendString s hs rest
    rw [parseValue, e]
    simp [skipSpace, isSpace, hu]
  | array xs hx ih =>
    intro b hb rest _ fuel hf depth hdepth
    have hd : ¬ maxNestingDepth ≤ depth := by simp only [nesting] at hdepth; omega
    cases xs with
    | nil =>
      simp only [encodeValue, Option.some.injEq] at hb
      subst hb
      obtain ⟨n, rfl⟩ : ∃ n, fuel = n + 1 := ⟨fuel - 1, by simp at hf; omega⟩
      simp [parseValue, skipSpace, isSpace, hd]
    | cons x xs =>
      simp only [encodeValue] at hb
      split at hb
      · rename_i bp bq hy hys
        simp only [Option.some.injEq] at hb
        subst hb
        obtain ⟨n, rfl⟩ : ∃ n, fuel = n + 1 := ⟨fuel - 1, by simp at hf; omega⟩
        obtain ⟨c, t, e, hc1, hc2, hc3⟩ :=
          encodeValue_head sc x (hx x (List.mem_cons_self _ _)) bp hy
        have hall := (nestingElements_le (x :: xs) (nestingElements (x :: xs))).1 (le_refl _)
        simp only [nesting] at hdepth
        have hrec := parseElements_encode sc xs
          (fun z hz => ih z (List.mem_cons_of_mem _ hz)) x bp bq rest n
          (ih x (List.mem_cons_self _ _)) hy hys (by simp at hf; omega) (depth + 1)
          (by have := hall x (List.mem_cons_self _ _); omega)
          (fun z hz => by have := hall z (List.mem_cons_of_mem _ hz); omega)
        rw [parseValue]
        simp only [List.cons_append, List.append_assoc]
        rw [skipSpace_cons 91 _ (by decide)]
        simp only [show ¬ (91 = 123) by decide, if_false, if_true, hd]
        rw [hrec]
        split
        · rename_i t1 heq
          rw [e, List.cons_append, skipSpace_cons c _ hc1] at heq
          simp only [List.cons.injEq] at heq
          exact absurd heq.1 hc2
        · rfl
      · simp at hb
  | object m hs hk hv ih =>
    intro b hb rest _ fuel hf depth hdepth
    have hd : ¬ maxNestingDepth ≤ depth := by simp only [nesting] at hdepth; omega
    cases m with
    | nil =>
      simp only [encodeValue, Option.some.injEq] at hb
      subst hb
      obtain ⟨n, rfl⟩ : ∃ n, fuel = n + 1 := ⟨fuel - 1, by simp at hf; omega⟩
      simp [parseValue, skipSpace, isSpace, mapOfMembers, hd]
    | cons kv ms =>
      obtain ⟨k, x⟩ := kv
      simp only [encodeValue] at hb
      split at hb
      · rename_i bp bq hy hys
        simp only [Option.some.injEq] at hb
        subst hb
        obtain ⟨n, rfl⟩ : ∃ n, fuel = n + 1 := ⟨fuel - 1, by simp at hf; omega⟩
        have hall := (nestingMembers_le ((k, x) :: ms) (nestingMembers ((k, x) :: ms))).1
          (le_refl _)
        simp only [nesting] at hdepth
        have hrec := parseMembers_encode sc ms
          (fun z hz => hk z (List.mem_cons_of_mem _ hz))
          (fun z hz => ih z (List.mem_cons_of_mem _ hz)) k x bp bq rest n
          (hk (k, x) (List.mem_cons_self _ _)) (ih (k, x) (List.mem_cons_self _ _))
          hy hys (by simp at hf; omega) (depth + 1)
          (by have := hall (k, x) (List.mem_cons_self _ _); simp only at this; omega)
          (fun z hz => by have := hall z (List.mem_cons_of_mem _ hz); omega)
        rw [parseValue]
        simp only [List.cons_append, List.append_assoc]
        rw [skipSpace_cons 123 _ (by decide)]
        simp only [if_true, hd, if_false]
        rw [hrec]
        split
        · rename_i t1 heq
          have : appendString k = 34 :: (appendStringAux k.length k ++ [34]) := rfl
          rw [this, List.cons_append, skipSpace_cons 34 _ (by decide)] at heq
          simp at heq
        · simp only [Option.map_some', mapOfMembers_sorted _ hs]
      · simp at hb

end RoundTrip

section MarshalUnmarshal
open utf8 json

theorem finite_of_wf (sc : Strconv) (v : Value sc.Float64) (hw : WF sc v) : Finite sc v := by
  induction hw with
  | null => exact Finite.null
  | bool x => exact Finite.bool x
  | number f hf => exact Finite.number f hf.1
  | string s _ => exact Finite.string s
  | array xs _ ih => exact Finite.array xs ih
  | object m _ _ _ ih => exact Finite.object m ih

theorem encodeElements_some (sc : Strconv) (xs : List (Value sc.Float64))
    (h : ∀ x ∈ xs, ∃ b, encodeValue sc x = some b) : ∃ b, encodeElements sc xs = some b := by
  induction xs with
  | nil => exact ⟨_, rfl⟩
  | cons x xs ih =>
    obtain ⟨bx, hx⟩ := h x (List.mem_cons_self _ _)
    obtain ⟨bs, hs⟩ := ih (fun z hz => h z (List.mem_cons_of_mem _ hz))
    exact ⟨44 :: (bx ++ bs), by simp only [encodeElements, hx, hs]⟩

theorem encodeMembers_some (sc : Strconv) (ms : List (Bytes × Value sc.Float64))
    (h : ∀ kv ∈ ms, ∃ b, encodeValue sc kv.2 = some b) :
    ∃ b, encodeMembers sc ms = some b := by
  induction ms with
  | nil => exact ⟨_, rfl⟩
  | cons kv ms ih =>
    obtain ⟨k, x⟩ := kv
    obtain ⟨bx, hx⟩ := h (k, x) (List.mem_cons_self _ _)
    obtain ⟨bs, hs⟩ := ih (fun z hz => h z (List.mem_cons_of_mem _ hz))
    have hx1 : encodeValue sc x = some bx := hx
    exact ⟨44 :: (appendString k ++ 58 :: (bx ++ bs)), by simp only [encodeMembers, hx1, hs]⟩

theorem encodeValue_some (sc : Strconv) (v : Value sc.Float64) (hw : Finite sc v) :
    ∃ b, encodeValue sc v = some b := by
  induction hw with
  | null => exact ⟨_, rfl⟩
  | bool x => cases x <;> exact ⟨_, rfl⟩
  | number f hf =>
    exact ⟨sc.FormatFloat f, by simp only [encodeValue, hf, Bool.false_eq_true, if_false]⟩
  | string s => exact ⟨_, rfl⟩
  | array xs hx ih =>
    cases xs with
    | nil => exact ⟨_, rfl⟩
    | cons x xs =>
      obtain ⟨bx, hbx⟩ := ih x (List.mem_cons_self _ _)
      obtain ⟨bs, hbs⟩ := encodeElements_some sc xs
        (fun z hz => ih z (List.mem_cons_of_mem _ hz))
      exact ⟨91 :: (bx ++ bs), by simp only [encodeValue, hbx, hbs]⟩
  | object m hv ih =>
    cases m with
    | nil => exact ⟨_, rfl⟩
    | cons kv ms =>
      obtain ⟨k, x⟩ := kv
      obtain ⟨bx, hbx⟩ := ih (k, x) (List.mem_cons_self _ _)
      obtain ⟨bs, hbs⟩ := encodeMembers_some sc ms
        (fun z hz => ih z (List.mem_cons_of_mem _ hz))
      have hx1 : encodeValue sc x = some bx := hbx
      exact ⟨123 :: (appendString k ++ 58 :: (bx ++ bs)),
        by simp only [encodeValue, hx1, hbs]⟩

theorem finite_mapassign_string (sc : Strconv) (m : List (Bytes × Value sc.Float64))
    (hw : Finite sc (Value.object m)) (k s : Bytes) :
    Finite sc (Value.object (mapassign k (Value.string s) m)) := by
  cases hw with
  | object _ hvals =>
    refine Finite.object _ ?_
    intro kv hkv
    rcases mem_mapassign _ _ _ kv hkv with rfl | h
    · exact Finite.string s
    · exact hvals kv h

theorem decode_encodeValue (sc : Strconv) (v : Value sc.Float64) (hw : WF sc v)
    (hn : nesting v ≤ maxNestingDepth) (b : Bytes)
    (h : encodeValue sc v = some b) : decode sc b = some v := by
  have := parsesBack_of_wf sc v hw b h [] rfl (2 * b.length + 2) (by omega) 0 (by omega)
  rw [List.append_nil] at this
  simp [decode, this, skipSpace]

/-- On a well-formed map nested no deeper than the scanner's limit `Marshal`
succeeds, and `Unmarshal` of its output is the map again. -/
theorem Unmarshal_Marshal (sc : Strconv) (m : List (Bytes × Value sc.Float64))
    (hw : WF sc (Value.object m)) (hn : nesting (Value.object m) ≤ maxNestingDepth) :
    ∃ b, Marshal sc (some m) = Except.ok b ∧ Unmarshal sc b = Except.ok (some m) := by
  obtain ⟨b, hb⟩ := encodeValue_some sc _ (finite_of_wf sc _ hw)
  refine ⟨b, by simp only [Marshal, hb], ?_⟩
  simp only [Unmarshal, decode_encodeValue sc _ hw hn b hb]

/-- Assigning a string to a key of a map does not deepen its nesting. -/
theorem nesting_mapassign_string {F : Type} (m : List (Bytes × Value F)) (k s : Bytes) :
    nesting (Value.object (mapassign k (Value.string s) m)) ≤ nesting (Value.object m) := by
  have h1 : nestingMembers (mapassign k (Value.string s) m) ≤ nestingMembers m := by
    rw [nestingMembers_le]
    intro kv hkv
    rcases mem_mapassign _ _ _ kv hkv with rfl | h
    · simp [nesting]
    · exact (nestingMembers_le m _).1 (le_refl _) kv h
  simp only [nesting]
  omega

theorem wf_mapassign_string (sc : Strconv) (m : List (Bytes × Value sc.Float64))
    (hw : WF sc (Value.object m)) (k s : Bytes) (hk : ValidString k) (hs : ValidString s) :
    WF sc (Value.object (mapassign k (Value.string s) m)) := by
  cases hw with
  | object _ hsort hkeys hvals =>
    refine WF.object _ (sortedKeys_mapassign _ _ _ hsort) ?_ ?_
    · intro kv hkv
      rcases mem_mapassign _ _ _ kv hkv with rfl | h
      · exact hk
      · exact hkeys kv h
    · intro kv hkv
      rcases mem_mapassign _ _ _ kv hkv with rfl | h
      · exact WF.string s hs
      · exact hvals kv h

theorem validString_of_ascii (s : Bytes) (h : ∀ b ∈ s, b < 128) : ValidString s := by
  induction s with
  | nil => exact ValidString.nil
  | cons c t ih =>
    exact validString_byte c t (h c (List.mem_cons_self _ _))
      (ih (fun b hb => h b (List.mem_cons_of_mem _ hb)))

end MarshalUnmarshal

section Time
open time

theorem decimalAux_ascii (fuel u : Nat) (acc : Bytes) (h : ∀ b ∈ acc, b < 128) :
    ∀ b ∈ decimalAux fuel u acc, b < 128 := by
  induction fuel generalizing u acc with
  | zero => simpa [decimalAux] using h
  | succ n ih =>
    simp only [decimalAux]
    split_ifs
    · exact h
    · apply ih
      intro b hb
      simp only [List.mem_cons] at hb
      rcases hb with rfl | hb
      · omega
      · exact h b hb

theorem decimal_ascii (u : Nat) : ∀ b ∈ decimal u, b < 128 := by
  unfold decimal
  split_ifs
  · simp
  · exact decimalAux_ascii _ _ _ (by simp)

theorem appendInt_ascii (x : Int) (w : Nat) : ∀ b ∈ appendInt x w, b < 128 := by
  intro b hb
  simp only [appendInt, List.mem_append, List.mem_replicate] at hb
  rcases hb with hb | hb | hb
  · split_ifs at hb
    · simp at hb; omega
    · simp at hb
  · omega
  · exact decimal_ascii _ b hb

theorem formatNano3_ascii (n : Nat) : ∀ b ∈ formatNano3 n, b < 128 := by
  intro b hb
  simp only [formatNano3, List.mem_cons] at hb
  rcases hb with rfl | hb
  · omega
  · have := List.mem_of_mem_take hb
    simp only [List.mem_map] at this
    obtain ⟨i, _, rfl⟩ := this
    omega

theorem Format_ascii (zone : Int → Int) (t : Time) : ∀ b ∈ Format zone t, b < 128 := by
  intro b hb
  simp only [Format, List.mem_append, List.mem_cons] at hb
  rcases hb with hb | rfl | hb | rfl | hb | rfl | hb | rfl | hb | rfl | hb | hb
  all_goals first
    | omega
    | exact appendInt_ascii _ _ b hb
    | exact formatNano3_ascii _ b hb

theorem validString_Format (zone : Int → Int) (t : Time) : ValidString (Format zone t) :=
  validString_of_ascii _ (Format_ascii zone t)

end Time

/-! ## The loop body -/

section Iteration
open json

variable {σ : Type}

/-- The events that follow the first four calls of a round whose record is
`record`, the client answering `answer`. -/
theorem iteration_of_record (sc : Strconv) (zone : Int → Int) (f : FirehoseOutput σ)
    (i : Nat) (pack : PipelinePack) (s : σ) (record : Bytes)
    (h : recordOf sc zone f.timestampColumn pack = some record) :
    iteration sc zone f i pack s =
      (headCalls i pack ++ (i, Call.Marshal) :: (i, Call.PutRecord record) ::
        (match (f.client.PutRecord s record).2 with
          | some code => [(i, Call.LogError (Error.putRecord code))]
          | none => []),
       Flow.next, (f.client.PutRecord s record).1) := by
  unfold recordOf at h
  unfold iteration
  split at h
  · simp at h
  · rename_i object hu
    try simp only [hu]
    split at h
    · simp at h
    · rename_i object1 hst
      try simp only [hst]
      split at h
      · simp at h
      · rename_i rec hm
        simp only [Option.some.injEq] at h
        subst h
        try simp only [hm]
        rcases hp : f.client.PutRecord s rec with ⟨s1, _ | code⟩ <;> simp [headCalls]

theorem Unmarshal_error (sc : Strconv) (data : Bytes) (err : Error)
    (h : Unmarshal sc data = Except.error err) : err = Error.unmarshal := by
  unfold Unmarshal at h
  split at h <;> simp at h <;> exact h.symm

theorem Marshal_error (sc : Strconv) (object : Option (List (Bytes × Value sc.Float64)))
    (err : Error) (h : Marshal sc object = Except.error err) : err = Error.marshal := by
  unfold Marshal at h
  split at h
  · simp at h
  · split at h <;> simp at h
    exact h.symm

/-- A round without a record makes no `PutRecord` call: it logs the error of
`Unmarshal` or `Marshal`, or panics on the nil map. -/
theorem iteration_of_no_record (sc : Strconv) (zone : Int → Int) (f : FirehoseOutput σ)
    (i : Nat) (pack : PipelinePack) (s : σ)
    (h : recordOf sc zone f.timestampColumn pack = none) :
    (iteration sc zone f i pack s =
        (headCalls i pack ++ [(i, Call.LogError Error.unmarshal)], Flow.next, s)) ∨
    (iteration sc zone f i pack s =
        (headCalls i pack ++ [(i, Call.Marshal), (i, Call.LogError Error.marshal)],
          Flow.next, s)) ∨
    (iteration sc zone f i pack s = (headCalls i pack, Flow.panic, s) ∧
      f.timestampColumn ≠ [] ∧ Unmarshal sc pack.Message.Payload = Except.ok none) := by
  unfold recordOf at h
  unfold iteration
  split at h
  · rename_i err hu
    left
    have := Unmarshal_error sc _ err hu
    subst this
    simp only [hu]; rfl
  · rename_i object hu
    try simp only [hu]
    split at h
    · rename_i hst
      right; right
      try simp only [hst]
      refine ⟨rfl, ?_⟩
      unfold stamp at hst
      split_ifs at hst with hc
      · cases object with
        | none => exact ⟨hc, rfl⟩
        | some m => simp at hst
    · rename_i object1 hst
      try simp only [hst]
      split at h
      · rename_i err hm
        right; left
        have := Marshal_error sc _ err hm
        subst this
        rfl
      · simp at h

theorem mem_headCalls (i : Nat) (pack : PipelinePack) (e : Event) (h : e ∈ headCalls i pack) :
    e.1 = i := by
  simp only [headCalls, List.mem_cons, List.mem_singleton, List.not_mem_nil, or_false] at h
  rcases h with rfl | rfl | rfl | rfl <;> rfl

/-- Every event of a round carries the position of its pack, and the round
starts with the four calls of `headCalls`. -/
theorem iteration_events (sc : Strconv) (zone : Int → Int) (f : FirehoseOutput σ)
    (i : Nat) (pack : PipelinePack) (s : σ) :
    ∃ tail, (iteration sc zone f i pack s).1 = headCalls i pack ++ tail ∧
      ∀ e ∈ tail, e.1 = i ∧ e.2 ≠ Call.Recycle ∧ e.2 ≠ Call.GetPayload ∧
        e.2 ≠ Call.GetTimestamp ∧ ∀ d, e.2 ≠ Call.Unmarshal d := by
  cases h : recordOf sc zone f.timestampColumn pack with
  | some record =>
    rw [iteration_of_record sc zone f i pack s record h]
    refine ⟨_, rfl, ?_⟩
    intro e he
    simp only [List.mem_cons] at he
    rcases he with rfl | rfl | he
    · simp
    · simp
    · split at he
      · simp only [List.mem_singleton] at he
        subst he; simp
      · simp at he
  | none =>
    rcases iteration_of_no_record sc zone f i pack s h with e | e | ⟨e, _⟩
    · rw [e]; refine ⟨_, rfl, ?_⟩
      intro x hx
      simp only [List.mem_singleton] at hx
      subst hx; simp
    · rw [e]; refine ⟨_, rfl, ?_⟩
      intro x hx
      simp only [List.mem_cons, List.mem_singleton, List.not_mem_nil, or_false] at hx
      rcases hx with rfl | rfl <;> simp
    · rw [e]; exact ⟨[], by simp, by simp⟩

theorem iteration_index (sc : Strconv) (zone : Int → Int) (f : FirehoseOutput σ)
    (i : Nat) (pack : PipelinePack) (s : σ) :
    ∀ e ∈ (iteration sc zone f i pack s).1, e.1 = i := by
  obtain ⟨tail, e, ht⟩ := iteration_events sc zone f i pack s
  rw [e]
  intro x hx
  rcases List.mem_append.1 hx with h | h
  · exact mem_headCalls i pack x h
  · exact (ht x h).1

theorem putRecords_append (a b : List Event) :
    putRecords (a ++ b) = putRecords a ++ putRecords b := by
  simp [putRecords, List.filterMap_append]

theorem putRecords_headCalls (i : Nat) (pack : PipelinePack) :
    putRecords (headCalls i pack) = [] := rfl

/-- A round submits the record of its pack, once, when there is one, and
nothing otherwise. -/
theorem iteration_putRecords (sc : Strconv) (zone : Int → Int) (f : FirehoseOutput σ)
    (i : Nat) (pack : PipelinePack) (s : σ) :
    putRecords (iteration sc zone f i pack s).1 =
      match recordOf sc zone f.timestampColumn pack with
      | some record => [(i, record)]
      | none => [] := by
  cases h : recordOf sc zone f.timestampColumn pack with
  | some record =>
    rw [iteration_of_record sc zone f i pack s record h, putRecords_append,
      putRecords_headCalls]
    cases (f.client.PutRecord s record).2 <;> rfl
  | none =>
    rcases iteration_of_no_record sc zone f i pack s h with e | e | ⟨e, _⟩ <;>
      rw [e] <;> rfl

end Iteration

/-! ## The loop -/

section Loop
open json

variable {σ : Type}

theorem runLoop_nil (sc : Strconv) (zone : Int → Int) (f : FirehoseOutput σ) (i : Nat) (s : σ) :
    runLoop sc zone f i [] s = ([], Outcome.returned none, s) := by
  cases i <;> rfl

theorem runLoop_cons_next (sc : Strconv) (zone : Int → Int) (f : FirehoseOutput σ)
    (i : Nat) (pack : PipelinePack) (rest : List PipelinePack) (s s1 : σ) (evs : List Event)
    (h : iteration sc zone f i pack s = (evs, Flow.next, s1)) :
    runLoop sc zone f i (pack :: rest) s =
      (evs ++ (runLoop sc zone f (i + 1) rest s1).1, (runLoop sc zone f (i + 1) rest s1).2) := by
  rw [runLoop, h]

theorem runLoop_cons_panic (sc : Strconv) (zone : Int → Int) (f : FirehoseOutput σ)
    (i : Nat) (pack : PipelinePack) (rest : List PipelinePack) (s s1 : σ) (evs : List Event)
    (h : iteration sc zone f i pack s = (evs, Flow.panic, s1)) :
    runLoop sc zone f i (pack :: rest) s = (evs, Outcome.panicked, s1) := by
  rw [runLoop, h]

/-- The two ways a round can end, with the shape of the loop in each. -/
theorem runLoop_cons_cases (sc : Strconv) (zone : Int → Int) (f : FirehoseOutput σ)
    (i : Nat) (pack : PipelinePack) (rest : List PipelinePack) (s : σ) :
    (∃ evs s1, iteration sc zone f i pack s = (evs, Flow.next, s1) ∧
      runLoop sc zone f i (pack :: rest) s =
        (evs ++ (runLoop sc zone f (i + 1) rest s1).1,
          (runLoop sc zone f (i + 1) rest s1).2)) ∨
    (∃ evs s1, iteration sc zone f i pack s = (evs, Flow.panic, s1) ∧
      runLoop sc zone f i (pack :: rest) s = (evs, Outcome.panicked, s1)) := by
  rcases h : iteration sc zone f i pack s with ⟨evs, fl, s1⟩
  cases fl with
  | next => exact Or.inl ⟨evs, s1, rfl, runLoop_cons_next sc zone f i pack rest s s1 evs h⟩
  | panic => exact Or.inr ⟨evs, s1, rfl, runLoop_cons_panic sc zone f i pack rest s s1 evs h⟩

theorem runLoop_index (sc : Strconv) (zone : Int → Int) (f : FirehoseOutput σ)
    (packs : List PipelinePack) :
    ∀ (i : Nat) (s : σ), ∀ e ∈ (runLoop sc zone f i packs s).1,
      i ≤ e.1 ∧ e.1 < i + packs.length := by
  induction packs with
  | nil => intro i s e he; rw [runLoop_nil] at he; simp at he
  | cons pack rest ih =>
    intro i s e he
    have hidx := iteration_index sc zone f i pack s
    rcases runLoop_cons_cases sc zone f i pack rest s with ⟨evs, s1, hi, hr⟩ | ⟨evs, s1, hi, hr⟩
    · rw [hr] at he
      rw [hi] at hidx
      rcases List.mem_append.1 he with h | h
      · have := hidx e h
        simp only [List.length_cons]; omega
      · have := ih (i + 1) s1 e h
        simp only [List.length_cons]; omega
    · rw [hr] at he
      rw [hi] at hidx
      have := hidx e he
      simp only [List.length_cons]; omega

theorem mem_putRecords (evs : List Event) (j : Nat) (r : Bytes) :
    (j, r) ∈ putRecords evs ↔ (j, Call.PutRecord r) ∈ evs := by
  simp only [putRecords, List.mem_filterMap]
  constructor
  · rintro ⟨⟨k, c⟩, hmem, hc⟩
    cases c <;> simp at hc
    obtain ⟨rfl, rfl⟩ := hc
    exact hmem
  · intro h
    exact ⟨(j, Call.PutRecord r), h, rfl⟩

/-- The submissions of the loop are, in the order of the channel, the records
of the packs that have one; a panic cuts the sequence short. -/
theorem runLoop_putRecords (sc : Strconv) (zone : Int → Int) (f : FirehoseOutput σ)
    (packs : List PipelinePack) :
    ∀ (i : Nat) (s : σ),
      (putRecords (runLoop sc zone f i packs s).1).Pairwise (fun a b => a.1 < b.1) ∧
      (∀ e ∈ putRecords (runLoop sc zone f i packs s).1, i ≤ e.1 ∧
        ∃ pack, packs[e.1 - i]? = some pack ∧
          recordOf sc zone f.timestampColumn pack = some e.2) ∧
      ((runLoop sc zone f i packs s).2.1 = Outcome.returned none →
        ∀ k pack r, packs[k]? = some pack →
          recordOf sc zone f.timestampColumn pack = some r →
          (i + k, r) ∈ putRecords (runLoop sc zone f i packs s).1) := by
  induction packs with
  | nil =>
    intro i s
    rw [runLoop_nil]
    exact ⟨by simp [putRecords], by simp [putRecords], by simp⟩
  | cons pack rest ih =>
    intro i s
    have hput := iteration_putRecords sc zone f i pack s
    rcases runLoop_cons_cases sc zone f i pack rest s with ⟨evs, s1, hi, hr⟩ | ⟨evs, s1, hi, hr⟩
    · rw [hr, putRecords_append]
      rw [hi] at hput
      simp only at hput
      obtain ⟨ih1, ih2, ih3⟩ := ih (i + 1) s1
      refine ⟨?_, ?_, ?_⟩
      · rw [List.pairwise_append]
        refine ⟨?_, ih1, ?_⟩
        · rw [hput]; split <;> simp
        · intro a ha b hb
          have hb1 := (ih2 b hb).1
          rw [hput] at ha
          split at ha
          · simp only [List.mem_singleton] at ha
            subst ha; simp only; omega
          · simp at ha
      · intro e he
        rcases List.mem_append.1 he with h | h
        · rw [hput] at h
          split at h
          · rename_i record hrec
            simp only [List.mem_singleton] at h
            subst h
            exact ⟨le_refl _, pack, by simp, hrec⟩
          · simp at h
        · obtain ⟨h1, p, hp, hrec⟩ := ih2 e h
          refine ⟨by omega, p, ?_, hrec⟩
          have : e.1 - i = (e.1 - (i + 1)) + 1 := by omega
          rw [this, List.getElem?_cons_succ]
          exact hp
      · intro hout k p r hk hrec
        cases k with
        | zero =>
          simp only [List.getElem?_cons_zero, Option.some.injEq] at hk
          subst hk
          rw [hrec] at hput
          apply List.mem_append_left
          rw [hput]; simp
        | succ k =>
          rw [List.getElem?_cons_succ] at hk
          apply List.mem_append_right
          have := ih3 hout k p r hk hrec
          have e : i + (k + 1) = i + 1 + k := by omega
          rw [e]; exact this
    · rw [hr]
      rw [hi] at hput
      simp only at hput ⊢
      refine ⟨?_, ?_, ?_⟩
      · rw [hput]; split <;> simp
      · intro e he
        rw [hput] at he
        split at he
        · rename_i record hrec
          simp only [List.mem_singleton] at he
          subst he
          exact ⟨le_refl _, pack, by simp, hrec⟩
        · simp at he
      · intro hout; exact absurd hout (by simp)

/-- A round ends in a panic only on a payload that decodes to `null`, with a
timestamp column configured. -/
theorem iteration_panic (sc : Strconv) (zone : Int → Int) (f : FirehoseOutput σ)
    (i : Nat) (pack : PipelinePack) (s s1 : σ) (evs : List Event)
    (h : iteration sc zone f i pack s = (evs, Flow.panic, s1)) :
    f.timestampColumn ≠ [] ∧ Unmarshal sc pack.Message.Payload = Except.ok none := by
  cases hrec : recordOf sc zone f.timestampColumn pack with
  | some record =>
    rw [iteration_of_record sc zone f i pack s record hrec] at h
    simp at h
  | none =>
    rcases iteration_of_no_record sc zone f i pack s hrec with e | e | ⟨_, h1, h2⟩
    · rw [e] at h; simp at h
    · rw [e] at h; simp at h
    · exact ⟨h1, h2⟩

/-- The loop returns nil, having gone through the whole channel, unless a
timestamp column is configured and some payload decodes to `null`. -/
theorem runLoop_returns (sc : Strconv) (zone : Int → Int) (f : FirehoseOutput σ)
    (packs : List PipelinePack)
    (h : f.timestampColumn = [] ∨
      ∀ pack ∈ packs, Unmarshal sc pack.Message.Payload ≠ Except.ok none) :
    ∀ (i : Nat) (s : σ), (runLoop sc zone f i packs s).2.1 = Outcome.returned none := by
  induction packs with
  | nil => intro i s; rw [runLoop_nil]
  | cons pack rest ih =>
    intro i s
    have hrest : f.timestampColumn = [] ∨
        ∀ p ∈ rest, Unmarshal sc p.Message.Payload ≠ Except.ok none := by
      rcases h with h | h
      · exact Or.inl h
      · exact Or.inr (fun p hp => h p (List.mem_cons_of_mem _ hp))
    rcases runLoop_cons_cases sc zone f i pack rest s with ⟨evs, s1, hi, hr⟩ | ⟨evs, s1, hi, hr⟩
    · rw [hr]; exact ih hrest (i + 1) s1
    · obtain ⟨h1, h2⟩ := iteration_panic sc zone f i pack s s1 evs hi
      rcases h with h | h
      · exact absurd h h1
      · exact absurd h2 (h pack (List.mem_cons_self _ _))

end Loop

/-! ## Order of the submissions, release of the packs -/

section Order
open json

variable {σ : Type}

theorem runLoop_append (sc : Strconv) (zone : Int → Int) (f : FirehoseOutput σ)
    (pre post : List PipelinePack) :
    ∀ (i : Nat) (s s0 : σ) (tr : List Event),
      runLoop sc zone f i pre s = (tr, Outcome.returned none, s0) →
      runLoop sc zone f i (pre ++ post) s =
        (tr ++ (runLoop sc zone f (i + pre.length) post s0).1,
          (runLoop sc zone f (i + pre.length) post s0).2) := by
  induction pre with
  | nil =>
    intro i s s0 tr h
    rw [runLoop_nil] at h
    simp only [Prod.mk.injEq] at h
    obtain ⟨rfl, _, rfl⟩ := h
    simp
  | cons pack rest ih =>
    intro i s s0 tr h
    rcases runLoop_cons_cases sc zone f i pack rest s with ⟨evs, s1, hi, hr⟩ | ⟨evs, s1, hi, hr⟩
    · rw [hr] at h
      simp only [Prod.mk.injEq] at h
      have hrest : runLoop sc zone f (i + 1) rest s1 =
          (((runLoop sc zone f (i + 1) rest s1).1), Outcome.returned none, s0) := by
        rcases hq : runLoop sc zone f (i + 1) rest s1 with ⟨a, b, c⟩
        rw [hq] at h
        simp only [Prod.mk.injEq] at h
        rw [h.2.1, h.2.2]
      have := ih (i + 1) s1 s0 _ hrest
      rw [List.cons_append, runLoop_cons_next sc zone f i pack (rest ++ post) s s1 evs hi, this]
      have e : i + 1 + rest.length = i + (pack :: rest).length := by
        simp only [List.length_cons]; omega
      rw [e, ← h.1]
      simp
    · rw [hr] at h
      simp at h

/-- When every pack has a record, the submissions are the records of the
packs, one per pack, in channel order. -/
theorem runLoop_putRecords_all (sc : Strconv) (zone : Int → Int) (f : FirehoseOutput σ)
    (packs : List PipelinePack)
    (h : ∀ pack ∈ packs, ∃ r, recordOf sc zone f.timestampColumn pack = some r) :
    ∀ (i : Nat) (s : σ) (k : Nat) (pack : PipelinePack), packs[k]? = some pack →
      ∃ r, recordOf sc zone f.timestampColumn pack = some r ∧
        (putRecords (runLoop sc zone f i packs s).1)[k]? = some (i + k, r) := by
  induction packs with
  | nil => intro i s k pack hk; simp at hk
  | cons p rest ih =>
    intro i s k pack hk
    obtain ⟨r0, hr0⟩ := h p (List.mem_cons_self _ _)
    have hit := iteration_of_record sc zone f i p s r0 hr0
    have hput := iteration_putRecords sc zone f i p s
    rw [hr0] at hput
    rw [runLoop_cons_next sc zone f i p rest s _ _ hit, putRecords_append]
    rw [hit] at hput
    simp only at hput
    rw [hput]
    cases k with
    | zero =>
      simp only [List.getElem?_cons_zero, Option.some.injEq] at hk
      subst hk
      exact ⟨r0, hr0, by simp⟩
    | succ k =>
      rw [List.getElem?_cons_succ] at hk
      obtain ⟨r, hr, hg⟩ := ih (fun q hq => h q (List.mem_cons_of_mem _ hq)) (i + 1)
        (f.client.PutRecord s r0).1 k pack hk
      refine ⟨r, hr, ?_⟩
      simp only [List.singleton_append, List.getElem?_cons_succ]
      rw [hg]
      have e : i + 1 + k = i + (k + 1) := by omega
      rw [e]

/-- A valid JSON object always has a record; it decodes to the object, with
the timestamp assigned under the configured column when there is one. -/
theorem recordOf_valid (sc : Strconv) (hsc : sc.Lawful) (zone : Int → Int) (col : Bytes)
    (pack : PipelinePack) (m : List (Bytes × Value sc.Float64))
    (hm : Unmarshal sc pack.Message.Payload = Except.ok (some m)) :
    ∃ r, recordOf sc zone col pack = some r ∧
      Marshal sc (some (if col = [] then m else
        mapassign col (Value.string (time.Format zone (time.Unix 0 pack.Message.Timestamp)))
          m)) = Except.ok r := by
  have hw := wf_Unmarshal sc hsc _ m hm
  have hfin := finite_of_wf sc _ hw
  unfold recordOf
  rw [hm]
  by_cases hc : col = []
  · obtain ⟨b, hb⟩ := encodeValue_some sc _ hfin
    refine ⟨b, ?_, ?_⟩
    · simp only [stamp, hc, ne_eq, not_true_eq_false, if_false, Marshal, hb]
    · simp only [hc, if_true, Marshal, hb]
  · have hfin2 := finite_mapassign_string sc m hfin col
      (time.Format zone (time.Unix 0 pack.Message.Timestamp))
    obtain ⟨b, hb⟩ := encodeValue_some sc _ hfin2
    refine ⟨b, ?_, ?_⟩
    · simp only [stamp, hc, ne_eq, not_false_eq_true, if_true, Marshal, hb]
    · simp only [hc, if_false, Marshal, hb]

/-- The first four calls of the round of pack `i` are found once in the
trace, after the events of the earlier packs, and no later event releases or
decodes pack `i` again. -/
theorem runLoop_headCalls (sc : Strconv) (zone : Int → Int) (f : FirehoseOutput σ)
    (packs : List PipelinePack) :
    ∀ (j : Nat) (s : σ) (i : Nat) (c : Call), (i, c) ∈ (runLoop sc zone f j packs s).1 →
      j ≤ i ∧ ∃ pack, packs[i - j]? = some pack ∧
        ∃ pre post, (runLoop sc zone f j packs s).1 = pre ++ headCalls i pack ++ post ∧
          (∀ e ∈ pre, e.1 < i) ∧
          (∀ e ∈ post, e ≠ (i, Call.Recycle) ∧ ∀ d, e ≠ (i, Call.Unmarshal d)) := by
  induction packs with
  | nil => intro j s i c h; rw [runLoop_nil] at h; simp at h
  | cons p rest ih =>
    intro j s i c h
    obtain ⟨tail, htail, htl⟩ := iteration_events sc zone f j p s
    have hidx := iteration_index sc zone f j p s
    have key : ∀ (T : List Event), (∀ e ∈ T, j + 1 ≤ e.1) →
        (∀ i c, (i, c) ∈ T → j + 1 ≤ i ∧ ∃ pack, rest[i - (j + 1)]? = some pack ∧
          ∃ pre post, T = pre ++ headCalls i pack ++ post ∧ (∀ e ∈ pre, e.1 < i) ∧
            (∀ e ∈ post, e ≠ (i, Call.Recycle) ∧ ∀ d, e ≠ (i, Call.Unmarshal d))) →
        (i, c) ∈ (iteration sc zone f j p s).1 ++ T →
        j ≤ i ∧ ∃ pack, (p :: rest)[i - j]? = some pack ∧
          ∃ pre post, (iteration sc zone f j p s).1 ++ T = pre ++ headCalls i pack ++ post ∧
            (∀ e ∈ pre, e.1 < i) ∧
            (∀ e ∈ post, e ≠ (i, Call.Recycle) ∧ ∀ d, e ≠ (i, Call.Unmarshal d)) := by
      intro T hT hrec hmem
      rcases List.mem_append.1 hmem with hm | hm
      · have hij : i = j := hidx _ hm
        subst hij
        refine ⟨le_refl _, p, by simp, [], tail ++ T, by rw [htail]; simp, by simp, ?_⟩
        intro e he
        rcases List.mem_append.1 he with h1 | h1
        · obtain ⟨_, h2, _, _, h5⟩ := htl e h1
          constructor
          · intro heq; rw [heq] at h2; exact h2 rfl
          · intro d heq; rw [heq] at h5; exact h5 d rfl
        · have := hT e h1
          constructor
          · intro heq; rw [heq] at this; simp at this
          · intro d heq; rw [heq] at this; simp at this
      · obtain ⟨h1, pack, hp, pre, post, hT2, hpre, hpost⟩ := hrec i c hm
        refine ⟨by omega, pack, ?_, (iteration sc zone f j p s).1 ++ pre, post, ?_, ?_, hpost⟩
        · have e : i - j = (i - (j + 1)) + 1 := by omega
          rw [e, List.getElem?_cons_succ]; exact hp
        · rw [hT2]; simp
        · intro e he
          rcases List.mem_append.1 he with h2 | h2
          · have := hidx e h2; omega
          · exact hpre e h2
    rcases runLoop_cons_cases sc zone f j p rest s with ⟨evs, s1, hi, hr⟩ | ⟨evs, s1, hi, hr⟩
    · have hev : (iteration sc zone f j p s).1 = evs := by rw [hi]
      rw [hr] at h ⊢
      simp only at h ⊢
      rw [← hev] at h ⊢
      exact key _ (fun e he => (runLoop_index sc zone f rest (j + 1) s1 e he).1)
        (ih (j + 1) s1) h
    · have hev : (iteration sc zone f j p s).1 = evs := by rw [hi]
      rw [hr] at h ⊢
      simp only at h ⊢
      rw [← hev] at h ⊢
      have := key [] (by simp) (by simp) (by simpa using h)
      simpa using this

theorem count_recycle_headCalls (i : Nat) (pack : PipelinePack) :
    (headCalls i pack).count (i, Call.Recycle) = 1 := by
  simp [headCalls, List.count_cons]

/-- When the loop returns, it has received every pack of the channel. -/
theorem runLoop_receives_all (sc : Strconv) (zone : Int → Int) (f : FirehoseOutput σ)
    (packs : List PipelinePack) :
    ∀ (j : Nat) (s : σ), (runLoop sc zone f j packs s).2.1 = Outcome.returned none →
      ∀ k, k < packs.length → (j + k, Call.GetPayload) ∈ (runLoop sc zone f j packs s).1 := by
  induction packs with
  | nil => intro j s _ k hk; simp at hk
  | cons p rest ih =>
    intro j s hout k hk
    obtain ⟨tail, htail, _⟩ := iteration_events sc zone f j p s
    rcases runLoop_cons_cases sc zone f j p rest s with ⟨evs, s1, hi, hr⟩ | ⟨evs, s1, hi, hr⟩
    · rw [hr] at hout ⊢
      rw [hi] at htail
      simp only at htail hout ⊢
      cases k with
      | zero =>
        apply List.mem_append_left
        rw [htail]; simp [headCalls]
      | succ k =>
        apply List.mem_append_right
        have := ih (j + 1) s1 hout k (by simpa using hk)
        have e : j + (k + 1) = j + 1 + k := by omega
        rw [e]; exact this
    · rw [hr] at hout; simp at hout

end Order

/-! ## The timestamp -/

section Timestamp
open time

theorem Unix_zero (T : Int) :
    Unix 0 T = { sec := T / 1000000000, nsec := T % 1000000000 } := by
  unfold Unix
  by_cases h1 : T < 0
  · simp only [h1, true_or, if_true, zero_add]
    split_ifs with h2 <;> simp only [Time.mk.injEq] <;>
      constructor <;> first | trivial | omega
  · by_cases h2 : T ≥ 1000000000
    · simp only [h1, h2, or_true, if_true, if_false, zero_add]
      split_ifs with h3 <;> simp only [Time.mk.injEq] <;>
        constructor <;> first | trivial | omega
    · simp only [h1, h2, or_self, if_false, Time.mk.injEq]
      constructor <;> omega

theorem decimalAux_zero (fuel : Nat) (acc : Bytes) : decimalAux fuel 0 acc = acc := by
  cases fuel <;> simp [decimalAux]

theorem decimalAux_step (fuel u : Nat) (acc : Bytes) (hu : 0 < u) (hf : 0 < fuel) :
    decimalAux fuel u acc = decimalAux (fuel - 1) (u / 10) ((48 + u % 10) :: acc) := by
  obtain ⟨n, rfl⟩ : ∃ n, fuel = n + 1 := ⟨fuel - 1, by omega⟩
  have : ¬ u = 0 := by omega
  simp [decimalAux, this]

theorem zeroPadded_two (n : Nat) : zeroPadded 2 n = [48 + n / 10 % 10, 48 + n % 10] := by
  simp [zeroPadded, List.range, List.range.loop]

theorem zeroPadded_three (n : Nat) :
    zeroPadded 3 n = [48 + n / 100 % 10, 48 + n / 10 % 10, 48 + n % 10] := by
  simp [zeroPadded, List.range, List.range.loop]

theorem zeroPadded_four (n : Nat) :
    zeroPadded 4 n =
      [48 + n / 1000 % 10, 48 + n / 100 % 10, 48 + n / 10 % 10, 48 + n % 10] := by
  simp [zeroPadded, List.range, List.range.loop]

theorem decimal_lt_ten (n : Nat) (h : n < 10) : decimal n = [48 + n] := by
  unfold decimal
  split_ifs with h0
  · subst h0; rfl
  · rw [decimalAux_step n n [] (by omega) (by omega)]
    have e : n / 10 = 0 := by omega
    have e2 : n % 10 = n := by omega
    rw [e, decimalAux_zero, e2]

theorem decimal_lt_hundred (n : Nat) (h1 : 10 ≤ n) (h : n < 100) :
    decimal n = [48 + n / 10, 48 + n % 10] := by
  unfold decimal
  rw [if_neg (by omega), decimalAux_step n n [] (by omega) (by omega),
    decimalAux_step (n - 1) (n / 10) _ (by omega) (by omega)]
  have e : n / 10 / 10 = 0 := by omega
  have e2 : n / 10 % 10 = n / 10 := by omega
  rw [e, decimalAux_zero, e2]

theorem decimal_lt_thousand (n : Nat) (h1 : 100 ≤ n) (h : n < 1000) :
    decimal n = [48 + n / 100, 48 + n / 10 % 10, 48 + n % 10] := by
  unfold decimal
  rw [if_neg (by omega), decimalAux_step n n [] (by omega) (by omega),
    decimalAux_step (n - 1) (n / 10) _ (by omega) (by omega),
    decimalAux_step (n - 1 - 1) (n / 10 / 10) _ (by omega) (by omega)]
  have e : n / 10 / 10 / 10 = 0 := by omega
  have e2 : n / 10 / 10 % 10 = n / 100 := by omega
  rw [e, decimalAux_zero, e2]

theorem decimal_lt_tenThousand (n : Nat) (h1 : 1000 ≤ n) (h : n < 10000) :
    decimal n = [48 + n / 1000, 48 + n / 100 % 10, 48 + n / 10 % 10, 48 + n % 10] := by
  unfold decimal
  rw [if_neg (by omega), decimalAux_step n n [] (by omega) (by omega),
    decimalAux_step (n - 1) (n / 10) _ (by omega) (by omega),
    decimalAux_step (n - 1 - 1) (n / 10 / 10) _ (by omega) (by omega),
    decimalAux_step (n - 1 - 1 - 1) (n / 10 / 10 / 10) _ (by omega) (by omega)]
  have e : n / 10 / 10 / 10 / 10 = 0 := by omega
  have e2 : n / 10 / 10 / 10 % 10 = n / 1000 := by omega
  have e3 : n / 10 / 10 % 10 = n / 100 % 10 := by omega
  rw [e, decimalAux_zero, e2, e3]

theorem appendInt_two (n : Nat) (h : n < 100) : appendInt (n : Int) 2 = zeroPadded 2 n := by
  have hneg : ¬ ((n : Int) < 0) := by omega
  simp only [appendInt, hneg, if_false, Int.natAbs_ofNat, List.nil_append, zeroPadded_two]
  by_cases h1 : n < 10
  · rw [decimal_lt_ten n h1]
    have e : n / 10 % 10 = 0 := by omega
    have e2 : n % 10 = n := by omega
    simp [e, e2, List.replicate]
  · rw [decimal_lt_hundred n (by omega) h]
    have e : n / 10 % 10 = n / 10 := by omega
    simp [e]

theorem appendInt_four (n : Nat) (h : n < 10000) : appendInt (n : Int) 4 = zeroPadded 4 n := by
  have hneg : ¬ ((n : Int) < 0) := by omega
  simp only [appendInt, hneg, if_false, Int.natAbs_ofNat, List.nil_append, zeroPadded_four]
  by_cases h1 : n < 10
  · rw [decimal_lt_ten n h1]
    have e1 : n / 1000 % 10 = 0 := by omega
    have e2 : n / 100 % 10 = 0 := by omega
    have e3 : n / 10 % 10 = 0 := by omega
    have e4 : n % 10 = n := by omega
    simp [e1, e2, e3, e4, List.replicate]
  by_cases h2 : n < 100
  · rw [decimal_lt_hundred n (by omega) h2]
    have e1 : n / 1000 % 10 = 0 := by omega
    have e2 : n / 100 % 10 = 0 := by omega
    have e3 : n / 10 % 10 = n / 10 := by omega
    simp [e1, e2, e3, List.replicate]
  by_cases h3 : n < 1000
  · rw [decimal_lt_thousand n (by omega) h3]
    have e1 : n / 1000 % 10 = 0 := by omega
    have e2 : n / 100 % 10 = n / 100 := by omega
    simp [e1, e2, List.replicate]
  · rw [decimal_lt_tenThousand n (by omega) h]
    have e1 : n / 1000 % 10 = n / 1000 := by omega
    simp [e1]

theorem formatNano3_eq (ns : Nat) :
    formatNano3 ns = 46 :: zeroPadded 3 (ns / 1000000) := by
  simp only [formatNano3, zeroPadded_three]
  simp only [List.range, List.range.loop, List.map, List.take]
  norm_num
  refine ⟨?_, ?_⟩ <;> omega

end Timestamp

section Calendar
open time

/-- Month and day of the month from the day of a year without its leap day. -/
theorem monthDay_bounds (day : Nat) (h : day ≤ 364) :
    let month := day / 31
    let fin := daysBefore.getD (month + 1) 0
    (day ≥ fin → 1 ≤ month + 2 ∧ month + 2 ≤ 12 ∧ 1 ≤ day - fin + 1 ∧ day - fin + 1 ≤ 31) ∧
    (¬ day ≥ fin → 1 ≤ month + 1 ∧ month + 1 ≤ 12 ∧
      1 ≤ day - daysBefore.getD month 0 + 1 ∧ day - daysBefore.getD month 0 + 1 ≤ 31) := by
  intro month fin
  have hm : month ≤ 11 := by
    show day / 31 ≤ 11
    omega
  have hd : month = day / 31 := rfl
  have hf : fin = daysBefore.getD (month + 1) 0 := rfl
  clear_value month fin
  interval_cases month <;> simp only [daysBefore, List.getD_cons_succ, List.getD_cons_zero] at hf ⊢ <;>
    subst hf <;> constructor <;> intro hx <;> omega

/-- The arithmetic of `absDate`: cutting days into 400-, 100-, 4- and 1-year
cycles leaves a day of the year below 365, or 365 in a leap year. -/
theorem absDate_cycle (d n400 d1 q100 n100 d2 n4 d3 q1 n1 yday y : Nat)
    (h1 : n400 = d / 146097) (h2 : d1 = d - 146097 * n400) (h3 : q100 = d1 / 36524)
    (h4 : n100 = q100 - q100 / 4) (h5 : d2 = d1 - 36524 * n100) (h6 : n4 = d2 / 1461)
    (h7 : d3 = d2 - 1461 * n4) (h8 : q1 = d3 / 365) (h9 : n1 = q1 - q1 / 4)
    (h10 : yday = d3 - 365 * n1) (h11 : y = 400 * n400 + 100 * n100 + 4 * n4 + n1) :
    yday ≤ 365 ∧ (365 ≤ yday → (y + 1) % 4 = 0 ∧ ((y + 1) % 100 ≠ 0 ∨ (y + 1) % 400 = 0)) ∧
    400 * (d / 146097) ≤ y ∧ y ≤ 400 * (d / 146097) + 399 := by
  have a1 : d1 < 146097 := by omega
  have a2 : q100 ≤ 4 := by omega
  have a3 : d2 ≤ 36524 := by
    interval_cases q100 <;> omega
  have a3' : d2 = 36524 → n100 = 3 := by
    interval_cases q100 <;> omega
  have a4 : n100 ≤ 3 := by interval_cases q100 <;> omega
  have a5 : n4 ≤ 24 := by omega
  have a6 : d3 ≤ 1460 := by omega
  have a7 : q1 ≤ 4 := by omega
  have a8 : n1 ≤ 3 := by interval_cases q1 <;> omega
  have a9 : yday ≤ 365 := by interval_cases q1 <;> omega
  have a10 : 365 ≤ yday → n1 = 3 ∧ d3 = 1460 := by interval_cases q1 <;> omega
  refine ⟨a9, ?_, by omega, by omega⟩
  intro hy
  obtain ⟨b1, b2⟩ := a10 hy
  have b3 : (y + 1) % 4 = 0 := by omega
  refine ⟨b3, ?_⟩
  by_cases c : n4 = 24
  · right
    have : d2 = 36524 := by omega
    have := a3' this
    omega
  · left
    have : n4 ≤ 23 := by omega
    omega

theorem absDate_bounds (abs : Nat) (hlo : 9223372000000000000 ≤ abs)
    (hhi : abs ≤ 9223372050000000000) :
    0 ≤ (absDate abs).1 ∧ (absDate abs).1 ≤ 9999 ∧
    1 ≤ (absDate abs).2.1 ∧ (absDate abs).2.1 ≤ 12 ∧
    1 ≤ (absDate abs).2.2 ∧ (absDate abs).2.2 ≤ 31 := by
  have hc := absDate_cycle (abs / 86400) _ _ _ _ _ _ _ _ _ _ _
    rfl rfl rfl rfl rfl rfl rfl rfl rfl rfl rfl
  dsimp only [absDate]
  generalize hd : abs / 86400 = d at hc ⊢
  generalize hn400 : d / 146097 = n400 at hc ⊢
  generalize hd1 : d - 146097 * n400 = d1 at hc ⊢
  generalize hn100 : d1 / 36524 - d1 / 36524 / 4 = n100 at hc ⊢
  generalize hd2 : d1 - 36524 * n100 = d2 at hc ⊢
  generalize hn4 : d2 / 1461 = n4 at hc ⊢
  generalize hd3 : d2 - 1461 * n4 = d3 at hc ⊢
  generalize hn1 : d3 / 365 - d3 / 365 / 4 = n1 at hc ⊢
  generalize hyday : d3 - 365 * n1 = yday at hc ⊢
  generalize hyear :
    ((400 * n400 + 100 * n100 + 4 * n4 + n1 : Nat) : Int) + absoluteZeroYear = year at hc ⊢
  obtain ⟨c1, c2, c3, c4⟩ := hc
  simp only [absoluteZeroYear] at hyear
  have y0 : 0 ≤ year := by omega
  have y1 : year ≤ 9999 := by omega
  have hleap : isLeap year = true ↔
      (year % 4 = 0 ∧ (year % 100 ≠ 0 ∨ year % 400 = 0)) := by
    simp [isLeap]
  have hnl : ¬ isLeap year = true → yday ≤ 364 := by
    intro hl
    by_contra hcon
    have := c2 (by omega)
    apply hl
    rw [hleap]
    omega
  by_cases h59 : isLeap year = true ∧ yday = 31 + 29 - 1
  · rw [if_pos h59]
    refine ⟨y0, y1, ?_, ?_, ?_, ?_⟩ <;> norm_num
  · rw [if_neg h59]
    generalize hday :
      (if isLeap year = true ∧ yday > 31 + 29 - 1 then yday - 1 else yday) = day
    have hday364 : day ≤ 364 := by
      rw [← hday]
      by_cases hl : isLeap year = true
      · by_cases hgt : yday > 31 + 29 - 1
        · rw [if_pos ⟨hl, hgt⟩]
          clear hyear hleap hnl hd hn400 hd1 hn100 hd2 hn4 hd3 hn1 hyday c2 c3 c4
          omega
        · rw [if_neg (fun h => hgt h.2)]
          clear hyear hleap hnl hd hn400 hd1 hn100 hd2 hn4 hd3 hn1 hyday c2 c3 c4
          omega
      · have := hnl hl
        rw [if_neg (fun h => hl h.1)]
        exact this
    have hb := monthDay_bounds day hday364
    simp only at hb
    split_ifs with hfin
    · exact ⟨y0, y1, hb.1 hfin⟩
    · exact ⟨y0, y1, hb.2 hfin⟩

end Calendar

section TimestampShape
open time

theorem absClock_bounds (abs : Nat) :
    (absClock abs).1 ≤ 23 ∧ (absClock abs).2.1 ≤ 59 ∧ (absClock abs).2.2 ≤ 59 := by
  simp only [absClock]
  omega

theorem length_zeroPadded (w n : Nat) : (zeroPadded w n).length = w := by
  simp [zeroPadded]

/-- The timestamp of a message in the `int64` range, in a zone whose offsets
fit in 32 bits, is made of the zero-padded fields of `absDate` and `absClock`
and of the milliseconds. -/
theorem Format_eq (zone : Int → Int)
    (hz : ∀ t, -2147483648 ≤ zone t ∧ zone t ≤ 2147483647) (T : Int)
    (hT : -9223372036854775808 ≤ T ∧ T ≤ 9223372036854775807) :
    ∃ abs : Nat, (abs : Int) = T / 1000000000 + zone (T / 1000000000) + unixToAbsolute ∧
      9223372000000000000 ≤ abs ∧ abs ≤ 9223372050000000000 ∧
      Format zone (Unix 0 T) =
        zeroPadded 4 (absDate abs).1.toNat ++ 45 :: (zeroPadded 2 (absDate abs).2.1 ++ 45 ::
          (zeroPadded 2 (absDate abs).2.2 ++ 32 :: (zeroPadded 2 (absClock abs).1 ++ 58 ::
            (zeroPadded 2 (absClock abs).2.1 ++ 58 :: (zeroPadded 2 (absClock abs).2.2 ++
              46 :: zeroPadded 3 ((T % 1000000000).toNat / 1000000)))))) := by
  have hzs := hz (T / 1000000000)
  have hsum : 0 ≤ T / 1000000000 + zone (T / 1000000000) + unixToAbsolute ∧
      T / 1000000000 + zone (T / 1000000000) + unixToAbsolute < 2 ^ 64 := by
    simp only [unixToAbsolute]; constructor <;> omega
  obtain ⟨abs, habs⟩ : ∃ abs : Nat,
      (abs : Int) = T / 1000000000 + zone (T / 1000000000) + unixToAbsolute :=
    ⟨_, Int.toNat_of_nonneg hsum.1⟩
  have hlo : 9223372000000000000 ≤ abs := by
    simp only [unixToAbsolute] at habs; omega
  have hhi : abs ≤ 9223372050000000000 := by
    simp only [unixToAbsolute] at habs; omega
  refine ⟨abs, habs, hlo, hhi, ?_⟩
  rw [Unix_zero]
  simp only [Format]
  rw [Int.emod_eq_of_lt hsum.1 hsum.2, ← habs, Int.toNat_ofNat]
  obtain ⟨b1, b2, b3, b4, b5, b6⟩ := absDate_bounds abs hlo hhi
  obtain ⟨c1, c2, c3⟩ := absClock_bounds abs
  have hy : (absDate abs).1 = (((absDate abs).1.toNat : Nat) : Int) :=
    (Int.toNat_of_nonneg b1).symm
  have hns : (T % 1000000000 % 2 ^ 64).toNat = (T % 1000000000).toNat := by
    congr 1; omega
  rw [hns, formatNano3_eq]
  conv_lhs => rw [hy]
  rw [appendInt_four _ (by omega), appendInt_two _ (by omega), appendInt_two _ (by omega),
    appendInt_two _ (by omega), appendInt_two _ (by omega), appendInt_two _ (by omega)]

end TimestampShape

/-! ## The example `Strconv` -/

section Examples
open json

theorem digitStrconv_lawful : digitStrconv.Lawful := by
  show ∀ (lit : Bytes) (f : Nat), digitStrconv.ParseFloat lit = some f →
    digitStrconv.RoundTrips f
  intro lit f h
  have hf : f ≤ 9 := by
    simp only [digitStrconv] at h
    split at h
    · split_ifs at h with hc
      simp only [Option.some.injEq] at h
      omega
    · simp at h
  refine ⟨rfl, ?_, ?_⟩
  · show (if 48 ≤ 48 + f ∧ 48 + f ≤ 57 then some (48 + f - 48) else none) = some f
    rw [if_pos ⟨by omega, by omega⟩]
    simp
  · intro rest hrest
    show scanNumber ([48 + f] ++ rest) = some ([48 + f], rest)
    have hd : ∀ t, valueEnd t = true → scanDigits t = ([], t) := by
      intro t ht
      cases t with
      | nil => rfl
      | cons c u =>
        simp only [valueEnd, Bool.or_eq_true, decide_eq_true_eq] at ht
        have : isDigit c = false := by
          simp only [isDigit, Bool.and_eq_false_imp, decide_eq_true_eq, decide_eq_false_iff_not]
          omega
        simp [scanDigits, this]
    have he : ∀ acc t, valueEnd t = true → scanExp acc t = some (acc, t) := by
      intro acc t ht
      cases t with
      | nil => rfl
      | cons c u =>
        simp only [valueEnd, Bool.or_eq_true, decide_eq_true_eq] at ht
        have : ¬ (c = 101 ∨ c = 69) := by omega
        simp [scanExp, this]
    have hfr : ∀ acc t, valueEnd t = true → scanFrac acc t = some (acc, t) := by
      intro acc t ht
      cases t with
      | nil => exact he acc [] ht
      | cons c u =>
        have hc : c ≠ 46 := by
          simp only [valueEnd, Bool.or_eq_true, decide_eq_true_eq] at ht
          omega
        unfold scanFrac
        split
        · rename_i t1 heq
          simp only [List.cons.injEq] at heq
          exact absurd heq.1 hc
        · exact he acc _ ht
    have hne : ∀ t, scanNumber ((48 + f) :: t) = scanInt [] ((48 + f) :: t) := by
      intro t
      unfold scanNumber
      split
      · rename_i t1 heq
        simp only [List.cons.injEq] at heq
        omega
      · rfl
    rw [List.singleton_append, hne]
    simp only [scanInt]
    by_cases h0 : f = 0
    · subst h0
      simp only [Nat.add_zero, if_true, List.nil_append]
      exact hfr _ _ hrest
    · rw [if_neg (by omega), if_pos ⟨by omega, by omega⟩, hd rest hrest]
      simp only [List.nil_append]
      exact hfr _ _ hrest

end Examples

/-! ## `float64`: rounding -/

section FloatRounding
open strconv

theorem bitLenAux_spec (fuel : Nat) : ∀ n, n ≤ fuel →
    n < 2 ^ bitLenAux fuel n ∧ (0 < n → 2 ^ (bitLenAux fuel n - 1) ≤ n) := by
  induction fuel with
  | zero =>
    intro n hn
    have : n = 0 := by omega
    subst this
    simp [bitLenAux]
  | succ k ih =>
    intro n hn
    by_cases h0 : n = 0
    · subst h0; simp [bitLenAux]
    · simp only [bitLenAux, h0, if_false]
      obtain ⟨h1, h2⟩ := ih (n / 2) (by omega)
      constructor
      · rw [pow_succ]; omega
      · intro _
        simp only [Nat.add_sub_cancel]
        by_cases h3 : n / 2 = 0
        · rw [h3]
          have : bitLenAux k 0 = 0 := by cases k <;> simp [bitLenAux]
          rw [this]; simp; omega
        · have h4 := h2 (by omega)
          obtain ⟨j, hj⟩ : ∃ j, bitLenAux k (n / 2) = j + 1 := by
            cases hb : bitLenAux k (n / 2) with
            | zero => rw [hb] at h1; simp at h1; omega
            | succ j => exact ⟨j, rfl⟩
          rw [hj] at h4 ⊢
          simp only [Nat.add_sub_cancel] at h4
          rw [pow_succ]; omega

theorem bitLen_spec (n : Nat) (h : 0 < n) :
    1 ≤ bitLen n ∧ 2 ^ (bitLen n - 1) ≤ n ∧ n < 2 ^ bitLen n := by
  obtain ⟨h1, h2⟩ := bitLenAux_spec n n (le_refl _)
  refine ⟨?_, h2 h, h1⟩
  by_contra hc
  have : bitLen n = 0 := by omega
  unfold bitLen at this
  rw [this] at h1
  simp at h1; omega

/-- A power of two with an integer exponent, as the quotient of two powers
with natural exponents. -/
theorem two_zpow_split (e : Int) :
    (2 : ℚ) ^ e = (2 : ℚ) ^ e.toNat / (2 : ℚ) ^ (-e).toNat := by
  rcases Int.le_total 0 e with h | h
  · have h1 : (-e).toNat = 0 := by omega
    have h2 : ((e.toNat : Nat) : Int) = e := Int.toNat_of_nonneg h
    rw [h1, pow_zero, div_one, ← zpow_natCast, h2]
  · have h1 : e.toNat = 0 := by omega
    have h2 : (((-e).toNat : Nat) : Int) = -e := Int.toNat_of_nonneg (by omega)
    rw [h1, pow_zero, one_div, ← zpow_natCast, h2, zpow_neg, inv_inv]

theorem ten_zpow_split (e : Int) :
    (10 : ℚ) ^ e = (10 : ℚ) ^ e.toNat / (10 : ℚ) ^ (-e).toNat := by
  rcases Int.le_total 0 e with h | h
  · have h1 : (-e).toNat = 0 := by omega
    have h2 : ((e.toNat : Nat) : Int) = e := Int.toNat_of_nonneg h
    rw [h1, pow_zero, div_one, ← zpow_natCast, h2]
  · have h1 : e.toNat = 0 := by omega
    have h2 : (((-e).toNat : Nat) : Int) = -e := Int.toNat_of_nonneg (by omega)
    rw [h1, pow_zero, one_div, ← zpow_natCast, h2, zpow_neg, inv_inv]

/-- The test of `floorLog2`, read on rationals. -/
theorem scaled_le_iff (n d : Nat) (hd : 0 < d) (l : Int) :
    d * 2 ^ l.toNat ≤ n * 2 ^ (-l).toNat ↔ (2 : ℚ) ^ l ≤ (n : ℚ) / d := by
  have hd' : (0 : ℚ) < d := by exact_mod_cast hd
  have hp : (0 : ℚ) < 2 ^ (-l).toNat := by positivity
  rw [two_zpow_split, div_le_div_iff₀ hp hd']
  constructor
  · intro h
    have : ((d * 2 ^ l.toNat : Nat) : ℚ) ≤ ((n * 2 ^ (-l).toNat : Nat) : ℚ) := by
      exact_mod_cast h
    push_cast at this
    linarith
  · intro h
    have : ((d * 2 ^ l.toNat : Nat) : ℚ) ≤ ((n * 2 ^ (-l).toNat : Nat) : ℚ) := by
      push_cast
      linarith
    exact_mod_cast this

theorem floorLog2_spec (n d : Nat) (hn : 0 < n) (hd : 0 < d) :
    (2 : ℚ) ^ floorLog2 n d ≤ (n : ℚ) / d ∧ (n : ℚ) / d < (2 : ℚ) ^ (floorLog2 n d + 1) := by
  obtain ⟨hn1, hn2, hn3⟩ := bitLen_spec n hn
  obtain ⟨hd1, hd2, hd3⟩ := bitLen_spec d hd
  have hd' : (0 : ℚ) < d := by exact_mod_cast hd
  have hn' : (0 : ℚ) < n := by exact_mod_cast hn
  have qn2 : (2 : ℚ) ^ ((bitLen n : Int) - 1) ≤ n := by
    have : ((2 ^ (bitLen n - 1) : Nat) : ℚ) ≤ n := by exact_mod_cast hn2
    have e : ((bitLen n : Int) - 1) = ((bitLen n - 1 : Nat) : Int) := by omega
    rw [e, zpow_natCast]
    exact_mod_cast this
  have qn3 : (n : ℚ) < (2 : ℚ) ^ (bitLen n : Int) := by
    rw [zpow_natCast]; exact_mod_cast hn3
  have qd2 : (2 : ℚ) ^ ((bitLen d : Int) - 1) ≤ d := by
    have : ((2 ^ (bitLen d - 1) : Nat) : ℚ) ≤ d := by exact_mod_cast hd2
    have e : ((bitLen d : Int) - 1) = ((bitLen d - 1 : Nat) : Int) := by omega
    rw [e, zpow_natCast]
    exact_mod_cast this
  have qd3 : (d : ℚ) < (2 : ℚ) ^ (bitLen d : Int) := by
    rw [zpow_natCast]; exact_mod_cast hd3
  have two_pos : ∀ k : Int, (0 : ℚ) < 2 ^ k := fun k => by positivity
  -- the ratio lies strictly between 2 ^ (l - 1) and 2 ^ (l + 1)
  have hlo : (2 : ℚ) ^ ((bitLen n : Int) - (bitLen d : Int) - 1) ≤ (n : ℚ) / d := by
    rw [le_div_iff₀ hd']
    have e : (2 : ℚ) ^ ((bitLen n : Int) - (bitLen d : Int) - 1) * 2 ^ (bitLen d : Int) =
        2 ^ ((bitLen n : Int) - 1) := by
      rw [← zpow_add₀ (by norm_num : (2 : ℚ) ≠ 0)]; congr 1; ring
    calc (2 : ℚ) ^ ((bitLen n : Int) - (bitLen d : Int) - 1) * d
        ≤ 2 ^ ((bitLen n : Int) - (bitLen d : Int) - 1) * 2 ^ (bitLen d : Int) :=
          mul_le_mul_of_nonneg_left (le_of_lt qd3) (le_of_lt (two_pos _))
      _ = 2 ^ ((bitLen n : Int) - 1) := e
      _ ≤ n := qn2
  have hhi : (n : ℚ) / d < (2 : ℚ) ^ ((bitLen n : Int) - (bitLen d : Int) + 1) := by
    rw [div_lt_iff₀ hd']
    have e : (2 : ℚ) ^ ((bitLen n : Int) - (bitLen d : Int) + 1) * 2 ^ ((bitLen d : Int) - 1) =
        2 ^ (bitLen n : Int) := by
      rw [← zpow_add₀ (by norm_num : (2 : ℚ) ≠ 0)]; congr 1; ring
    calc (n : ℚ) < 2 ^ (bitLen n : Int) := qn3
      _ = 2 ^ ((bitLen n : Int) - (bitLen d : Int) + 1) * 2 ^ ((bitLen d : Int) - 1) := e.symm
      _ ≤ 2 ^ ((bitLen n : Int) - (bitLen d : Int) + 1) * d :=
          mul_le_mul_of_nonneg_left qd2 (le_of_lt (two_pos _))
  unfold floorLog2
  simp only
  split_ifs with h
  · exact ⟨(scaled_le_iff n d hd _).1 h, hhi⟩
  · refine ⟨hlo, ?_⟩
    have := (not_congr (scaled_le_iff n d hd ((bitLen n : Int) - (bitLen d : Int)))).1 h
    rw [not_le] at this
    have e : (bitLen n : Int) - (bitLen d : Int) - 1 + 1 = (bitLen n : Int) - (bitLen d : Int) := by
      ring
    rw [e]; exact this

end FloatRounding

section FloatRounding2
open strconv

theorem ratio_scaled (n d : Nat) (hd : 0 < d) (e : Int) :
    ((n * 2 ^ (-e).toNat : Nat) : ℚ) / ((d * 2 ^ e.toNat : Nat) : ℚ) =
      (n : ℚ) / d * (2 : ℚ) ^ (-e) := by
  have hd' : (d : ℚ) ≠ 0 := by exact_mod_cast (Nat.pos_iff_ne_zero.1 hd)
  have h1 : (2 : ℚ) ^ e.toNat ≠ 0 := by positivity
  rw [two_zpow_split (-e), neg_neg]
  push_cast
  field_simp

/-- The quotient of the scaled ratio, bounded by the bounds of the ratio. -/
theorem scaled_div_bounds (n d : Nat) (hd : 0 < d) (e : Int) (a b : Nat)
    (ha : (a : ℚ) ≤ (n : ℚ) / d * (2 : ℚ) ^ (-e))
    (hb : (n : ℚ) / d * (2 : ℚ) ^ (-e) < (b : ℚ)) :
    a ≤ n * 2 ^ (-e).toNat / (d * 2 ^ e.toNat) ∧ n * 2 ^ (-e).toNat / (d * 2 ^ e.toNat) < b := by
  have hden : 0 < d * 2 ^ e.toNat := Nat.mul_pos hd (by positivity)
  have hden' : (0 : ℚ) < ((d * 2 ^ e.toNat : Nat) : ℚ) := by exact_mod_cast hden
  rw [← ratio_scaled n d hd e] at ha hb
  rw [le_div_iff₀ hden'] at ha
  rw [div_lt_iff₀ hden'] at hb
  constructor
  · rw [Nat.le_div_iff_mul_le hden]
    exact_mod_cast ha
  · rw [Nat.div_lt_iff_lt_mul hden]
    exact_mod_cast hb

theorem roundRatio_range (n d : Nat) (hn : 0 < n) (hd : 0 < d) :
    (roundRatio n d).1 < 2 ^ 53 ∧ -1074 ≤ (roundRatio n d).2 ∧
      (2 ^ 52 ≤ (roundRatio n d).1 ∨ (roundRatio n d).2 = -1074) := by
  obtain ⟨hL1, hL2⟩ := floorLog2_spec n d hn hd
  have two_pos : ∀ k : Int, (0 : ℚ) < 2 ^ k := fun k => by positivity
  obtain ⟨e, he⟩ : ∃ e, e = max (floorLog2 n d - 52) (-1074) := ⟨_, rfl⟩
  have he1 : -1074 ≤ e := he ▸ le_max_right _ _
  have he2 : floorLog2 n d - 52 ≤ e := he ▸ le_max_left _ _
  -- the quotient is below 2 ^ 53
  have hq : n * 2 ^ (-e).toNat / (d * 2 ^ e.toNat) < 2 ^ 53 := by
    have : (n : ℚ) / d * (2 : ℚ) ^ (-e) < ((2 ^ 53 : Nat) : ℚ) := by
      have h1 : (2 : ℚ) ^ (floorLog2 n d + 1) ≤ 2 ^ (e + 53) :=
        zpow_le_zpow_right₀ (by norm_num) (by omega)
      have h2 : (2 : ℚ) ^ (e + 53) * 2 ^ (-e) = ((2 ^ 53 : Nat) : ℚ) := by
        rw [← zpow_add₀ (by norm_num : (2 : ℚ) ≠ 0)]
        have : e + 53 + -e = ((53 : Nat) : Int) := by push_cast; ring
        rw [this, zpow_natCast]; push_cast; rfl
      calc (n : ℚ) / d * (2 : ℚ) ^ (-e) < 2 ^ (floorLog2 n d + 1) * 2 ^ (-e) :=
            mul_lt_mul_of_pos_right hL2 (two_pos _)
        _ ≤ 2 ^ (e + 53) * 2 ^ (-e) := mul_le_mul_of_nonneg_right h1 (le_of_lt (two_pos _))
        _ = _ := h2
    exact (scaled_div_bounds n d hd e 0 (2 ^ 53) (by
      push_cast
      exact mul_nonneg (div_nonneg (by positivity) (by positivity)) (le_of_lt (two_pos _)))
      this).2
  -- and at least 2 ^ 52 unless the exponent was raised to -1074
  have hq2 : e = floorLog2 n d - 52 → 2 ^ 52 ≤ n * 2 ^ (-e).toNat / (d * 2 ^ e.toNat) := by
    intro he
    have : ((2 ^ 52 : Nat) : ℚ) ≤ (n : ℚ) / d * (2 : ℚ) ^ (-e) := by
      have h2 : (2 : ℚ) ^ (floorLog2 n d) * 2 ^ (-e) = ((2 ^ 52 : Nat) : ℚ) := by
        rw [← zpow_add₀ (by norm_num : (2 : ℚ) ≠ 0)]
        have : floorLog2 n d + -e = ((52 : Nat) : Int) := by push_cast; omega
        rw [this, zpow_natCast]; push_cast; rfl
      calc ((2 ^ 52 : Nat) : ℚ) = 2 ^ (floorLog2 n d) * 2 ^ (-e) := h2.symm
        _ ≤ (n : ℚ) / d * (2 : ℚ) ^ (-e) :=
            mul_le_mul_of_nonneg_right hL1 (le_of_lt (two_pos _))
    have hb : (n : ℚ) / d * (2 : ℚ) ^ (-e) <
        ((n * 2 ^ (-e).toNat / (d * 2 ^ e.toNat) + 1 : Nat) : ℚ) := by
      have hden : 0 < d * 2 ^ e.toNat := Nat.mul_pos hd (by positivity)
      have hden' : (0 : ℚ) < ((d * 2 ^ e.toNat : Nat) : ℚ) := by exact_mod_cast hden
      rw [← ratio_scaled n d hd e, div_lt_iff₀ hden']
      have := Nat.lt_succ_iff.2 (le_refl (n * 2 ^ (-e).toNat / (d * 2 ^ e.toNat)))
      rw [Nat.div_lt_iff_lt_mul hden] at this
      exact_mod_cast this
    exact (scaled_div_bounds n d hd e (2 ^ 52) _ this hb).1
  have hcase : e = floorLog2 n d - 52 ∨ e = -1074 := by
    rcases max_choice (floorLog2 n d - 52) (-1074 : Int) with h | h
    · left; rw [he, h]
    · right; rw [he, h]
  simp only [roundRatio]
  rw [← he]
  generalize n * 2 ^ (-e).toNat / (d * 2 ^ e.toNat) = q at hq hq2 ⊢
  generalize n * 2 ^ (-e).toNat % (d * 2 ^ e.toNat) = r
  generalize d * 2 ^ e.toNat = den
  have hq3 : 2 ^ 52 ≤ q ∨ e = -1074 := by
    rcases hcase with h | h
    · exact Or.inl (hq2 h)
    · exact Or.inr h
  split_ifs <;> simp only [] <;> omega

/-- A ratio equal to `m * 2 ^ e` for a mantissa and an exponent of `float64`
is rounded to that mantissa and that exponent. -/
theorem roundRatio_exact (n d m : Nat) (e : Int) (hd : 0 < d) (hm0 : 0 < m)
    (hm : m < 2 ^ 53) (he : -1074 ≤ e) (hnorm : 2 ^ 52 ≤ m ∨ e = -1074)
    (hval : (n : ℚ) / d = (m : ℚ) * (2 : ℚ) ^ e) : roundRatio n d = (m, e) := by
  have two_pos : ∀ k : Int, (0 : ℚ) < 2 ^ k := fun k => by positivity
  have hd' : (0 : ℚ) < d := by exact_mod_cast hd
  have hm0' : (0 : ℚ) < m := by exact_mod_cast hm0
  have hn : 0 < n := by
    rcases Nat.eq_zero_or_pos n with h | h
    · rw [h] at hval
      simp only [Nat.cast_zero, zero_div] at hval
      have := mul_pos hm0' (two_pos e)
      rw [← hval] at this
      exact absurd this (lt_irrefl _)
    · exact h
  obtain ⟨hL1, hL2⟩ := floorLog2_spec n d hn hd
  rw [hval] at hL1 hL2
  -- the value is below 2 ^ (e + 53)
  have hup : (m : ℚ) * (2 : ℚ) ^ e < 2 ^ (e + 53) := by
    have : (m : ℚ) < ((2 ^ 53 : Nat) : ℚ) := by exact_mod_cast hm
    rw [zpow_add₀ (by norm_num : (2 : ℚ) ≠ 0), mul_comm ((2 : ℚ) ^ e)]
    have e53 : (2 : ℚ) ^ (53 : Int) = ((2 ^ 53 : Nat) : ℚ) := by
      rw [show (53 : Int) = ((53 : Nat) : Int) from rfl, zpow_natCast]; push_cast; rfl
    rw [e53]
    exact mul_lt_mul_of_pos_right this (two_pos e)
  have hL3 : floorLog2 n d < e + 53 := by
    by_contra hc
    have := zpow_le_zpow_right₀ (by norm_num : (1 : ℚ) ≤ 2) (not_lt.1 hc)
    linarith
  have hmax : max (floorLog2 n d - 52) (-1074) = e := by
    rcases hnorm with h | h
    · have hlow : (2 : ℚ) ^ (e + 52) ≤ (m : ℚ) * (2 : ℚ) ^ e := by
        have : ((2 ^ 52 : Nat) : ℚ) ≤ (m : ℚ) := by exact_mod_cast h
        rw [zpow_add₀ (by norm_num : (2 : ℚ) ≠ 0), mul_comm ((2 : ℚ) ^ e)]
        have e52 : (2 : ℚ) ^ (52 : Int) = ((2 ^ 52 : Nat) : ℚ) := by
          rw [show (52 : Int) = ((52 : Nat) : Int) from rfl, zpow_natCast]; push_cast; rfl
        rw [e52]
        exact mul_le_mul_of_nonneg_right this (le_of_lt (two_pos e))
      have hL4 : e + 52 < floorLog2 n d + 1 := by
        by_contra hc
        have := zpow_le_zpow_right₀ (by norm_num : (1 : ℚ) ≤ 2) (not_lt.1 hc)
        linarith
      have : floorLog2 n d - 52 = e := by omega
      rw [this]
      exact max_eq_left he
    · have : floorLog2 n d - 52 ≤ -1074 := by omega
      rw [h]
      exact max_eq_right this
  -- the scaled numerator is the mantissa times the scaled denominator
  have hnum : n * 2 ^ (-e).toNat = m * (d * 2 ^ e.toNat) := by
    have h1 : (n : ℚ) = (m : ℚ) * (2 : ℚ) ^ e * d := by
      rw [← hval]; field_simp
    have h2 : (2 : ℚ) ^ (-e).toNat ≠ 0 := by positivity
    have : ((n * 2 ^ (-e).toNat : Nat) : ℚ) = ((m * (d * 2 ^ e.toNat) : Nat) : ℚ) := by
      push_cast
      rw [h1, two_zpow_split e]
      field_simp
      ring
    exact_mod_cast this
  have hden : 0 < d * 2 ^ e.toNat := Nat.mul_pos hd (by positivity)
  simp only [roundRatio, hmax, hnum]
  rw [Nat.mul_div_cancel _ hden, Nat.mul_mod_left]
  have h53 : ¬ m = 2 ^ 53 := by omega
  simp only [Nat.mul_zero, hden, if_true, h53, if_false]

end FloatRounding2

section FloatBits
open strconv

/-- The bits built from a mantissa and an exponent of `float64` give them
back, with the sign; they are finite, and zero only for a zero mantissa. -/
theorem mantExp_floatBits (neg : Bool) (m : Nat) (e : Int) (hm : m < 2 ^ 53)
    (he1 : -1074 ≤ e) (hnorm : 2 ^ 52 ≤ m ∨ e = -1074) (bits : Nat)
    (h : floatBits neg (m, e) = some bits) :
    mantExp bits = (m, e) ∧ (bits / 2 ^ 63 % 2 = 1 ↔ neg = true) ∧
      bits / 2 ^ 52 % 2 ^ 11 ≠ 2047 ∧ (bits % 2 ^ 63 = 0 ↔ m = 0) ∧ e ≤ 971 := by
  unfold floatBits at h
  simp only at h
  by_cases h971 : 971 < e
  · rw [if_pos h971] at h; simp at h
  rw [if_neg h971] at h
  simp only [Option.some.injEq] at h
  obtain ⟨k, hk⟩ : ∃ k : Nat, (k : Int) = e + 1075 := ⟨(e + 1075).toNat, by omega⟩
  have hk2 : (e + 1075).toNat = k := by omega
  rw [hk2] at h
  have hk3 : k ≤ 2046 := by omega
  obtain ⟨s, hs, hs2⟩ : ∃ s : Nat, (if neg = true then 2 ^ 63 else 0) = s * 2 ^ 63 ∧
      (s = 1 ↔ neg = true) ∧ s ≤ 1 := by
    cases neg
    · exact ⟨0, by simp, by simp⟩
    · exact ⟨1, by simp, by simp⟩
  rw [hs] at h
  obtain ⟨hs2, hs3⟩ := hs2
  by_cases hlt : m < 2 ^ 52
  · have he : e = -1074 := by omega
    rw [if_pos hlt] at h
    have hf : bits / 2 ^ 52 % 2 ^ 11 = 0 := by omega
    refine ⟨?_, ?_, ?_, ?_, by omega⟩
    · unfold mantExp
      rw [if_pos hf]
      refine Prod.ext ?_ ?_
      · simp only; omega
      · simp only; omega
    · rw [← hs2]; omega
    · omega
    · omega
  · rw [if_neg hlt] at h
    have hk4 : 1 ≤ k := by omega
    have hf : bits / 2 ^ 52 % 2 ^ 11 = k := by omega
    refine ⟨?_, ?_, ?_, ?_, by omega⟩
    · unfold mantExp
      rw [if_neg (by omega)]
      refine Prod.ext ?_ ?_
      · simp only; omega
      · simp only; omega
    · rw [← hs2]; omega
    · omega
    · omega

end FloatBits

/-! ## `float64`: decimal digits -/

section FloatDigits
open strconv

theorem decimalAux_eq (fuel : Nat) : ∀ (u : Nat) (acc : Bytes), u ≤ fuel →
    decimalAux fuel u acc = (Nat.digits 10 u).reverse.map (fun x => 48 + x) ++ acc := by
  induction fuel with
  | zero =>
    intro u acc h
    have : u = 0 := by omega
    subst this
    simp [decimalAux]
  | succ k ih =>
    intro u acc h
    by_cases h0 : u = 0
    · subst h0; simp [decimalAux]
    · simp only [decimalAux, h0, if_false]
      have hd : Nat.digits 10 u = u % 10 :: Nat.digits 10 (u / 10) :=
        Nat.digits_def' (by norm_num) (by omega)
      rw [ih (u / 10) _ (by omega), hd]
      simp

theorem decimal_eq (u : Nat) (h : 0 < u) :
    decimal u = (Nat.digits 10 u).reverse.map (fun x => 48 + x) := by
  unfold decimal
  rw [if_neg (by omega), decimalAux_eq u u [] (le_refl _), List.append_nil]

theorem digitsVal_append_singleton (ds : Bytes) (c : Nat) :
    digitsVal (ds ++ [c]) = 10 * digitsVal ds + (c - 48) := by
  simp [digitsVal, List.foldl_append]

theorem digitsVal_digits (L : List Nat) :
    digitsVal (L.reverse.map (fun x => 48 + x)) = Nat.ofDigits 10 L := by
  induction L with
  | nil => simp [digitsVal]
  | cons x xs ih =>
    rw [List.reverse_cons, List.map_append, List.map_singleton, digitsVal_append_singleton, ih,
      Nat.ofDigits_cons]
    omega

theorem digitsVal_decimal (u : Nat) : digitsVal (decimal u) = u := by
  rcases Nat.eq_zero_or_pos u with h | h
  · subst h; rfl
  · rw [decimal_eq u h, digitsVal_digits, Nat.ofDigits_digits]

theorem decimal_isDigit (u : Nat) : ∀ c ∈ decimal u, 48 ≤ c ∧ c ≤ 57 := by
  rcases Nat.eq_zero_or_pos u with h | h
  · subst h
    intro c hc
    simp [decimal] at hc
    omega
  · rw [decimal_eq u h]
    intro c hc
    simp only [List.mem_map, List.mem_reverse] at hc
    obtain ⟨x, hx, rfl⟩ := hc
    have := Nat.digits_lt_base (by norm_num : 1 < 10) hx
    omega

theorem decimal_length_pos (u : Nat) : 0 < (decimal u).length := by
  rcases Nat.eq_zero_or_pos u with h | h
  · subst h; simp [decimal]
  · rw [decimal_eq u h]
    simp only [List.length_map, List.length_reverse]
    exact List.length_pos.2 (Nat.digits_ne_nil_iff_ne_zero.2 (by omega))

theorem decimal_head (u : Nat) (h : 0 < u) :
    ∃ c t, decimal u = c :: t ∧ 49 ≤ c ∧ c ≤ 57 := by
  have hne : Nat.digits 10 u ≠ [] := Nat.digits_ne_nil_iff_ne_zero.2 (by omega)
  have hlast := Nat.getLast_digit_ne_zero 10 (by omega : u ≠ 0)
  have hmem := List.getLast_mem hne
  have hlt := Nat.digits_lt_base (by norm_num : 1 < 10) hmem
  rw [decimal_eq u h]
  have hr : (Nat.digits 10 u).reverse =
      (Nat.digits 10 u).getLast hne :: (Nat.digits 10 u).dropLast.reverse := by
    conv_lhs => rw [← List.dropLast_append_getLast hne]
    simp
  rw [hr, List.map_cons]
  exact ⟨_, _, rfl, by omega, by omega⟩

theorem decimal_length_le (u k : Nat) (hk : 0 < k) (h : u < 10 ^ k) :
    (decimal u).length ≤ k := by
  rcases Nat.eq_zero_or_pos u with h0 | h0
  · subst h0; simp [decimal]; omega
  · rw [decimal_eq u h0]
    simp only [List.length_map, List.length_reverse]
    rw [Nat.digits_len 10 u (by norm_num) (by omega)]
    exact Nat.log_lt_of_lt_pow (by omega) h

theorem trimAux_spec (fuel : Nat) : ∀ (c : Nat) (x : Int),
    ∃ z : Nat, (trimAux fuel c x).2 = x + z ∧ c = (trimAux fuel c x).1 * 10 ^ z := by
  induction fuel with
  | zero => intro c x; exact ⟨0, by simp [trimAux]⟩
  | succ k ih =>
    intro c x
    simp only [trimAux]
    split_ifs with h
    · obtain ⟨z, h1, h2⟩ := ih (c / 10) (x + 1)
      refine ⟨z + 1, ?_, ?_⟩
      · rw [h1]; push_cast; ring
      · have : c = c / 10 * 10 := by omega
        rw [pow_succ, ← Nat.mul_assoc, ← h2]
        exact this
    · exact ⟨0, by simp⟩

theorem trim_spec (c : Nat) (x : Int) :
    ∃ z : Nat, (trim c x).2 = x + z ∧ c = (trim c x).1 * 10 ^ z :=
  trimAux_spec c c x

end FloatDigits

/-! ## `float64`: the shortest decimal -/

section FloatShortest
open strconv

set_option exponentiation.threshold 2000

theorem atof_zero (neg : Bool) (x : Int) (bits : Nat) (h : atof neg 0 x = some bits) :
    bits % 2 ^ 63 = 0 := by
  simp only [atof, if_true, Option.some.injEq] at h
  cases neg <;> simp at h <;> omega

/-- A decimal equal to `m * 2 ^ e` parses to the `float64` with that mantissa
and that exponent. -/
theorem atof_exact (neg : Bool) (m : Nat) (e : Int) (hm0 : 0 < m) (hm : m < 2 ^ 53)
    (he : -1074 ≤ e) (hnorm : 2 ^ 52 ≤ m ∨ e = -1074) (D : Nat) (x : Int)
    (hval : (D : ℚ) * (10 : ℚ) ^ x = (m : ℚ) * (2 : ℚ) ^ e) :
    atof neg D x = floatBits neg (m, e) := by
  have hm0' : (0 : ℚ) < m := by exact_mod_cast hm0
  have hD : D ≠ 0 := by
    intro h
    rw [h] at hval
    simp only [Nat.cast_zero, zero_mul] at hval
    have : (0 : ℚ) < (m : ℚ) * (2 : ℚ) ^ e := mul_pos hm0' (by positivity)
    rw [← hval] at this
    exact absurd this (lt_irrefl _)
  unfold atof
  rw [if_neg hD]
  congr 1
  apply roundRatio_exact _ _ m e (by positivity) hm0 hm he hnorm
  rw [← hval, ten_zpow_split x]
  push_cast
  ring

theorem exact_decimal (m : Nat) (e : Int) :
    ((m * (if 0 ≤ e then 2 ^ e.toNat else 5 ^ (-e).toNat) : Nat) : ℚ) *
      (10 : ℚ) ^ (if 0 ≤ e then 0 else e) = (m : ℚ) * (2 : ℚ) ^ e := by
  split_ifs with h
  · have h2 : ((e.toNat : Nat) : Int) = e := Int.toNat_of_nonneg h
    push_cast
    rw [zpow_zero, mul_one]
    conv_rhs => rw [← h2, zpow_natCast]
  · have h2 : (((-e).toNat : Nat) : Int) = -e := Int.toNat_of_nonneg (by omega)
    push_cast
    have h10 : (10 : ℚ) ^ e = (2 : ℚ) ^ e * (5 : ℚ) ^ e := by
      rw [← mul_zpow]; norm_num
    have h5 : (5 : ℚ) ^ (-e).toNat * (5 : ℚ) ^ e = 1 := by
      rw [← zpow_natCast, h2, ← zpow_add₀ (by norm_num : (5 : ℚ) ≠ 0)]
      simp
    rw [h10]
    calc (m : ℚ) * (5 : ℚ) ^ (-e).toNat * ((2 : ℚ) ^ e * (5 : ℚ) ^ e)
        = (m : ℚ) * (2 : ℚ) ^ e * ((5 : ℚ) ^ (-e).toNat * (5 : ℚ) ^ e) := by ring
      _ = (m : ℚ) * (2 : ℚ) ^ e := by rw [h5, mul_one]

theorem trim_value (c : Nat) (x : Int) :
    ((trim c x).1 : ℚ) * (10 : ℚ) ^ (trim c x).2 = (c : ℚ) * (10 : ℚ) ^ x := by
  obtain ⟨z, h1, h2⟩ := trim_spec c x
  rw [h1]
  conv_rhs => rw [h2]
  push_cast
  rw [zpow_add₀ (by norm_num : (10 : ℚ) ≠ 0), zpow_natCast]
  ring

theorem exact_decimal_bound (m : Nat) (e : Int) (hm : m < 2 ^ 53) (he1 : -1074 ≤ e)
    (he2 : e ≤ 971) :
    m * (if 0 ≤ e then 2 ^ e.toNat else 5 ^ (-e).toNat) < 10 ^ 800 := by
  split_ifs with h
  · have h1 : 2 ^ e.toNat ≤ 2 ^ 971 := Nat.pow_le_pow_right (by norm_num) (by omega)
    calc m * 2 ^ e.toNat ≤ 2 ^ 53 * 2 ^ 971 := Nat.mul_le_mul (le_of_lt hm) h1
      _ < 10 ^ 800 := by norm_num
  · have h1 : 5 ^ (-e).toNat ≤ 5 ^ 1074 := Nat.pow_le_pow_right (by norm_num) (by omega)
    calc m * 5 ^ (-e).toNat ≤ 2 ^ 53 * 5 ^ 1074 := Nat.mul_le_mul (le_of_lt hm) h1
      _ < 10 ^ 800 := by norm_num

theorem shortestAux_spec (bits : Nat) (neg : Bool) (I : Nat) (x0 : Int) (nd0 : Nat)
    (fuel : Nat) : ∀ n,
    (parsesTo bits neg (shortestAux bits neg I x0 nd0 fuel n) = true ∨
      shortestAux bits neg I x0 nd0 fuel n = trim I x0) ∧
    ∃ c x, shortestAux bits neg I x0 nd0 fuel n = trim c x ∧ c ≤ I + 1 ∧ x0 ≤ x ∧
      x ≤ x0 + nd0 := by
  induction fuel with
  | zero =>
    intro n
    exact ⟨Or.inr rfl, I, x0, rfl, by omega, le_refl _, by omega⟩
  | succ k ih =>
    intro n
    have hdiv : I / 10 ^ (nd0 - n) ≤ I := Nat.div_le_self _ _
    have hx : x0 ≤ x0 + ((nd0 - n : Nat) : Int) ∧ x0 + ((nd0 - n : Nat) : Int) ≤ x0 + nd0 := by
      constructor <;> omega
    simp only [shortestAux]
    split_ifs with h1 h2 h3 h4
    · exact ⟨Or.inl h1, _, _, rfl, by omega, hx.1, hx.2⟩
    · exact ⟨Or.inl h2, _, _, rfl, by omega, hx.1, hx.2⟩
    · exact ⟨Or.inl h1, _, _, rfl, by omega, hx.1, hx.2⟩
    · exact ⟨Or.inl h4, _, _, rfl, by omega, hx.1, hx.2⟩
    · exact ih (n + 1)

/-- The decimal `shortest` chooses parses back to the `float64`, and its
digits and exponent are bounded. -/
theorem shortest_spec (neg : Bool) (m : Nat) (e : Int) (hm0 : 0 < m) (hm : m < 2 ^ 53)
    (he : -1074 ≤ e) (hnorm : 2 ^ 52 ≤ m ∨ e = -1074) (bits : Nat)
    (hb : floatBits neg (m, e) = some bits) :
    atof neg (shortest bits).1 (shortest bits).2 = some bits ∧ (shortest bits).1 ≠ 0 ∧
      (shortest bits).1 < 10 ^ 801 ∧ -1074 ≤ (shortest bits).2 ∧ (shortest bits).2 ≤ 2000 := by
  obtain ⟨hme, hneg, _, hzero, he2⟩ := mantExp_floatBits neg m e hm he hnorm bits hb
  have hnegd : decide (bits / 2 ^ 63 % 2 = 1) = neg := by
    cases neg
    · simp only [Bool.false_eq_true, iff_false] at hneg
      exact decide_eq_false hneg
    · simp only [iff_true] at hneg
      exact decide_eq_true hneg
  have hI := exact_decimal_bound m e hm he he2
  have hIpos : 0 < m * (if 0 ≤ e then 2 ^ e.toNat else 5 ^ (-e).toNat) := by
    apply Nat.mul_pos hm0
    split_ifs <;> positivity
  have hx0 : -1074 ≤ (if 0 ≤ e then (0 : Int) else e) ∧ (if 0 ≤ e then (0 : Int) else e) ≤ 0 := by
    split_ifs <;> constructor <;> omega
  have hexact := exact_decimal m e
  unfold shortest
  simp only [hme, hnegd]
  generalize m * (if 0 ≤ e then 2 ^ e.toNat else 5 ^ (-e).toNat) = I at hI hIpos hexact ⊢
  generalize (if 0 ≤ e then (0 : Int) else e) = x0 at hx0 hexact ⊢
  have hnd0 : (decimal I).length ≤ 800 := decimal_length_le I 800 (by norm_num) hI
  obtain ⟨hp, c, x, hr, hc, hx1, hx2⟩ :=
    shortestAux_spec bits neg I x0 (decimal I).length ((decimal I).length - 1) 1
  generalize shortestAux bits neg I x0 (decimal I).length ((decimal I).length - 1) 1 = r
    at hp hr ⊢
  have hparse : atof neg r.1 r.2 = some bits := by
    rcases hp with h | h
    · simpa [parsesTo] using h
    · rw [atof_exact neg m e hm0 hm he hnorm r.1 r.2 (by rw [h, trim_value]; exact hexact)]
      exact hb
  have hne : r.1 ≠ 0 := by
    intro h0
    rw [h0] at hparse
    have := atof_zero neg r.2 bits hparse
    have := hzero.1 this
    omega
  obtain ⟨z, hz1, hz2⟩ := trim_spec c x
  rw [← hr] at hz1 hz2
  have hpos : 0 < r.1 := Nat.pos_of_ne_zero hne
  have h10 : 0 < 10 ^ z := by positivity
  have hle : r.1 ≤ c := by
    calc r.1 = r.1 * 1 := (Nat.mul_one _).symm
      _ ≤ r.1 * 10 ^ z := Nat.mul_le_mul_left _ h10
      _ = c := hz2.symm
  have hz : z ≤ 800 := by
    by_contra hcon
    have h1 : 10 ^ 801 ≤ 10 ^ z := Nat.pow_le_pow_right (by norm_num) (by omega)
    have h2 : 10 ^ z ≤ c := by
      calc 10 ^ z = 1 * 10 ^ z := (Nat.one_mul _).symm
        _ ≤ r.1 * 10 ^ z := Nat.mul_le_mul_right _ hpos
        _ = c := hz2.symm
    have h3 : (10 : Nat) ^ 800 < 10 ^ 801 := by norm_num
    omega
  have h3 : (10 : Nat) ^ 800 < 10 ^ 801 := by norm_num
  refine ⟨hparse, hne, by omega, by omega, by omega⟩

end FloatShortest

/-! ## `float64`: the text of a number -/

section FloatText
open strconv json

theorem scanDigits_append (ds r : Bytes) (hds : ∀ c ∈ ds, 48 ≤ c ∧ c ≤ 57)
    (hr : ∀ c t, r = c :: t → ¬ (48 ≤ c ∧ c ≤ 57)) : scanDigits (ds ++ r) = (ds, r) := by
  induction ds with
  | nil =>
    cases r with
    | nil => rfl
    | cons c t =>
      have := hr c t rfl
      have hd : isDigit c = false := by
        simp only [isDigit, Bool.and_eq_false_imp, decide_eq_true_eq, decide_eq_false_iff_not]
        omega
      simp [scanDigits, hd]
  | cons d ds ih =>
    have hd := hds d (List.mem_cons_self _ _)
    have hd2 : isDigit d = true := by
      simp only [isDigit, Bool.and_eq_true, decide_eq_true_eq]; omega
    have := ih (fun c hc => hds c (List.mem_cons_of_mem _ hc))
    simp [scanDigits, hd2, this]

theorem scanDigits_all (ds : Bytes) (hds : ∀ c ∈ ds, 48 ≤ c ∧ c ≤ 57) :
    scanDigits ds = (ds, []) := by
  have := scanDigits_append ds [] hds (by simp)
  rwa [List.append_nil] at this

theorem digitsVal_append (a b : Bytes) :
    digitsVal (a ++ b) = digitsVal a * 10 ^ b.length + digitsVal b := by
  induction b using List.reverseRecOn with
  | nil => simp [digitsVal]
  | append_singleton b c ih =>
    rw [← List.append_assoc, digitsVal_append_singleton, ih, digitsVal_append_singleton]
    simp only [List.length_append, List.length_singleton, pow_succ]
    ring

theorem digitsVal_zeros (k : Nat) : digitsVal (List.replicate k 48) = 0 := by
  induction k with
  | zero => rfl
  | succ k ih =>
    rw [List.replicate_succ', digitsVal_append_singleton, ih]

theorem expVal_append_singleton (ds : Bytes) (c : Nat) :
    expVal (ds ++ [c]) = if expVal ds < 10000 then expVal ds * 10 + (c - 48) else expVal ds := by
  simp [expVal, List.foldl_append]

theorem expVal_digitsVal (ds : Bytes) : digitsVal ds < 100000 → expVal ds = digitsVal ds := by
  induction ds using List.reverseRecOn with
  | nil => intro _; rfl
  | append_singleton ds c ih =>
    intro h
    rw [digitsVal_append_singleton] at h ⊢
    rw [expVal_append_singleton, ih (by omega), if_pos (by omega)]
    ring

/-- The exponents `readFloat` reads exactly include those of every
`float64`. -/
theorem expVal_decimal (v : Nat) (hv : v < 100000) : expVal (decimal v) = v := by
  rw [expVal_digitsVal _ (by rw [digitsVal_decimal]; exact hv), digitsVal_decimal]

theorem readExp_exp (eneg : Bool) (ed : Bytes) (hed : ∀ c ∈ ed, 48 ≤ c ∧ c ≤ 57)
    (hne : ed ≠ []) :
    readExp (101 :: (if eneg then 45 else 43) :: ed) =
      some (if eneg then -(expVal ed : Int) else (expVal ed : Int)) := by
  unfold readExp
  cases eneg <;> simp [skipSign, scanDigits_all ed hed, hne]

theorem readExp_head (tail : Bytes) (e : Int) (h : readExp tail = some e) :
    ∀ c t, tail = c :: t → ¬ (48 ≤ c ∧ c ≤ 57) ∧ c ≠ 46 := by
  intro c t hc
  subst hc
  unfold readExp at h
  simp only at h
  split_ifs at h with h1 <;> omega

theorem readFloat_literal (neg : Bool) (ip fd tail : Bytes) (pt : Bool) (e : Int)
    (hip : ∀ c ∈ ip, 48 ≤ c ∧ c ≤ 57) (hipne : ip ≠ [])
    (hfd : ∀ c ∈ fd, 48 ≤ c ∧ c ≤ 57) (hpt : pt = false → fd = [])
    (htail : readExp tail = some e) :
    readFloat ((if neg then [45] else []) ++ (ip ++ ((if pt then 46 :: fd else []) ++ tail))) =
      some (neg, digitsVal (ip ++ fd), e - (fd.length : Int)) := by
  have hth := readExp_head tail e htail
  obtain ⟨d, ip1, rfl⟩ := List.exists_cons_of_ne_nil hipne
  have hd := hip d (List.mem_cons_self _ _)
  -- the digits after the sign
  have hscan1 : scanDigits (d :: ip1 ++ ((if pt then 46 :: fd else []) ++ tail)) =
      (d :: ip1, (if pt then 46 :: fd else []) ++ tail) := by
    apply scanDigits_append _ _ hip
    intro c t hc
    cases pt
    · simp only [Bool.false_eq_true, if_false, List.nil_append] at hc
      exact (hth c t hc).1
    · simp only [if_true, List.cons_append, List.cons.injEq] at hc
      omega
  have hscan2 : scanDigits (fd ++ tail) = (fd, tail) :=
    scanDigits_append _ _ hfd (fun c t hc => (hth c t hc).1)
  have hfrac : readFrac ((if pt then 46 :: fd else []) ++ tail) = (fd, tail) := by
    cases pt
    · have hfd0 := hpt rfl
      subst hfd0
      simp only [Bool.false_eq_true, if_false, List.nil_append]
      unfold readFrac
      split
      · rename_i t
        exact absurd rfl (hth 46 t rfl).2
      · rfl
    · simp only [if_true, List.cons_append]
      unfold readFrac
      exact hscan2
  have hbody : ∀ s : Bytes,
      skipSign s = d :: ip1 ++ ((if pt then 46 :: fd else []) ++ tail) →
      decide (s.head? = some 45) = neg →
      readFloat s = some (neg, digitsVal (d :: ip1 ++ fd), e - (fd.length : Int)) := by
    intro s hs hn
    unfold readFloat
    simp only [hs, hn, hscan1, hfrac, htail]
    simp
  cases neg
  · apply hbody
    · simp only [Bool.false_eq_true, if_false, List.nil_append, List.cons_append]
      unfold skipSign
      split
      · rename_i t heq
        simp only [List.cons.injEq] at heq; omega
      · rename_i t heq
        simp only [List.cons.injEq] at heq; omega
      · rfl
    · simp only [Bool.false_eq_true, if_false, List.nil_append, List.cons_append,
        List.head?_cons, Option.some.injEq, decide_eq_false_iff_not]
      omega
  · apply hbody
    · simp [skipSign]
    · simp

theorem valueEnd_head (rest : Bytes) (h : valueEnd rest = true) :
    ∀ c t, rest = c :: t → c = 44 ∨ c = 93 ∨ c = 125 := by
  intro c t hc
  subst hc
  simp only [valueEnd, Bool.or_eq_true, decide_eq_true_eq] at h
  omega

/-- The exponent part of a number text, as the scanner reads it. -/
theorem scanExp_tail (acc etail rest : Bytes)
    (hE : etail = [] ∨ ∃ (eneg : Bool) (ed : Bytes),
      etail = 101 :: (if eneg then 45 else 43) :: ed ∧ (∀ c ∈ ed, 48 ≤ c ∧ c ≤ 57) ∧ ed ≠ [])
    (hrest : valueEnd rest = true) :
    scanExp acc (etail ++ rest) = some (acc ++ etail, rest) := by
  have hr := valueEnd_head rest hrest
  rcases hE with rfl | ⟨eneg, ed, rfl, hed, hne⟩
  · cases rest with
    | nil => simp [scanExp]
    | cons c t =>
      have := hr c t rfl
      have hc : ¬ (c = 101 ∨ c = 69) := by omega
      simp [scanExp, hc]
  · have hsd : scanDigits (ed ++ rest) = (ed, rest) :=
      scanDigits_append _ _ hed (fun c t hc => by have := hr c t hc; omega)
    cases eneg
    · simp [scanExp, hsd, hne]
    · simp [scanExp, hsd, hne]

theorem scanFrac_tail (acc fd etail rest : Bytes) (pt : Bool)
    (hfd : ∀ c ∈ fd, 48 ≤ c ∧ c ≤ 57) (hpt2 : pt = true → fd ≠ [])
    (hE : etail = [] ∨ ∃ (eneg : Bool) (ed : Bytes),
      etail = 101 :: (if eneg then 45 else 43) :: ed ∧ (∀ c ∈ ed, 48 ≤ c ∧ c ≤ 57) ∧ ed ≠ [])
    (hrest : valueEnd rest = true) :
    scanFrac acc ((if pt then 46 :: fd else []) ++ (etail ++ rest)) =
      some (acc ++ ((if pt then 46 :: fd else []) ++ etail), rest) := by
  have hr := valueEnd_head rest hrest
  have hhead : ∀ c t, etail ++ rest = c :: t → ¬ (48 ≤ c ∧ c ≤ 57) ∧ c ≠ 46 := by
    intro c t hc
    rcases hE with rfl | ⟨eneg, ed, rfl, _, _⟩
    · have := hr c t (by simpa using hc); omega
    · simp only [List.cons_append, List.cons.injEq] at hc; omega
  cases pt
  · simp only [Bool.false_eq_true, if_false, List.nil_append]
    unfold scanFrac
    split
    · rename_i t heq
      exact absurd rfl (hhead 46 t heq).2
    · exact scanExp_tail acc etail rest hE hrest
  · have hsd : scanDigits (fd ++ (etail ++ rest)) = (fd, etail ++ rest) :=
      scanDigits_append _ _ hfd (fun c t hc => (hhead c t hc).1)
    simp only [if_true, List.cons_append]
    unfold scanFrac
    simp only [hsd, hpt2 rfl, if_false]
    rw [scanExp_tail _ etail rest hE hrest]
    simp

/-- A number text of the shape the encoder writes is one JSON number for the
scanner. -/
theorem scanNumber_literal (neg : Bool) (ip fd etail rest : Bytes) (pt : Bool)
    (hip : ∀ c ∈ ip, 48 ≤ c ∧ c ≤ 57)
    (hiphead : ip = [48] ∨ ∃ d t, ip = d :: t ∧ 49 ≤ d)
    (hfd : ∀ c ∈ fd, 48 ≤ c ∧ c ≤ 57) (hpt2 : pt = true → fd ≠ [])
    (hE : etail = [] ∨ ∃ (eneg : Bool) (ed : Bytes),
      etail = 101 :: (if eneg then 45 else 43) :: ed ∧ (∀ c ∈ ed, 48 ≤ c ∧ c ≤ 57) ∧ ed ≠ [])
    (hrest : valueEnd rest = true) :
    scanNumber ((if neg then [45] else []) ++
        (ip ++ ((if pt then 46 :: fd else []) ++ etail)) ++ rest) =
      some ((if neg then [45] else []) ++ (ip ++ ((if pt then 46 :: fd else []) ++ etail)),
        rest) := by
  have hr := valueEnd_head rest hrest
  have hhead : ∀ c t, (if pt then 46 :: fd else []) ++ (etail ++ rest) = c :: t →
      ¬ (48 ≤ c ∧ c ≤ 57) := by
    intro c t hc
    cases pt
    · simp only [Bool.false_eq_true, if_false, List.nil_append] at hc
      rcases hE with rfl | ⟨eneg, ed, rfl, _, _⟩
      · have := hr c t (by simpa using hc); omega
      · simp only [List.cons_append, List.cons.injEq] at hc; omega
    · simp only [if_true, List.cons_append, List.cons.injEq] at hc; omega
  have hint : ∀ acc, scanInt acc (ip ++ ((if pt then 46 :: fd else []) ++ (etail ++ rest))) =
      some (acc ++ (ip ++ ((if pt then 46 :: fd else []) ++ etail)), rest) := by
    intro acc
    rcases hiphead with rfl | ⟨d, t, rfl, hd⟩
    · simp only [List.singleton_append, scanInt, if_true]
      rw [scanFrac_tail _ fd etail rest pt hfd hpt2 hE hrest]
      simp
    · have hd2 := hip d (List.mem_cons_self _ _)
      have hsd : scanDigits (t ++ ((if pt then 46 :: fd else []) ++ (etail ++ rest))) =
          (t, (if pt then 46 :: fd else []) ++ (etail ++ rest)) :=
        scanDigits_append _ _ (fun c hc => hip c (List.mem_cons_of_mem _ hc)) hhead
      simp only [List.cons_append, scanInt]
      rw [if_neg (by omega), if_pos ⟨hd, hd2.2⟩, hsd]
      simp only
      rw [scanFrac_tail _ fd etail rest pt hfd hpt2 hE hrest]
      simp
  cases neg
  · simp only [Bool.false_eq_true, if_false, List.nil_append, List.append_assoc]
    have : scanNumber (ip ++ ((if pt then 46 :: fd else []) ++ (etail ++ rest))) =
        scanInt [] (ip ++ ((if pt then 46 :: fd else []) ++ (etail ++ rest))) := by
      unfold scanNumber
      split
      · rename_i t heq
        rcases hiphead with rfl | ⟨d, t1, rfl, hd⟩
        · simp at heq
        · have hd2 := hip d (List.mem_cons_self _ _)
          simp only [List.cons_append, List.cons.injEq] at heq
          omega
      · rfl
    rw [this, hint]
    simp
  · simp only [if_true, List.singleton_append, List.cons_append, List.append_assoc]
    unfold scanNumber
    simp only [List.nil_append]
    rw [hint]
    simp

end FloatText

/-! ## `float64`: what the encoder writes -/

section FloatFormat
open strconv json

theorem decimal_one_digit (v : Nat) (h : v < 10) : strconv.decimal v = [48 + v] := by
  rcases Nat.eq_zero_or_pos v with h0 | h0
  · subst h0; rfl
  · rw [decimal_eq v h0, Nat.digits_of_lt 10 v (by omega) h]
    rfl

theorem cleanExp_exp (pre : Bytes) (sgn v : Nat) (hs : sgn = 45 ∨ sgn = 43) :
    cleanExp (pre ++ 101 :: sgn :: (if v < 10 then [48, 48 + v] else strconv.decimal v)) =
      pre ++ 101 :: sgn :: strconv.decimal v := by
  by_cases hv : v < 10
  · rw [if_pos hv, decimal_one_digit v hv]
    unfold cleanExp
    have : (pre ++ [101, sgn, 48, 48 + v]).reverse = (48 + v) :: 48 :: sgn :: 101 :: pre.reverse := by
      simp
    rw [this]
    simp only [hs, if_true]
    simp
  · rw [if_neg hv]
    have h1 : Nat.digits 10 v = v % 10 :: Nat.digits 10 (v / 10) :=
      Nat.digits_def' (by norm_num) (by omega)
    have h2 : Nat.digits 10 (v / 10) = v / 10 % 10 :: Nat.digits 10 (v / 10 / 10) :=
      Nat.digits_def' (by norm_num) (by omega)
    have hrev : (pre ++ 101 :: sgn :: strconv.decimal v).reverse =
        (48 + v % 10) :: (48 + v / 10 % 10) ::
          ((Nat.digits 10 (v / 10 / 10)).map (fun x => 48 + x) ++ sgn :: 101 :: pre.reverse) := by
      rw [decimal_eq v (by omega), h1, h2]
      simp
    unfold cleanExp
    rw [hrev]
    by_cases hw : v / 10 / 10 = 0
    · rw [hw]
      have h48 : ¬ (48 + v / 10 % 10 = 48) := by omega
      simp only [Nat.digits_zero, List.map_nil, List.nil_append]
      split
      · rename_i x s r heq
        simp only [List.cons.injEq] at heq
        omega
      · rfl
    · have h3 : Nat.digits 10 (v / 10 / 10) =
          v / 10 / 10 % 10 :: Nat.digits 10 (v / 10 / 10 / 10) :=
        Nat.digits_def' (by norm_num) (by omega)
      rw [h3]
      simp only [List.map_cons, List.cons_append]
      split
      · rename_i x s r heq
        simp only [List.cons.injEq] at heq
        obtain ⟨_, _, _, h4⟩ := heq
        cases hdg : Nat.digits 10 (v / 10 / 10 / 10) with
        | nil =>
          rw [hdg] at h4
          simp only [List.map_nil, List.nil_append, List.cons.injEq] at h4
          omega
        | cons y ys =>
          rw [hdg] at h4
          simp only [List.map_cons, List.cons_append, List.cons.injEq] at h4
          have : y ∈ Nat.digits 10 (v / 10 / 10 / 10) := by rw [hdg]; exact List.mem_cons_self _ _
          have := Nat.digits_lt_base (by norm_num : 1 < 10) this
          omega
      · rfl

/-- The shape of `%f`: an integer part, and a point with fraction digits when
the decimal has digits after the point. -/
theorem fmtF_shape (ds : Bytes) (hds : ∀ c ∈ ds, 48 ≤ c ∧ c ≤ 57)
    (hhead : ∃ d t, ds = d :: t ∧ 49 ≤ d) (dp : Int) :
    ∃ (ip fd : Bytes) (pt : Bool), fmtF ds dp = ip ++ ((if pt then 46 :: fd else []) ++ []) ∧
      (∀ c ∈ ip, 48 ≤ c ∧ c ≤ 57) ∧ ip ≠ [] ∧ (ip = [48] ∨ ∃ d t, ip = d :: t ∧ 49 ≤ d) ∧
      (∀ c ∈ fd, 48 ≤ c ∧ c ≤ 57) ∧ (pt = false → fd = []) ∧ (pt = true → fd ≠ []) ∧
      ((ds.length : Int) ≤ dp →
        fd = [] ∧ digitsVal ip = digitsVal ds * 10 ^ (dp - (ds.length : Int)).toNat) ∧
      (dp < (ds.length : Int) →
        digitsVal (ip ++ fd) = digitsVal ds ∧ (fd.length : Int) = (ds.length : Int) - dp) := by
  obtain ⟨d, t, rfl, hd⟩ := hhead
  have hlen : ((d :: t).length : Int) = (t.length : Int) + 1 := by simp
  by_cases hA : ((d :: t).length : Int) ≤ dp
  · -- an integer, padded with zeros
    refine ⟨d :: t ++ List.replicate (dp.toNat - (d :: t).length) 48, [], false, ?_, ?_, by simp,
      Or.inr ⟨d, _, rfl, hd⟩, by simp, by simp, by simp, ?_, ?_⟩
    · unfold fmtF
      rw [if_pos (by omega), if_neg (by omega),
        List.take_of_length_le (by simp only [List.length_cons] at hA ⊢; omega)]
      simp
    · intro c hc
      rw [List.mem_append] at hc
      rcases hc with hc | hc
      · exact hds c hc
      · rw [List.mem_replicate] at hc; omega
    · intro _
      refine ⟨rfl, ?_⟩
      rw [digitsVal_append, digitsVal_zeros, List.length_replicate, Nat.add_zero]
      congr 2
      simp only [List.length_cons] at hA ⊢
      omega
    · intro h; omega
  by_cases hB : 0 < dp
  · -- digits on both sides of the point
    have hk : dp.toNat < (d :: t).length := by simp only [List.length_cons] at hA ⊢; omega
    have hk0 : 0 < dp.toNat := by omega
    refine ⟨(d :: t).take dp.toNat, (d :: t).drop dp.toNat, true, ?_, ?_, ?_, ?_, ?_, by simp,
      ?_, ?_, ?_⟩
    · unfold fmtF
      rw [if_pos hB, if_pos (by omega)]
      have h1 : dp.toNat - (d :: t).length = 0 := by omega
      have h2 : (-dp).toNat = 0 := by omega
      rw [h1, h2]
      simp
    · intro c hc; exact hds c (List.mem_of_mem_take hc)
    · intro h
      have := congrArg List.length h
      rw [List.length_take] at this
      simp only [List.length_nil] at this
      omega
    · right
      obtain ⟨k, hk1⟩ : ∃ k, dp.toNat = k + 1 := ⟨dp.toNat - 1, by omega⟩
      rw [hk1, List.take_succ_cons]
      exact ⟨d, _, rfl, hd⟩
    · intro c hc; exact hds c (List.mem_of_mem_drop hc)
    · intro _ h
      have := congrArg List.length h
      rw [List.length_drop] at this
      simp only [List.length_nil] at this
      omega
    · intro h; omega
    · intro _
      refine ⟨by rw [List.take_append_drop], ?_⟩
      rw [List.length_drop]
      omega
  · -- a fraction after `0.`
    refine ⟨[48], List.replicate (-dp).toNat 48 ++ (d :: t), true, ?_, by simp, by simp,
      Or.inl rfl, ?_, by simp, by simp, ?_, ?_⟩
    · unfold fmtF
      rw [if_neg hB, if_pos (by omega)]
      have h1 : dp.toNat = 0 := by omega
      rw [h1]
      simp
    · intro c hc
      rw [List.mem_append] at hc
      rcases hc with hc | hc
      · rw [List.mem_replicate] at hc; omega
      · exact hds c hc
    · intro h; omega
    · intro _
      constructor
      · rw [digitsVal_append, digitsVal_append, digitsVal_zeros]
        simp [digitsVal]
      · rw [List.length_append, List.length_replicate]
        push_cast
        omega

/-- The shape of `%e` after the clean-up of the encoder: one digit, the
further digits after a point, and the exponent without padding. -/
theorem fmtE_clean (sign : Bytes) (d : Nat) (t : Bytes) (dp : Int) :
    cleanExp (sign ++ fmtE (d :: t) dp) =
      sign ++ ([d] ++ ((if decide (t ≠ []) then 46 :: t else []) ++
        101 :: (if decide (dp - 1 < 0) then 45 else 43) :: strconv.decimal (dp - 1).natAbs)) := by
  have h := cleanExp_exp (sign ++ d :: (if t = [] then [] else 46 :: t))
    (if dp - 1 < 0 then 45 else 43) (dp - 1).natAbs (by split_ifs <;> simp)
  unfold fmtE
  simp only [List.append_assoc, List.cons_append] at h ⊢
  rw [h]
  by_cases ht : t = []
  · simp [ht]
  · simp [ht]

theorem atof_scaled (neg : Bool) (D : Nat) (x : Int) (hx : 0 ≤ x) :
    atof neg (D * 10 ^ x.toNat) 0 = atof neg D x := by
  unfold atof
  have h1 : (-x).toNat = 0 := by omega
  have h10 : 0 < 10 ^ x.toNat := by positivity
  by_cases hD : D = 0
  · simp [hD]
  · have : ¬ (D * 10 ^ x.toNat = 0) := by
      intro h
      rcases Nat.mul_eq_zero.1 h with h | h
      · exact hD h
      · omega
    rw [if_neg this, if_neg hD, h1]
    simp

end FloatFormat

/-! ## `float64`: formatting and parsing back -/

section FloatRoundTrip
open strconv json

set_option exponentiation.threshold 2000

theorem ParseFloat_of_readFloat (s : Bytes) (neg : Bool) (M : Nat) (E : Int)
    (h : readFloat s = some (neg, M, E)) : strconv.ParseFloat s = atof neg M E := by
  unfold strconv.ParseFloat
  rw [h]

/-- The text the encoder writes for a non-zero finite `float64` parses back
to it and is one JSON number for the scanner. -/
theorem floatEncoder_nonzero (neg : Bool) (m : Nat) (e : Int) (hm0 : 0 < m) (hm : m < 2 ^ 53)
    (he : -1074 ≤ e) (hnorm : 2 ^ 52 ≤ m ∨ e = -1074) (bits : Nat)
    (hb : floatBits neg (m, e) = some bits) :
    strconv.ParseFloat (floatEncoder bits) = some bits ∧
      ∀ rest, valueEnd rest = true →
        scanNumber (floatEncoder bits ++ rest) = some (floatEncoder bits, rest) := by
  obtain ⟨_, hneg, _, hzero, _⟩ := mantExp_floatBits neg m e hm he hnorm bits hb
  obtain ⟨hparse, hD0, hD, hx1, hx2⟩ := shortest_spec neg m e hm0 hm he hnorm bits hb
  have hsign : (if bits / 2 ^ 63 % 2 = 1 then ([45] : Bytes) else []) =
      (if neg then [45] else []) := by
    cases neg
    · simp only [Bool.false_eq_true, iff_false] at hneg
      rw [if_neg hneg]; rfl
    · simp only [iff_true] at hneg
      rw [if_pos hneg]; rfl
  have habs : ¬ (bits % 2 ^ 63 = 0) := fun h => by have := hzero.1 h; omega
  unfold floatEncoder
  simp only [hsign, habs, if_false]
  generalize shortest bits = c at hparse hD0 hD hx1 hx2
  obtain ⟨D, x⟩ := c
  simp only at hparse hD0 hD hx1 hx2 ⊢
  have hds := decimal_isDigit D
  obtain ⟨d, t, hdt, hd1, hd2⟩ := decimal_head D (Nat.pos_of_ne_zero hD0)
  have hval := digitsVal_decimal D
  have hlen : (strconv.decimal D).length ≤ 801 := decimal_length_le D 801 (by norm_num) hD
  have hlen1 : (strconv.decimal D).length = t.length + 1 := by rw [hdt]; simp
  by_cases hfmt : bits % 2 ^ 63 < float1eMinus6 ∨ float1e21 ≤ bits % 2 ^ 63
  · -- `%e`
    rw [if_pos hfmt, hdt, fmtE_clean]
    rw [hdt] at hds hval
    have ht : ∀ c ∈ t, 48 ≤ c ∧ c ≤ 57 := fun c hc => hds c (List.mem_cons_of_mem _ hc)
    have hv : ((t.length : Int) + 1 + x - 1).natAbs < 100000 := by omega
    have hexp : readExp (101 :: (if decide ((t.length : Int) + 1 + x - 1 < 0) then 45 else 43) ::
        strconv.decimal ((t.length : Int) + 1 + x - 1).natAbs) =
        some ((t.length : Int) + 1 + x - 1) := by
      rw [readExp_exp _ _ (decimal_isDigit _)
        (fun h => by have := decimal_length_pos ((t.length : Int) + 1 + x - 1).natAbs
                     rw [h] at this; simp at this),
        expVal_decimal _ hv]
      by_cases hs : (t.length : Int) + 1 + x - 1 < 0
      · simp only [hs, decide_True, if_true]; congr 1; omega
      · simp only [hs, decide_False, Bool.false_eq_true, if_false]; congr 1; omega
    simp only [List.length_cons, Nat.cast_add, Nat.cast_one]
    constructor
    · rw [ParseFloat_of_readFloat _ _ _ _
        (readFloat_literal neg [d] t _ (decide (t ≠ [])) _
          (by intro c hc; simp only [List.mem_singleton] at hc; omega) (by simp) ht
          (by intro h; simpa using h) hexp)]
      have e1 : digitsVal ([d] ++ t) = D := hval
      have e2 : (t.length : Int) + 1 + x - 1 - (t.length : Int) = x := by ring
      rw [e1, e2]
      exact hparse
    · intro rest hrest
      exact scanNumber_literal neg [d] t _ rest (decide (t ≠ []))
        (by intro c hc; simp only [List.mem_singleton] at hc; omega)
        (Or.inr ⟨d, [], rfl, hd1⟩) ht (by intro h; simpa using h)
        (Or.inr ⟨decide ((t.length : Int) + 1 + x - 1 < 0), _, rfl, decimal_isDigit _,
          fun h => by have := decimal_length_pos ((t.length : Int) + 1 + x - 1).natAbs
                      rw [h] at this; simp at this⟩) hrest
  · -- `%f`
    obtain ⟨ip, fd, pt, hshape, hip, hipne, hiphead, hfd, hpt1, hpt2, hA, hB⟩ :=
      fmtF_shape (strconv.decimal D) hds ⟨d, t, hdt, hd1⟩ (((strconv.decimal D).length : Int) + x)
    rw [if_neg hfmt, hshape]
    constructor
    · rw [ParseFloat_of_readFloat _ _ _ _
        (readFloat_literal neg ip fd [] pt 0 hip hipne hfd hpt1 rfl)]
      by_cases hx : 0 ≤ x
      · obtain ⟨hfd0, hv⟩ := hA (by omega)
        subst hfd0
        have e1 : ((strconv.decimal D).length : Int) + x - ((strconv.decimal D).length : Int) = x := by
          ring
        rw [List.append_nil, hv, hval, e1]
        simp only [List.length_nil, Nat.cast_zero, sub_zero]
        rw [atof_scaled neg D x hx]
        exact hparse
      · obtain ⟨hv, hl⟩ := hB (by omega)
        have e2 : (0 : Int) - (fd.length : Int) = x := by rw [hl]; ring
        rw [hv, hval, e2]
        exact hparse
    · intro rest hrest
      exact scanNumber_literal neg ip fd [] rest pt hip hiphead hfd hpt2 (Or.inl rfl) hrest

/-- The text the encoder writes for a zero parses back to it and is one JSON
number for the scanner. -/
theorem floatEncoder_zero (neg : Bool) :
    strconv.ParseFloat (floatEncoder (if neg then 2 ^ 63 else 0)) =
        some (if neg then 2 ^ 63 else 0) ∧
      ∀ rest, valueEnd rest = true →
        scanNumber (floatEncoder (if neg then 2 ^ 63 else 0) ++ rest) =
          some (floatEncoder (if neg then 2 ^ 63 else 0), rest) := by
  have hform : floatEncoder (if neg then 2 ^ 63 else 0) =
      (if neg then [45] else []) ++ ([48] ++ ((if false then 46 :: [] else []) ++ [])) := by
    cases neg <;> rfl
  rw [hform]
  constructor
  · rw [ParseFloat_of_readFloat _ _ _ _
      (readFloat_literal neg [48] [] [] false 0 (by simp) (by simp) (by simp) (by simp) rfl)]
    simp [atof, digitsVal]
  · intro rest hrest
    exact scanNumber_literal neg [48] [] [] rest false (by simp) (Or.inl rfl) (by simp)
      (by simp) (Or.inl rfl) hrest

/-- Go's `float64` conversions round-trip: the text the encoder writes for a
`float64` that `ParseFloat` returned is a JSON number that `ParseFloat` reads
back as the same `float64`. -/
theorem float64_lawful : float64.Lawful := by
  show ∀ (lit : Bytes) (f : Nat), strconv.ParseFloat lit = some f → float64.RoundTrips f
  intro lit f h
  show decide (f / 2 ^ 52 % 2 ^ 11 = 2047) = false ∧
    strconv.ParseFloat (floatEncoder f) = some f ∧
    ∀ rest, valueEnd rest = true → scanNumber (floatEncoder f ++ rest) = some (floatEncoder f, rest)
  unfold strconv.ParseFloat at h
  split at h
  · simp at h
  · rename_i neg M E _
    unfold atof at h
    by_cases hM : M = 0
    · rw [if_pos hM] at h
      simp only [Option.some.injEq] at h
      subst h
      refine ⟨?_, floatEncoder_zero neg⟩
      cases neg <;> rfl
    · rw [if_neg hM] at h
      have hn : 0 < M * 10 ^ E.toNat := Nat.mul_pos (Nat.pos_of_ne_zero hM) (by positivity)
      have hd : 0 < 10 ^ (-E).toNat := by positivity
      obtain ⟨r1, r2, r3⟩ := roundRatio_range _ _ hn hd
      generalize roundRatio (M * 10 ^ E.toNat) (10 ^ (-E).toNat) = me at h r1 r2 r3
      obtain ⟨m, e⟩ := me
      simp only at r1 r2 r3
      obtain ⟨_, _, hfin, _, _⟩ := mantExp_floatBits neg m e r1 r2 r3 f h
      refine ⟨decide_eq_false hfin, ?_⟩
      by_cases hm0 : m = 0
      · subst hm0
        have hf : f = if neg then 2 ^ 63 else 0 := by
          unfold floatBits at h
          simp only at h
          cases neg <;> simp only [Bool.false_eq_true, if_false, if_true] at h ⊢ <;>
            split_ifs at h <;> simp only [Option.some.injEq] at h <;> omega
        rw [hf]
        exact floatEncoder_zero neg
      · exact floatEncoder_nonzero neg m e (Nat.pos_of_ne_zero hm0) r1 r2 r3 f h

end FloatRoundTrip

/-! ## Properties of `Run` -/

section Claims
open json

theorem Run_singleton_putRecords {σ : Type} (sc : Strconv) (zone : Int → Int)
    (f : FirehoseOutput σ) (pack : PipelinePack) (s : σ) :
    putRecords (Run sc zone f [pack] s).1 =
      match recordOf sc zone f.timestampColumn pack with
      | some record => [(0, record)]
      | none => [] := by
  have key : putRecords (Run sc zone f [pack] s).1 =
      putRecords (iteration sc zone f 0 pack s).1 := by
    unfold Run
    rcases runLoop_cons_cases sc zone f 0 pack [] s with ⟨evs, s1, hi, hr⟩ | ⟨evs, s1, hi, hr⟩
    · rw [hr, hi, runLoop_nil]; simp
    · rw [hr, hi]
  exact key.trans (iteration_putRecords sc zone f 0 pack s)

/-- C1, the code at the failing input: whatever the client, the zone and the
timestamp, when no timestamp column is configured the payload `null`, which is
valid JSON but not a JSON object, is submitted to `PutRecord` as the record
`null`, and `Unmarshal` reports no error for it. -/
theorem Run_null_payload_is_submitted {σ : Type} (sc : Strconv) (zone : Int → Int)
    (client : RecordPutter σ) (T : Int) (s : σ) :
    json.Unmarshal sc (ascii "null") = Except.ok none ∧
    putRecords (Run sc zone { client := client, timestampColumn := [] }
      [{ Message := { Payload := ascii "null", Timestamp := T } }] s).1 =
        [(0, ascii "null")] := by
  refine ⟨rfl, ?_⟩
  rw [Run_singleton_putRecords]
  rfl

/-- C6, the code at the failing input: with a timestamp column configured, a
pack whose payload is `null` makes `Run` panic (assignment to an entry of a nil
map) right after decoding: `Run` does not return nil, and the packs that
follow on the channel are never received. -/
theorem Run_null_payload_panics {σ : Type} (sc : Strconv) (zone : Int → Int)
    (client : RecordPutter σ) (T : Int) (rest : List PipelinePack) (s : σ) :
    Run sc zone { client := client, timestampColumn := ascii "ts" }
      ({ Message := { Payload := ascii "null", Timestamp := T } } :: rest) s =
        ([(0, Call.GetPayload), (0, Call.GetTimestamp), (0, Call.Recycle),
          (0, Call.Unmarshal (ascii "null"))], Outcome.panicked, s) := by
  unfold Run
  exact runLoop_cons_panic sc zone _ 0 _ rest s s _ rfl

/-- C10, the code at the failing input: with a timestamp column configured, a
channel that delivers the single payload `null` ends with no `PutRecord` call
and no logged error, so that submissions and logged errors together (none) do
not account for the one message received. -/
theorem Run_null_payload_no_outcome :
    putRecords (Run digitStrconv utc { client := acceptAll, timestampColumn := ascii "ts" }
      [{ Message := { Payload := ascii "null", Timestamp := 1700000000000000000 } }] 0).1 = [] ∧
    logErrors (Run digitStrconv utc { client := acceptAll, timestampColumn := ascii "ts" }
      [{ Message := { Payload := ascii "null", Timestamp := 1700000000000000000 } }] 0).1 = [] ∧
    (Run digitStrconv utc { client := acceptAll, timestampColumn := ascii "ts" }
      [{ Message := { Payload := ascii "null", Timestamp := 1700000000000000000 } }] 0).2.1 =
        Outcome.panicked := by
  refine ⟨rfl, rfl, rfl⟩

/-- C8: for every timestamp `T` in the signed 64-bit range, in a local zone
whose offsets fit in 32 bits (as in the time zone database), the string `Run`
computes is `YYYY-MM-DD HH:MM:SS.mmm`: 23 bytes, a 4-digit year, 2-digit
zero-padded month (1 to 12), day (1 to 31), hour (0 to 23), minute and second
(0 to 59), 3-digit zero-padded milliseconds, and the separators `-`, `-`,
space, `:`, `:`, `.`. -/
theorem timestamp_shape (zone : Int → Int)
    (hz : ∀ t, -2147483648 ≤ zone t ∧ zone t ≤ 2147483647) (T : Int)
    (hT : -9223372036854775808 ≤ T ∧ T ≤ 9223372036854775807) :
    ∃ year month day hour minute second milli : Nat,
      year ≤ 9999 ∧ 1 ≤ month ∧ month ≤ 12 ∧ 1 ≤ day ∧ day ≤ 31 ∧ hour ≤ 23 ∧
      minute ≤ 59 ∧ second ≤ 59 ∧ milli ≤ 999 ∧
      time.Format zone (time.Unix 0 T) =
        zeroPadded 4 year ++ 45 :: (zeroPadded 2 month ++ 45 :: (zeroPadded 2 day ++ 32 ::
          (zeroPadded 2 hour ++ 58 :: (zeroPadded 2 minute ++ 58 :: (zeroPadded 2 second ++
            46 :: zeroPadded 3 milli))))) ∧
      (time.Format zone (time.Unix 0 T)).length = 23 := by
  obtain ⟨abs, _, hlo, hhi, hfmt⟩ := Format_eq zone hz T hT
  obtain ⟨b1, b2, b3, b4, b5, b6⟩ := absDate_bounds abs hlo hhi
  obtain ⟨c1, c2, c3⟩ := absClock_bounds abs
  refine ⟨(time.absDate abs).1.toNat, (time.absDate abs).2.1, (time.absDate abs).2.2,
    (time.absClock abs).1, (time.absClock abs).2.1, (time.absClock abs).2.2,
    (T % 1000000000).toNat / 1000000, by omega, b3, b4, b5, b6, c1, c2, c3, by omega, hfmt, ?_⟩
  rw [hfmt]
  simp [length_zeroPadded]

/-- Instance of `timestamp_shape`: UTC and T = 1700000000000000000. -/
theorem timestamp_shape_witness :
    (∀ t, -2147483648 ≤ utc t ∧ utc t ≤ 2147483647) ∧
    (-9223372036854775808 ≤ (1700000000000000000 : Int) ∧
      (1700000000000000000 : Int) ≤ 9223372036854775807) ∧
    ∃ year month day hour minute second milli : Nat,
      year ≤ 9999 ∧ 1 ≤ month ∧ month ≤ 12 ∧ 1 ≤ day ∧ day ≤ 31 ∧ hour ≤ 23 ∧
      minute ≤ 59 ∧ second ≤ 59 ∧ milli ≤ 999 ∧
      time.Format utc (time.Unix 0 1700000000000000000) =
        zeroPadded 4 year ++ 45 :: (zeroPadded 2 month ++ 45 :: (zeroPadded 2 day ++ 32 ::
          (zeroPadded 2 hour ++ 58 :: (zeroPadded 2 minute ++ 58 :: (zeroPadded 2 second ++
            46 :: zeroPadded 3 milli))))) ∧
      (time.Format utc (time.Unix 0 1700000000000000000)).length = 23 :=
  ⟨fun _ => by simp [utc], by decide,
    timestamp_shape utc (fun _ => by simp [utc]) 1700000000000000000 (by decide)⟩

end Claims

section Records
open json

set_option maxRecDepth 100000

/-- The record of a valid JSON object decodes to the object, with the
timestamp assigned under the column when one is configured and valid UTF-8. -/
theorem recordOf_decodes (sc : Strconv) (hsc : sc.Lawful) (zone : Int → Int) (col : Bytes)
    (hcol : ValidString col) (pack : PipelinePack) (m : List (Bytes × Value sc.Float64))
    (hm : Unmarshal sc pack.Message.Payload = Except.ok (some m)) (record : Bytes)
    (hrec : recordOf sc zone col pack = some record) :
    Unmarshal sc record = Except.ok (some (if col = [] then m else
      mapassign col (Value.string (time.Format zone (time.Unix 0 pack.Message.Timestamp))) m)) ∧
    Marshal sc (some (if col = [] then m else
      mapassign col (Value.string (time.Format zone (time.Unix 0 pack.Message.Timestamp))) m)) =
        Except.ok record := by
  obtain ⟨r, hr, hmar⟩ := recordOf_valid sc hsc zone col pack m hm
  rw [hrec] at hr
  simp only [Option.some.injEq] at hr
  subst hr
  have hw := wf_Unmarshal sc hsc _ m hm
  have hw2 : WF sc (Value.object (if col = [] then m else
      mapassign col (Value.string (time.Format zone (time.Unix 0 pack.Message.Timestamp)))
        m)) := by
    split_ifs
    · exact hw
    · exact wf_mapassign_string sc m hw col _ hcol (validString_Format zone _)
  have hn2 : nesting (Value.object (if col = [] then m else
      mapassign col (Value.string (time.Format zone (time.Unix 0 pack.Message.Timestamp)))
        m)) ≤ maxNestingDepth := by
    have hn := nesting_Unmarshal sc _ m hm
    split_ifs
    · exact hn
    · exact le_trans (nesting_mapassign_string m col _) hn
  obtain ⟨b, hb, hu⟩ := Unmarshal_Marshal sc _ hw2 hn2
  rw [hmar] at hb
  simp only [Except.ok.injEq] at hb
  subst hb
  exact ⟨hu, hmar⟩

/-- C2 as amended: for every payload that `json.Unmarshal` accepts as an
object (a valid JSON object, nested no deeper than 10000 levels, with every
number in the range of `float64`), every non-empty timestamp column `c` that
is valid UTF-8, every timestamp and every local time zone, the record `Run`
passes to `PutRecord` for the message decodes to an object whose value at `c`
is the timestamp string in that zone (replacing any value of the payload at
`c`) and whose value at every other key is that of the payload as decoded, a
number being the `float64` nearest to its literal, no key added or removed;
when `Run` returns, the record has been submitted.  With the zone UTC, payload
`{"a":1}`, T = 1700000000000000000 and column `event_time` give
`{"a":1,"event_time":"2023-11-14 22:13:20.000"}`. -/
theorem record_carries_timestamp {σ : Type} (zone : Int → Int) (f : FirehoseOutput σ)
    (hcol : f.timestampColumn ≠ []) (hutf : ValidString f.timestampColumn)
    (inChan : List PipelinePack) (s : σ) (i : Nat) (pack : PipelinePack)
    (hi : inChan[i]? = some pack) (m : List (Bytes × json.Value float64.Float64))
    (hm : json.Unmarshal float64 pack.Message.Payload = Except.ok (some m)) :
    (∀ record, (i, Call.PutRecord record) ∈ (Run float64 zone f inChan s).1 →
      ∃ m1, json.Unmarshal float64 record = Except.ok (some m1) ∧
        ∀ k, json.mapaccess k m1 =
          if k = f.timestampColumn then
            some (json.Value.string (time.Format zone (time.Unix 0 pack.Message.Timestamp)))
          else json.mapaccess k m) ∧
    ((Run float64 zone f inChan s).2.1 = Outcome.returned none →
      ∃ record, (i, Call.PutRecord record) ∈ (Run float64 zone f inChan s).1) ∧
    putRecords (Run float64 utc
      { client := acceptAll, timestampColumn := ascii "event_time" }
      [{ Message := { Payload := ascii "\x7b\"a\":1\x7d",
                      Timestamp := 1700000000000000000 } }] 0).1 =
      [(0, ascii "\x7b\"a\":1,\"event_time\":\"2023-11-14 22:13:20.000\"\x7d")] := by
  obtain ⟨_, h2, h3⟩ := runLoop_putRecords float64 zone f inChan 0 s
  refine ⟨?_, ?_, ?_⟩
  · intro record hmem
    have hmem2 := (mem_putRecords _ i record).2 hmem
    obtain ⟨_, p, hp, hrec⟩ := h2 (i, record) hmem2
    simp only [Nat.sub_zero] at hp
    rw [hi] at hp
    simp only [Option.some.injEq] at hp
    subst hp
    obtain ⟨hu, _⟩ := recordOf_decodes float64 float64_lawful zone _ hutf pack m hm record hrec
    rw [if_neg hcol] at hu
    exact ⟨_, hu, fun k => mapaccess_mapassign k _ _ m⟩
  · intro hout
    obtain ⟨r, hr, _⟩ := recordOf_valid float64 float64_lawful zone f.timestampColumn pack m hm
    have := h3 hout i pack r hi hr
    rw [Nat.zero_add] at this
    exact ⟨r, (mem_putRecords _ i r).1 this⟩
  · rw [Run_singleton_putRecords]
    rfl

/-- Instance of `record_carries_timestamp`: the payload `{"a":1}` with the
column `event_time`. -/
theorem record_carries_timestamp_witness :
    ascii "event_time" ≠ [] ∧ ValidString (ascii "event_time") ∧
    json.Unmarshal float64 (ascii "\x7b\"a\":1\x7d") =
      Except.ok (some [(ascii "a", json.Value.number (0x3FF0000000000000 : Nat))]) ∧
    (∃ record, (0, Call.PutRecord record) ∈ (Run float64 utc
      { client := acceptAll, timestampColumn := ascii "event_time" }
      [{ Message := { Payload := ascii "\x7b\"a\":1\x7d",
                      Timestamp := 1700000000000000000 } }] 0).1) :=
  ⟨by decide, validString_of_ascii _ (by decide), rfl,
    (record_carries_timestamp utc
      { client := acceptAll, timestampColumn := ascii "event_time" } (by decide)
      (validString_of_ascii _ (by decide))
      [{ Message := { Payload := ascii "\x7b\"a\":1\x7d", Timestamp := 1700000000000000000 } }]
      0 0 _ rfl [(ascii "a", json.Value.number (0x3FF0000000000000 : Nat))] rfl).2.1 rfl⟩

/-- C2 as stated fails in two places.  In a local zone one hour east of UTC the
record for payload `{"a":1}`, T = 1700000000000000000 and column `event_time`
carries `23:13:20`, not `22:13:20`.  With the column set to the single byte
0xFF, which is not valid UTF-8, the key of the record is U+FFFD, so the decoded
record has no value at the configured column. -/
theorem record_in_other_zone_or_column :
    (putRecords (Run digitStrconv (fun _ => 3600)
        { client := acceptAll, timestampColumn := ascii "event_time" }
        [{ Message := { Payload := ascii "\x7b\"a\":1\x7d",
                        Timestamp := 1700000000000000000 } }] 0).1 =
        [(0, ascii "\x7b\"a\":1,\"event_time\":\"2023-11-14 23:13:20.000\"\x7d")] ∧
      ascii "\x7b\"a\":1,\"event_time\":\"2023-11-14 23:13:20.000\"\x7d" ≠
        ascii "\x7b\"a\":1,\"event_time\":\"2023-11-14 22:13:20.000\"\x7d") ∧
    (putRecords (Run digitStrconv utc { client := acceptAll, timestampColumn := [255] }
        [{ Message := { Payload := ascii "\x7b\"a\":1\x7d",
                        Timestamp := 1700000000000000000 } }] 0).1 =
        [(0, ascii "\x7b\"a\":1,\"\\ufffd\":\"2023-11-14 22:13:20.000\"\x7d")] ∧
      json.Unmarshal digitStrconv
          (ascii "\x7b\"a\":1,\"\\ufffd\":\"2023-11-14 22:13:20.000\"\x7d") =
        Except.ok (some [(ascii "a", json.Value.number (1 : Nat)),
          ([239, 191, 189], json.Value.string (ascii "2023-11-14 22:13:20.000"))]) ∧
      json.mapaccess [255] [(ascii "a", json.Value.number (1 : Nat)),
          (([239, 191, 189] : Bytes), json.Value.string (ascii "2023-11-14 22:13:20.000"))] =
        none) := by
  refine ⟨⟨?_, by decide⟩, ?_, rfl, rfl⟩
  · rw [Run_singleton_putRecords]; rfl
  · rw [Run_singleton_putRecords]; rfl

end Records

section Forwarding
open json

set_option maxRecDepth 100000

/-- C3 as amended: for every payload that `json.Unmarshal` accepts as an
object (a valid JSON object, nested no deeper than 10000 levels, with every
number in the range of `float64`), when no timestamp column is configured,
the record `Run` passes to `PutRecord` for the message decodes to the object
the payload decodes to: the same keys and the same value at every key, a
number being the `float64` nearest to its literal; this whatever the
timestamp and the zone, and the record is submitted.  The payload `{"x":"y"}`
is submitted as `{"x":"y"}`. -/
theorem record_decodes_to_payload_object {σ : Type} (zone : Int → Int)
    (f : FirehoseOutput σ) (hcol : f.timestampColumn = [])
    (inChan : List PipelinePack) (s : σ) (i : Nat) (pack : PipelinePack)
    (hi : inChan[i]? = some pack) (m : List (Bytes × json.Value float64.Float64))
    (hm : json.Unmarshal float64 pack.Message.Payload = Except.ok (some m)) :
    (∀ record, (i, Call.PutRecord record) ∈ (Run float64 zone f inChan s).1 →
      json.Unmarshal float64 record = Except.ok (some m)) ∧
    (∃ record, (i, Call.PutRecord record) ∈ (Run float64 zone f inChan s).1) ∧
    (∀ (zone1 : Int → Int) (T : Int),
      putRecords (Run float64 zone1 { client := acceptAll, timestampColumn := [] }
        [{ Message := { Payload := ascii "\x7b\"x\":\"y\"\x7d", Timestamp := T } }] 0).1 =
        [(0, ascii "\x7b\"x\":\"y\"\x7d")]) := by
  obtain ⟨_, h2, h3⟩ := runLoop_putRecords float64 zone f inChan 0 s
  refine ⟨?_, ?_, ?_⟩
  · intro record hmem
    have hmem2 := (mem_putRecords _ i record).2 hmem
    obtain ⟨_, p, hp, hrec⟩ := h2 (i, record) hmem2
    simp only [Nat.sub_zero] at hp
    rw [hi] at hp
    simp only [Option.some.injEq] at hp
    subst hp
    obtain ⟨hu, _⟩ := recordOf_decodes float64 float64_lawful zone _ (hcol ▸ ValidString.nil)
      pack m hm record hrec
    rw [if_pos hcol] at hu
    exact hu
  · obtain ⟨r, hr, _⟩ := recordOf_valid float64 float64_lawful zone f.timestampColumn pack m hm
    have hout := runLoop_returns float64 zone f inChan (Or.inl hcol) 0 s
    have := h3 hout i pack r hi hr
    rw [Nat.zero_add] at this
    exact ⟨r, (mem_putRecords _ i r).1 this⟩
  · intro zone1 T
    rw [Run_singleton_putRecords]
    rfl

/-- Instance of `record_decodes_to_payload_object`: the payload
`{"x":"y","n":0.1}`. -/
theorem record_decodes_to_payload_object_witness :
    json.Unmarshal float64 (ascii "\x7b\"x\":\"y\",\"n\":0.1\x7d") =
      Except.ok (some [(ascii "n", json.Value.number (0x3FB999999999999A : Nat)),
        (ascii "x", json.Value.string (ascii "y"))]) ∧
    (∃ record, (0, Call.PutRecord record) ∈ (Run float64 utc
      { client := acceptAll, timestampColumn := [] }
      [{ Message := { Payload := ascii "\x7b\"x\":\"y\",\"n\":0.1\x7d",
                      Timestamp := 0 } }] 0).1) :=
  ⟨rfl,
    (record_decodes_to_payload_object utc
      { client := acceptAll, timestampColumn := [] } rfl
      [{ Message := { Payload := ascii "\x7b\"x\":\"y\",\"n\":0.1\x7d", Timestamp := 0 } }]
      0 0 _ rfl [(ascii "n", json.Value.number (0x3FB999999999999A : Nat)),
        (ascii "x", json.Value.string (ascii "y"))] rfl).2.1⟩

/-- C3 as stated fails for a number that no `float64` holds exactly: with no
timestamp column, the payload `{"id":9007199254740993}` is submitted as
`{"id":9007199254740992}`, so the value at key `id` of the record is not the
value at key `id` of the payload. -/
theorem record_rounds_number :
    putRecords (Run float64 utc { client := acceptAll, timestampColumn := [] }
        [{ Message := { Payload := ascii "\x7b\"id\":9007199254740993\x7d",
                        Timestamp := 0 } }] 0).1 =
      [(0, ascii "\x7b\"id\":9007199254740992\x7d")] ∧
    strconv.readFloat (ascii "9007199254740993") = some (false, 9007199254740993, 0) ∧
    strconv.readFloat (ascii "9007199254740992") = some (false, 9007199254740992, 0) ∧
    (9007199254740993 : Nat) ≠ 9007199254740992 := by
  refine ⟨?_, rfl, rfl, by decide⟩
  rw [Run_singleton_putRecords]
  rfl

/-- C9: with no timestamp column, for every payload that is a valid JSON
object for `json.Unmarshal` (it decodes to a map, which takes a nesting of at
most 10000 levels and numbers in the range of `float64`), `Run` submits a
record `r`, and running the same transform on `r` (a message whose payload is
`r`, any timestamp, any client state) succeeds and submits `r` again, byte
for byte; `r` decodes to the object of the payload.  This for any `float64`
conversions that round-trip, as Go's do (`float64_lawful`). -/
theorem transform_idempotent {σ : Type} (sc : Strconv) (hsc : sc.Lawful) (zone : Int → Int)
    (f : FirehoseOutput σ) (hcol : f.timestampColumn = []) (pack : PipelinePack)
    (m : List (Bytes × json.Value sc.Float64))
    (hm : json.Unmarshal sc pack.Message.Payload = Except.ok (some m)) (s : σ) :
    ∃ r, putRecords (Run sc zone f [pack] s).1 = [(0, r)] ∧
      json.Unmarshal sc r = Except.ok (some m) ∧
      ∀ (T : Int) (s1 : σ),
        putRecords (Run sc zone f [{ Message := { Payload := r, Timestamp := T } }] s1).1 =
          [(0, r)] := by
  obtain ⟨r, hr, _⟩ := recordOf_valid sc hsc zone f.timestampColumn pack m hm
  obtain ⟨hu, hmar⟩ := recordOf_decodes sc hsc zone _ (hcol ▸ ValidString.nil) pack m hm r hr
  rw [if_pos hcol] at hu hmar
  refine ⟨r, ?_, hu, ?_⟩
  · rw [Run_singleton_putRecords, hr]
  · intro T s1
    obtain ⟨r2, hr2, hmar2⟩ := recordOf_valid sc hsc zone f.timestampColumn
      { Message := { Payload := r, Timestamp := T } } m hu
    rw [if_pos hcol, hmar] at hmar2
    simp only [Except.ok.injEq] at hmar2
    subst hmar2
    rw [Run_singleton_putRecords, hr2]

/-- Instance of `transform_idempotent` for Go's `float64`: the payload
` { "b" : 2 , "a" : [1, "x"] } `. -/
theorem transform_idempotent_witness :
    float64.Lawful ∧
    ∃ r, putRecords (Run float64 utc { client := acceptAll, timestampColumn := [] }
        [{ Message := { Payload := ascii " \x7b \"b\" : 2 , \"a\" : [1, \"x\"] \x7d ",
                        Timestamp := 5 } }] 0).1 = [(0, r)] ∧
      json.Unmarshal float64 r = Except.ok (some
        [(ascii "a", json.Value.array [json.Value.number (0x3FF0000000000000 : Nat),
            json.Value.string (ascii "x")]),
          (ascii "b", json.Value.number (0x4000000000000000 : Nat))]) ∧
      ∀ (T : Int) (s1 : Nat),
        putRecords (Run float64 utc { client := acceptAll, timestampColumn := [] }
          [{ Message := { Payload := r, Timestamp := T } }] s1).1 = [(0, r)] :=
  ⟨float64_lawful,
    transform_idempotent float64 float64_lawful utc
      { client := acceptAll, timestampColumn := [] } rfl
      { Message := { Payload := ascii " \x7b \"b\" : 2 , \"a\" : [1, \"x\"] \x7d ",
                     Timestamp := 5 } }
      [(ascii "a", json.Value.array [json.Value.number (0x3FF0000000000000 : Nat),
          json.Value.string (ascii "x")]),
        (ascii "b", json.Value.number (0x4000000000000000 : Nat))] rfl 0⟩

/-- C4: the `PutRecord` calls of `Run` are in the order of the channel: the
positions of the packs they come from increase strictly, and each call
carries the record of the pack at its position.  When every payload is valid
(`json.Unmarshal` decodes it to a map, which takes a nesting of at most 10000
levels and numbers in the range of `float64`), the k-th call carries the
record of the k-th pack, whether the submissions succeed or not.  This for
any `float64` conversions that round-trip, as Go's do (`float64_lawful`). -/
theorem submissions_in_channel_order {σ : Type} (sc : Strconv) (zone : Int → Int)
    (f : FirehoseOutput σ) (inChan : List PipelinePack) (s : σ) :
    (putRecords (Run sc zone f inChan s).1).Pairwise (fun a b => a.1 < b.1) ∧
    (∀ e ∈ putRecords (Run sc zone f inChan s).1, ∃ pack, inChan[e.1]? = some pack ∧
      recordOf sc zone f.timestampColumn pack = some e.2) ∧
    (sc.Lawful →
      (∀ pack ∈ inChan, ∃ m, json.Unmarshal sc pack.Message.Payload = Except.ok (some m)) →
      ∀ (k : Nat) (pack : PipelinePack), inChan[k]? = some pack →
        ∃ r, recordOf sc zone f.timestampColumn pack = some r ∧
          (putRecords (Run sc zone f inChan s).1)[k]? = some (k, r)) := by
  obtain ⟨h1, h2, _⟩ := runLoop_putRecords sc zone f inChan 0 s
  refine ⟨h1, ?_, ?_⟩
  · intro e he
    obtain ⟨_, p, hp, hrec⟩ := h2 e he
    exact ⟨p, by simpa using hp, hrec⟩
  · intro hsc hvalid k pack hk
    have hall : ∀ p ∈ inChan, ∃ r, recordOf sc zone f.timestampColumn p = some r := by
      intro p hp
      obtain ⟨m, hm⟩ := hvalid p hp
      obtain ⟨r, hr, _⟩ := recordOf_valid sc hsc zone f.timestampColumn p m hm
      exact ⟨r, hr⟩
    obtain ⟨r, hr, hg⟩ := runLoop_putRecords_all sc zone f inChan hall 0 s k pack hk
    rw [Nat.zero_add] at hg
    exact ⟨r, hr, hg⟩

/-- Instance of `submissions_in_channel_order` for Go's `float64`: three
valid payloads, a client that rejects every other record. -/
theorem submissions_in_channel_order_witness :
    float64.Lawful ∧
    (∃ r, recordOf float64 utc []
        ({ Message := { Payload := ascii "\x7b\"c\":3\x7d", Timestamp := 3 } }) = some r ∧
      (putRecords (Run float64 utc { client := rejectEveryOther, timestampColumn := [] }
        [{ Message := { Payload := ascii "\x7b\"a\":1\x7d", Timestamp := 1 } },
          { Message := { Payload := ascii "\x7b\"b\":2\x7d", Timestamp := 2 } },
          { Message := { Payload := ascii "\x7b\"c\":3\x7d", Timestamp := 3 } }] 0).1)[2]? =
        some (2, r)) :=
  ⟨float64_lawful,
    (submissions_in_channel_order float64 utc
      { client := rejectEveryOther, timestampColumn := [] }
      [{ Message := { Payload := ascii "\x7b\"a\":1\x7d", Timestamp := 1 } },
        { Message := { Payload := ascii "\x7b\"b\":2\x7d", Timestamp := 2 } },
        { Message := { Payload := ascii "\x7b\"c\":3\x7d", Timestamp := 3 } }] 0).2.2
      float64_lawful
      (by
        intro pack hp
        simp only [List.mem_cons, List.mem_singleton, List.not_mem_nil, or_false] at hp
        rcases hp with rfl | rfl | rfl
        · exact ⟨[(ascii "a", json.Value.number (0x3FF0000000000000 : Nat))], rfl⟩
        · exact ⟨[(ascii "b", json.Value.number (0x4000000000000000 : Nat))], rfl⟩
        · exact ⟨[(ascii "c", json.Value.number (0x4008000000000000 : Nat))], rfl⟩)
      2 _ rfl⟩

end Forwarding

section ReleaseAndFailure
open json

set_option maxRecDepth 100000

/-- C5: every pack `Run` receives is released exactly once, and the release
comes right after the payload and the timestamp are read and right before the
payload is decoded: the trace holds, for the pack at position `i`, the four
calls `GetPayload`, `GetTimestamp`, `Recycle`, `Unmarshal` in a row, preceded
only by events of earlier packs and followed by no other release or decoding
of pack `i`, whatever the payload and whatever the client answers.  When `Run`
returns, it has received every pack of the channel. -/
theorem pack_recycled_once_before_decoding {σ : Type} (sc : Strconv) (zone : Int → Int)
    (f : FirehoseOutput σ) (inChan : List PipelinePack) (s : σ) :
    (∀ (i : Nat) (c : Call), (i, c) ∈ (Run sc zone f inChan s).1 →
      ∃ pack, inChan[i]? = some pack ∧
        (Run sc zone f inChan s).1.count (i, Call.Recycle) = 1 ∧
        ∃ pre post, (Run sc zone f inChan s).1 =
            pre ++ [(i, Call.GetPayload), (i, Call.GetTimestamp), (i, Call.Recycle),
              (i, Call.Unmarshal pack.Message.Payload)] ++ post ∧
          (∀ e ∈ pre, e.1 < i) ∧
          (∀ e ∈ post, e ≠ (i, Call.Recycle) ∧ ∀ d, e ≠ (i, Call.Unmarshal d))) ∧
    ((Run sc zone f inChan s).2.1 = Outcome.returned none →
      ∀ i, i < inChan.length → (i, Call.GetPayload) ∈ (Run sc zone f inChan s).1) := by
  refine ⟨?_, ?_⟩
  · intro i c hmem
    obtain ⟨_, pack, hp, pre, post, htr, hpre, hpost⟩ :=
      runLoop_headCalls sc zone f inChan 0 s i c hmem
    refine ⟨pack, by simpa using hp, ?_, pre, post, htr, hpre, hpost⟩
    unfold Run
    rw [htr, List.count_append, List.count_append, count_recycle_headCalls]
    have h1 : pre.count (i, Call.Recycle) = 0 := by
      rw [List.count_eq_zero]
      intro hin
      have := hpre _ hin
      simp at this
    have h2 : post.count (i, Call.Recycle) = 0 := by
      rw [List.count_eq_zero]
      intro hin
      exact (hpost _ hin).1 rfl
    rw [h1, h2]
  · intro hout i hi
    have := runLoop_receives_all sc zone f inChan 0 s hout i hi
    rw [Nat.zero_add] at this
    exact this

/-- Instance of `pack_recycled_once_before_decoding`: a malformed payload
between two valid ones, a client that rejects the first record. -/
theorem pack_recycled_once_before_decoding_witness :
    (1, Call.LogError Error.unmarshal) ∈
      (Run digitStrconv utc { client := rejectEveryOther, timestampColumn := ascii "ts" }
        [{ Message := { Payload := ascii "\x7b\"a\":1\x7d", Timestamp := 1 } },
          { Message := { Payload := ascii "not-json", Timestamp := 2 } },
          { Message := { Payload := ascii "\x7b\"c\":3\x7d", Timestamp := 3 } }] 0).1 ∧
    (Run digitStrconv utc { client := rejectEveryOther, timestampColumn := ascii "ts" }
        [{ Message := { Payload := ascii "\x7b\"a\":1\x7d", Timestamp := 1 } },
          { Message := { Payload := ascii "not-json", Timestamp := 2 } },
          { Message := { Payload := ascii "\x7b\"c\":3\x7d", Timestamp := 3 } }] 0).1.count
      (1, Call.Recycle) = 1 :=
  ⟨by decide,
    by
      obtain ⟨_, _, h, _⟩ := (pack_recycled_once_before_decoding digitStrconv utc
        { client := rejectEveryOther, timestampColumn := ascii "ts" }
        [{ Message := { Payload := ascii "\x7b\"a\":1\x7d", Timestamp := 1 } },
          { Message := { Payload := ascii "not-json", Timestamp := 2 } },
          { Message := { Payload := ascii "\x7b\"c\":3\x7d", Timestamp := 3 } }] 0).1
        1 (Call.LogError Error.unmarshal) (by decide)
      exact h⟩

/-- C7: when the record of the pack at position `i` is passed to `PutRecord`
and `PutRecord` returns an error, `Run` logs that error and goes on with the
next pack: the trace is the trace of the earlier packs, the calls of pack `i`
ending with the one `PutRecord` call and the `LogError` of its error, and then
the loop over the remaining packs from the state the client was left in.  No
other `PutRecord` call is made for pack `i` (no retry), and the loop over the
remaining packs is the one that follows a successful call leaving the client
in the same state. -/
theorem failed_submission_is_logged_and_skipped {σ : Type} (sc : Strconv)
    (zone : Int → Int) (f : FirehoseOutput σ) (earlier : List PipelinePack)
    (pack : PipelinePack) (rest : List PipelinePack) (s s0 s1 : σ) (tr : List Event)
    (record : Bytes) (code : Nat)
    (hearlier : Run sc zone f earlier s = (tr, Outcome.returned none, s0))
    (hrec : recordOf sc zone f.timestampColumn pack = some record)
    (hfail : f.client.PutRecord s0 record = (s1, some code)) :
    Run sc zone f (earlier ++ pack :: rest) s =
      (tr ++ ([(earlier.length, Call.GetPayload), (earlier.length, Call.GetTimestamp),
          (earlier.length, Call.Recycle),
          (earlier.length, Call.Unmarshal pack.Message.Payload),
          (earlier.length, Call.Marshal), (earlier.length, Call.PutRecord record),
          (earlier.length, Call.LogError (Error.putRecord code))] ++
        (runLoop sc zone f (earlier.length + 1) rest s1).1),
       (runLoop sc zone f (earlier.length + 1) rest s1).2) ∧
    (putRecords (Run sc zone f (earlier ++ pack :: rest) s).1).filter
        (fun e => decide (e.1 = earlier.length)) = [(earlier.length, record)] ∧
    (∀ s2, f.client.PutRecord s2 record = (s1, none) →
      runLoop sc zone f earlier.length (pack :: rest) s2 =
        ([(earlier.length, Call.GetPayload), (earlier.length, Call.GetTimestamp),
            (earlier.length, Call.Recycle),
            (earlier.length, Call.Unmarshal pack.Message.Payload),
            (earlier.length, Call.Marshal), (earlier.length, Call.PutRecord record)] ++
          (runLoop sc zone f (earlier.length + 1) rest s1).1,
         (runLoop sc zone f (earlier.length + 1) rest s1).2)) := by
  have hit := iteration_of_record sc zone f earlier.length pack s0 record hrec
  rw [hfail] at hit
  simp only at hit
  have hloop := runLoop_cons_next sc zone f earlier.length pack rest s0 s1 _ hit
  have happ := runLoop_append sc zone f earlier (pack :: rest) 0 s s0 tr hearlier
  rw [Nat.zero_add, hloop] at happ
  have hrun : Run sc zone f (earlier ++ pack :: rest) s =
      (tr ++ ([(earlier.length, Call.GetPayload), (earlier.length, Call.GetTimestamp),
          (earlier.length, Call.Recycle),
          (earlier.length, Call.Unmarshal pack.Message.Payload),
          (earlier.length, Call.Marshal), (earlier.length, Call.PutRecord record),
          (earlier.length, Call.LogError (Error.putRecord code))] ++
        (runLoop sc zone f (earlier.length + 1) rest s1).1),
       (runLoop sc zone f (earlier.length + 1) rest s1).2) := by
    unfold Run
    rw [happ]
    simp [headCalls]
  refine ⟨hrun, ?_, ?_⟩
  · rw [hrun]
    simp only [putRecords_append]
    have htr : (putRecords tr).filter (fun e => decide (e.1 = earlier.length)) = [] := by
      rw [List.filter_eq_nil_iff]
      intro e he
      have hmem : (e.1, Call.PutRecord e.2) ∈ (runLoop sc zone f 0 earlier s).1 := by
        have : (e.1, Call.PutRecord e.2) ∈ tr := (mem_putRecords tr e.1 e.2).1 he
        have hr : (runLoop sc zone f 0 earlier s).1 = tr := by
          have := hearlier
          unfold Run at this
          rw [this]
        rw [hr]; exact this
      have := (runLoop_index sc zone f earlier 0 s _ hmem).2
      simp only [Nat.zero_add] at this
      simp only [decide_eq_true_eq]
      omega
    have hrest : (putRecords (runLoop sc zone f (earlier.length + 1) rest s1).1).filter
        (fun e => decide (e.1 = earlier.length)) = [] := by
      rw [List.filter_eq_nil_iff]
      intro e he
      have hmem := (mem_putRecords _ e.1 e.2).1 he
      have := (runLoop_index sc zone f rest (earlier.length + 1) s1 _ hmem).1
      simp only [decide_eq_true_eq]
      simp only at this
      omega
    rw [List.filter_append, List.filter_append, htr, hrest]
    simp [putRecords]
  · intro s2 hok
    have hit2 := iteration_of_record sc zone f earlier.length pack s2 record hrec
    rw [hok] at hit2
    simp only at hit2
    rw [runLoop_cons_next sc zone f earlier.length pack rest s2 s1 _ hit2]
    simp [headCalls]

/-- Instance of `failed_submission_is_logged_and_skipped`: the second of three
packs is rejected by a client that rejects every other record, starting with
the first, after a first pack that is not submitted. -/
theorem failed_submission_is_logged_and_skipped_witness :
    (putRecords (Run digitStrconv utc { client := rejectEveryOther, timestampColumn := [] }
        ([{ Message := { Payload := ascii "not-json", Timestamp := 1 } }] ++
          { Message := { Payload := ascii "\x7b\"b\":2\x7d", Timestamp := 2 } } ::
          [{ Message := { Payload := ascii "\x7b\"c\":3\x7d", Timestamp := 3 } }]) 0).1).filter
      (fun e => decide (e.1 = 1)) = [(1, ascii "\x7b\"b\":2\x7d")] :=
  (failed_submission_is_logged_and_skipped digitStrconv utc
    { client := rejectEveryOther, timestampColumn := [] }
    [{ Message := { Payload := ascii "not-json", Timestamp := 1 } }]
    { Message := { Payload := ascii "\x7b\"b\":2\x7d", Timestamp := 2 } }
    [{ Message := { Payload := ascii "\x7b\"c\":3\x7d", Timestamp := 3 } }]
    0 0 1 _ (ascii "\x7b\"b\":2\x7d") 7 rfl rfl rfl).2.1

end ReleaseAndFailure

/-! ## Outcome of each pack when `Run` returns -/

section Accounting
open json

variable {σ : Type}

theorem logErrors_append (a b : List Event) :
    logErrors (a ++ b) = logErrors a ++ logErrors b := by
  simp [logErrors, List.filterMap_append]

/-- A round that does not panic ends in exactly one of two ways: one
`PutRecord` call whose error, if any, is the only error logged, or no
`PutRecord` call and exactly one logged error (from decoding or encoding). -/
theorem iteration_accounting (sc : Strconv) (zone : Int → Int) (f : FirehoseOutput σ)
    (i : Nat) (pack : PipelinePack) (s s1 : σ) (evs : List Event)
    (h : iteration sc zone f i pack s = (evs, Flow.next, s1)) :
    (∃ record, putRecords evs = [(i, record)] ∧
      (((f.client.PutRecord s record).2 = none ∧ logErrors evs = [] ∧
          evs.filter isSinkErrorLog = []) ∨
       (∃ code, (f.client.PutRecord s record).2 = some code ∧
          logErrors evs = [(i, Error.putRecord code)] ∧
          evs.filter isSinkErrorLog = [(i, Call.LogError (Error.putRecord code))]))) ∨
    (putRecords evs = [] ∧ evs.filter isSinkErrorLog = [] ∧
      (logErrors evs = [(i, Error.unmarshal)] ∨ logErrors evs = [(i, Error.marshal)])) := by
  cases hrec : recordOf sc zone f.timestampColumn pack with
  | some record =>
    left
    have hit := iteration_of_record sc zone f i pack s record hrec
    rw [h] at hit
    simp only [Prod.mk.injEq] at hit
    obtain ⟨hevs, _, _⟩ := hit
    cases hans : (f.client.PutRecord s record).2 with
    | none =>
      rw [hans] at hevs
      subst hevs
      exact ⟨record, rfl, Or.inl ⟨hans, rfl, rfl⟩⟩
    | some code =>
      rw [hans] at hevs
      subst hevs
      exact ⟨record, rfl, Or.inr ⟨code, hans, rfl, rfl⟩⟩
  | none =>
    right
    rcases iteration_of_no_record sc zone f i pack s hrec with e | e | ⟨e, _⟩
    · rw [h] at e
      simp only [Prod.mk.injEq] at e
      obtain ⟨hevs, _, _⟩ := e
      subst hevs
      exact ⟨rfl, rfl, Or.inl rfl⟩
    · rw [h] at e
      simp only [Prod.mk.injEq] at e
      obtain ⟨hevs, _, _⟩ := e
      subst hevs
      exact ⟨rfl, rfl, Or.inr rfl⟩
    · rw [h] at e
      simp at e

/-- When `Run` returns, the successful `PutRecord` calls and the logged errors
together number the packs received: the `PutRecord` calls plus the logged
errors, less the errors logged for failed calls (counted on both sides), are
as many as the packs of the channel. -/
theorem runLoop_accounting (sc : Strconv) (zone : Int → Int) (f : FirehoseOutput σ)
    (packs : List PipelinePack) :
    ∀ (i : Nat) (s : σ), (runLoop sc zone f i packs s).2.1 = Outcome.returned none →
      (putRecords (runLoop sc zone f i packs s).1).length +
        (logErrors (runLoop sc zone f i packs s).1).length =
      packs.length + ((runLoop sc zone f i packs s).1.filter isSinkErrorLog).length := by
  induction packs with
  | nil => intro i s _; rw [runLoop_nil]; rfl
  | cons pack rest ih =>
    intro i s hout
    rcases runLoop_cons_cases sc zone f i pack rest s with ⟨evs, s1, hi, hr⟩ | ⟨evs, s1, hi, hr⟩
    · rw [hr] at hout ⊢
      simp only at hout ⊢
      have hrest := ih (i + 1) s1 hout
      have hsink : (putRecords evs).length + (logErrors evs).length =
          1 + (evs.filter isSinkErrorLog).length := by
        rcases iteration_accounting sc zone f i pack s s1 evs hi with
          ⟨record, hp, ⟨_, hl, hf⟩ | ⟨code, _, hl, hf⟩⟩ | ⟨hp, hf, hl | hl⟩ <;>
          rw [hp, hl, hf] <;> rfl
      rw [putRecords_append, logErrors_append, List.filter_append]
      simp only [List.length_append, List.length_cons]
      omega
    · rw [hr] at hout
      simp at hout

/-- A payload that `Unmarshal` rejects (text that is not JSON, JSON nested
too deeply, a number out of range, or a JSON array, string, number or boolean)
is not submitted: the round logs the error and the loop goes on. -/
theorem iteration_of_rejected_payload (sc : Strconv) (zone : Int → Int)
    (f : FirehoseOutput σ) (i : Nat) (pack : PipelinePack) (s : σ) (err : Error)
    (h : Unmarshal sc pack.Message.Payload = Except.error err) :
    iteration sc zone f i pack s =
      (headCalls i pack ++ [(i, Call.LogError Error.unmarshal)], Flow.next, s) := by
  have := Unmarshal_error sc _ err h
  subst this
  unfold iteration
  simp only [h]
  rfl

/-- The payloads `Unmarshal` rejects are those that do not decode and those
that decode to a value other than an object or `null`. -/
theorem Unmarshal_rejects_iff (sc : Strconv) (data : Bytes) :
    (∃ err, Unmarshal sc data = Except.error err) ↔
      (decode sc data = none ∨ (∃ b, decode sc data = some (Value.bool b)) ∨
        (∃ x, decode sc data = some (Value.number x)) ∨
        (∃ x, decode sc data = some (Value.string x)) ∨
        (∃ xs, decode sc data = some (Value.array xs))) := by
  unfold Unmarshal
  cases hd : decode sc data with
  | none => simp
  | some v => cases v <;> simp

end Accounting

/-! ## The fuel of the decoder and of the encoder is never exhausted -/

section Fuel
open utf8 json

theorem DecodeRune_size_pos (c : Nat) (t : Bytes) : 1 ≤ (DecodeRune (c :: t)).2 := by
  simp only [DecodeRune]
  split_ifs <;> (try split) <;> (try split_ifs) <;> simp

theorem skipSpace_length (s : Bytes) : (skipSpace s).length ≤ s.length := by
  induction s with
  | nil => simp [skipSpace]
  | cons c t ih =>
    simp only [skipSpace]
    split_ifs
    · simp only [List.length_cons]; omega
    · exact le_refl _

theorem getu4_length (s : Bytes) (r : Nat) (t : Bytes) (h : getu4 s = some (r, t)) :
    t.length + 4 = s.length := by
  unfold getu4 at h
  split at h
  · split at h
    · simp only [Option.some.injEq, Prod.mk.injEq] at h
      rw [← h.2]; simp
    · simp at h
  · simp at h

theorem unescape_length (t piece u : Bytes) (h : unescape t = some (piece, u)) :
    u.length < t.length := by
  unfold unescape at h
  split at h
  · simp at h
  · rename_i e u0
    split_ifs at h with c1 c2 c3 c4 c5 c6 c7
    all_goals first
      | (simp only [Option.some.injEq, Prod.mk.injEq] at h
         rw [← h.2]; simp)
      | skip
    split at h
    · simp at h
    · rename_i rr u1 hg
      have hl := getu4_length _ _ _ hg
      split_ifs at h
      · split at h
        · rename_i u2
          split at h
          · rename_i rr1 u3 hg2
            have hl2 := getu4_length _ _ _ hg2
            split_ifs at h <;>
              (simp only [Option.some.injEq, Prod.mk.injEq] at h
               rw [← h.2]; simp only [List.length_cons] at hl ⊢; omega)
          · simp only [Option.some.injEq, Prod.mk.injEq] at h
            rw [← h.2]; simp only [List.length_cons] at hl ⊢; omega
        · simp only [Option.some.injEq, Prod.mk.injEq] at h
          rw [← h.2]; simp only [List.length_cons]; omega
      · simp only [Option.some.injEq, Prod.mk.injEq] at h
        rw [← h.2]; simp only [List.length_cons]; omega

/-- A string literal that `unquoteAux` decodes with some fuel is decoded, to
the same result, with any fuel of at least the input length; the closing
quote is consumed. -/
theorem unquoteAux_fuel (fuel : Nat) :
    ∀ (s x r : Bytes), unquoteAux fuel s = some (x, r) →
      r.length < s.length ∧ ∀ n, s.length ≤ n → unquoteAux n s = some (x, r) := by
  induction fuel with
  | zero => intro s x r h; simp [unquoteAux] at h
  | succ k ih =>
    intro s x r h
    cases s with
    | nil => simp [unquoteAux] at h
    | cons c t =>
      rw [unquoteAux] at h
      split_ifs at h with h1 h2 h3 h4
      · simp only [Option.some.injEq, Prod.mk.injEq] at h
        refine ⟨by rw [← h.2]; simp, ?_⟩
        intro n hn
        obtain ⟨m, rfl⟩ : ∃ m, n = m + 1 := ⟨n - 1, by simp at hn; omega⟩
        rw [unquoteAux, if_pos h1, h.1, h.2]
      · split at h
        · simp at h
        · rename_i piece u hu
          have hlen := unescape_length _ _ _ hu
          obtain ⟨y, hy, rfl⟩ := option_map_eq_some (f := fun z => piece ++ z) h
          obtain ⟨hr, hall⟩ := ih _ _ _ hy
          refine ⟨by simp only [List.length_cons]; omega, ?_⟩
          intro n hn
          obtain ⟨m, rfl⟩ : ∃ m, n = m + 1 := ⟨n - 1, by simp at hn; omega⟩
          rw [unquoteAux, if_neg h1, if_pos h2]
          simp only [hu]
          rw [hall m (by simp only [List.length_cons] at hn; omega)]
          rfl
      · obtain ⟨y, hy, rfl⟩ := option_map_eq_some (f := fun z => c :: z) h
        obtain ⟨hr, hall⟩ := ih _ _ _ hy
        refine ⟨by simp only [List.length_cons]; omega, ?_⟩
        intro n hn
        obtain ⟨m, rfl⟩ : ∃ m, n = m + 1 := ⟨n - 1, by simp at hn; omega⟩
        rw [unquoteAux, if_neg h1, if_neg h2, if_neg h3, if_pos h4,
          hall m (by simp only [List.length_cons] at hn; omega)]
        rfl
      · obtain ⟨y, hy, rfl⟩ := option_map_eq_some (f := fun z => _ ++ z) h
        obtain ⟨hr, hall⟩ := ih _ _ _ hy
        have hsz := DecodeRune_size_pos c t
        have hdrop : ((c :: t).drop (DecodeRune (c :: t)).2).length ≤ t.length := by
          rw [List.length_drop]; simp only [List.length_cons]; omega
        refine ⟨by simp only [List.length_cons]; omega, ?_⟩
        intro n hn
        obtain ⟨m, rfl⟩ : ∃ m, n = m + 1 := ⟨n - 1, by simp at hn; omega⟩
        rw [unquoteAux, if_neg h1, if_neg h2, if_neg h3, if_neg h4,
          hall m (by simp only [List.length_cons] at hn; omega)]
        rfl

/-- Whatever `unquoteAux` decodes with some fuel, `unquote` decodes. -/
theorem unquote_of_unquoteAux (fuel : Nat) (s x r : Bytes)
    (h : unquoteAux fuel s = some (x, r)) : unquote s = some (x, r) :=
  (unquoteAux_fuel fuel s x r h).2 _ (le_refl _)

theorem unquote_length (s x r : Bytes) (h : unquote s = some (x, r)) : r.length < s.length :=
  (unquoteAux_fuel _ s x r h).1

/-- The loop of `appendString` does not depend on its fuel once the fuel is at
least the length of the string. -/
theorem appendStringAux_fuel (fuel : Nat) :
    ∀ (s : Bytes), s.length ≤ fuel → appendStringAux fuel s = appendStringAux s.length s := by
  induction fuel using Nat.strong_induction_on with
  | _ fuel ih =>
    intro s hs
    cases s with
    | nil => rw [appendStringAux_nil]; rfl
    | cons b t =>
      obtain ⟨m, rfl⟩ : ∃ m, fuel = m + 1 := ⟨fuel - 1, by simp at hs; omega⟩
      have hm : t.length ≤ m := by simp only [List.length_cons] at hs; omega
      have hsz := DecodeRune_size_pos b t
      have hdrop : ((b :: t).drop (DecodeRune (b :: t)).2).length ≤ t.length := by
        rw [List.length_drop]; simp only [List.length_cons]; omega
      have e1 : appendStringAux m t = appendStringAux t.length t := ih m (by omega) t hm
      have e2 : appendStringAux m ((b :: t).drop (DecodeRune (b :: t)).2) =
          appendStringAux t.length ((b :: t).drop (DecodeRune (b :: t)).2) := by
        rw [ih m (by omega) _ (by omega)]
        by_cases hz : t.length = 0
        · have : ((b :: t).drop (DecodeRune (b :: t)).2) = [] := by
            apply List.eq_nil_of_length_eq_zero; omega
          rw [this, appendStringAux_nil, appendStringAux_nil]
        · exact (ih t.length (by omega) _ hdrop).symm
      simp only [List.length_cons, appendStringAux, e1, e2]

theorem skipSpace_cons_length (s : Bytes) (c : Nat) (t : Bytes) (h : skipSpace s = c :: t) :
    t.length + 1 ≤ s.length := by
  have := skipSpace_length s
  rw [h] at this
  simpa using this

theorem scanDigits_length (s : Bytes) :
    (scanDigits s).2.length ≤ s.length := by
  induction s with
  | nil => simp [scanDigits]
  | cons c t ih =>
    simp only [scanDigits]
    split_ifs
    · simp only [List.length_cons]; omega
    · exact le_refl _

theorem scanExp_length (acc s l r : Bytes) (h : scanExp acc s = some (l, r)) :
    r.length ≤ s.length := by
  cases s with
  | nil =>
    simp only [scanExp, Option.some.injEq, Prod.mk.injEq] at h
    rw [← h.2]
  | cons c t =>
    simp only [scanExp] at h
    by_cases hc : c = 101 ∨ c = 69
    · rw [if_pos hc] at h
      cases t with
      | nil => simp at h
      | cons x u =>
        simp only at h
        have h1 := scanDigits_length u
        have h2 := scanDigits_length (x :: u)
        split_ifs at h <;>
          (simp only [Option.some.injEq, Prod.mk.injEq] at h
           rw [← h.2]; simp only [List.length_cons] at h2 ⊢; omega)
    · rw [if_neg hc] at h
      simp only [Option.some.injEq, Prod.mk.injEq] at h
      rw [← h.2]

theorem scanFrac_length (acc s l r : Bytes) (h : scanFrac acc s = some (l, r)) :
    r.length ≤ s.length := by
  unfold scanFrac at h
  split at h
  · rename_i t
    split_ifs at h
    have h1 := scanExp_length _ _ _ _ h
    have h2 := scanDigits_length t
    simp only [List.length_cons]; omega
  · exact scanExp_length _ _ _ _ h

theorem scanInt_length (acc s l r : Bytes) (h : scanInt acc s = some (l, r)) :
    r.length < s.length := by
  unfold scanInt at h
  split at h
  · simp at h
  · rename_i c t
    split_ifs at h
    · have := scanFrac_length _ _ _ _ h
      simp only [List.length_cons]; omega
    · have h1 := scanFrac_length _ _ _ _ h
      have h2 := scanDigits_length t
      simp only [List.length_cons]; omega

theorem scanNumber_length (s l r : Bytes) (h : scanNumber s = some (l, r)) :
    r.length < s.length := by
  unfold scanNumber at h
  split at h
  · have := scanInt_length _ _ _ _ h
    simp only [List.length_cons]; omega
  · exact scanInt_length _ _ _ _ h

end Fuel

section ParserFuel
open utf8 json

/-- A value, a list of elements or a list of members parsed with some fuel is
parsed, to the same result, with any fuel of at least twice the input length
(plus one for elements and members), and the parser consumes input. -/
theorem parse_fuel (sc : Strconv) (fuel : Nat) :
    (∀ d s v r, parseValue sc fuel d s = some (v, r) →
      r.length < s.length ∧ ∀ n, 2 * s.length ≤ n → parseValue sc n d s = some (v, r)) ∧
    (∀ d s vs r, parseElements sc fuel d s = some (vs, r) →
      r.length < s.length ∧
        ∀ n, 2 * s.length + 1 ≤ n → parseElements sc n d s = some (vs, r)) ∧
    (∀ d s ms r, parseMembers sc fuel d s = some (ms, r) →
      r.length < s.length ∧
        ∀ n, 2 * s.length + 1 ≤ n → parseMembers sc n d s = some (ms, r)) := by
  induction fuel with
  | zero =>
    refine ⟨?_, ?_, ?_⟩ <;> intro d s v r h
    · simp [parseValue] at h
    · simp [parseElements] at h
    · simp [parseMembers] at h
  | succ k ih =>
    obtain ⟨ihv, ihe, ihm⟩ := ih
    refine ⟨?_, ?_, ?_⟩
    · intro d s v r h
      rw [parseValue] at h
      cases hsk : skipSpace s with
      | nil => rw [hsk] at h; simp at h
      | cons c t =>
        rw [hsk] at h
        simp only at h
        have hst := skipSpace_cons_length s c t hsk
        have hpos : ∀ n, 2 * s.length ≤ n → ∃ m, n = m + 1 ∧ 2 * t.length + 1 ≤ m :=
          fun n hn => ⟨n - 1, by omega, by omega⟩
        by_cases c1 : c = 123
        · rw [if_pos c1] at h
          by_cases hd : maxNestingDepth ≤ d
          · rw [if_pos hd] at h; simp at h
          rw [if_neg hd] at h
          split at h
          · rename_i t1 heq
            simp only [Option.some.injEq, Prod.mk.injEq] at h
            have := skipSpace_cons_length t 125 t1 heq
            refine ⟨by rw [← h.2]; omega, ?_⟩
            intro n hn
            obtain ⟨m, rfl, hm⟩ := hpos n hn
            rw [parseValue, hsk]
            simp only
            rw [if_pos c1, if_neg hd]
            split
            · rename_i t3 heq3
              rw [heq] at heq3
              simp only [List.cons.injEq, true_and] at heq3
              rw [← heq3, h.1, h.2]
            · rename_i hneg
              exact absurd heq (hneg t1)
          · rename_i hneg
            rw [Option.map_eq_some'] at h
            obtain ⟨⟨ms, r1⟩, hp, he⟩ := h
            simp only [Prod.mk.injEq] at he
            obtain ⟨hr, hall⟩ := ihm _ _ _ _ hp
            refine ⟨by rw [← he.2]; omega, ?_⟩
            intro n hn
            obtain ⟨m, rfl, hm⟩ := hpos n hn
            rw [parseValue, hsk]
            simp only
            rw [if_pos c1, if_neg hd]
            rw [hall m hm]
            simp [he.1, he.2]
        rw [if_neg c1] at h
        by_cases c2 : c = 91
        · rw [if_pos c2] at h
          by_cases hd : maxNestingDepth ≤ d
          · rw [if_pos hd] at h; simp at h
          rw [if_neg hd] at h
          split at h
          · rename_i t1 heq
            simp only [Option.some.injEq, Prod.mk.injEq] at h
            have := skipSpace_cons_length t 93 t1 heq
            refine ⟨by rw [← h.2]; omega, ?_⟩
            intro n hn
            obtain ⟨m, rfl, hm⟩ := hpos n hn
            rw [parseValue, hsk]
            simp only
            rw [if_neg c1, if_pos c2, if_neg hd]
            split
            · rename_i t3 heq3
              rw [heq] at heq3
              simp only [List.cons.injEq, true_and] at heq3
              rw [← heq3, h.1, h.2]
            · rename_i hneg
              exact absurd heq (hneg t1)
          · rename_i hneg
            rw [Option.map_eq_some'] at h
            obtain ⟨⟨vs, r1⟩, hp, he⟩ := h
            simp only [Prod.mk.injEq] at he
            obtain ⟨hr, hall⟩ := ihe _ _ _ _ hp
            refine ⟨by rw [← he.2]; omega, ?_⟩
            intro n hn
            obtain ⟨m, rfl, hm⟩ := hpos n hn
            rw [parseValue, hsk]
            simp only
            rw [if_neg c1, if_pos c2, if_neg hd]
            rw [hall m hm]
            simp [he.1, he.2]
        rw [if_neg c2] at h
        have hscalar : ∀ n, 2 * s.length ≤ n →
            parseValue sc n d s = parseValue sc (k + 1) d s := by
          intro n hn
          obtain ⟨m, rfl, hm⟩ := hpos n hn
          rw [parseValue, parseValue, hsk]
          simp only
          rw [if_neg c1, if_neg c2, if_neg c1, if_neg c2]
        have hval : parseValue sc (k + 1) d s = some (v, r) := by
          rw [parseValue, hsk]
          simp only
          rw [if_neg c1, if_neg c2]
          exact h
        refine ⟨?_, fun n hn => (hscalar n hn).trans hval⟩
        by_cases c3 : c = 34
        · rw [if_pos c3, Option.map_eq_some'] at h
          obtain ⟨⟨x, r1⟩, hp, he⟩ := h
          simp only [Prod.mk.injEq] at he
          have := unquote_length _ _ _ hp
          rw [← he.2]; omega
        rw [if_neg c3] at h
        by_cases c4 : c = 116
        · rw [if_pos c4] at h
          split at h
          · simp only [Option.some.injEq, Prod.mk.injEq] at h
            rw [← h.2]; simp only [List.length_cons] at hst ⊢; omega
          · simp at h
        rw [if_neg c4] at h
        by_cases c5 : c = 102
        · rw [if_pos c5] at h
          split at h
          · simp only [Option.some.injEq, Prod.mk.injEq] at h
            rw [← h.2]; simp only [List.length_cons] at hst ⊢; omega
          · simp at h
        rw [if_neg c5] at h
        by_cases c6 : c = 110
        · rw [if_pos c6] at h
          split at h
          · simp only [Option.some.injEq, Prod.mk.injEq] at h
            rw [← h.2]; simp only [List.length_cons] at hst ⊢; omega
          · simp at h
        rw [if_neg c6] at h
        split at h
        · simp at h
        · rename_i lit rest hscan
          rw [Option.map_eq_some'] at h
          obtain ⟨x, _, he⟩ := h
          simp only [Prod.mk.injEq] at he
          have := scanNumber_length _ _ _ hscan
          rw [← he.2]; simp only [List.length_cons] at this ⊢; omega
    · intro d s vs r h
      rw [parseElements] at h
      split at h
      · simp at h
      · rename_i v r0 hv
        obtain ⟨hr0, hallv⟩ := ihv _ _ _ _ hv
        split at h
        · rename_i r1 heq
          have hl := skipSpace_cons_length r0 44 r1 heq
          rw [Option.map_eq_some'] at h
          obtain ⟨⟨q, r2⟩, hp, he⟩ := h
          simp only [Prod.mk.injEq] at he
          obtain ⟨hr, hall⟩ := ihe _ _ _ _ hp
          refine ⟨by rw [← he.2]; omega, ?_⟩
          intro n hn
          obtain ⟨m, rfl⟩ : ∃ m, n = m + 1 := ⟨n - 1, by omega⟩
          rw [parseElements, hallv m (by omega)]
          simp only [heq]
          rw [hall m (by omega)]
          simp [he.1, he.2]
        · rename_i r1 heq
          have hl := skipSpace_cons_length r0 93 r1 heq
          simp only [Option.some.injEq, Prod.mk.injEq] at h
          refine ⟨by rw [← h.2]; omega, ?_⟩
          intro n hn
          obtain ⟨m, rfl⟩ : ∃ m, n = m + 1 := ⟨n - 1, by omega⟩
          rw [parseElements, hallv m (by omega)]
          simp only [heq]
          simp [h.1, h.2]
        · simp at h
    · intro d s ms r h
      rw [parseMembers] at h
      split at h
      · rename_i t heq0
        have hl0 := skipSpace_cons_length s 34 t heq0
        split at h
        · simp at h
        · rename_i key r0 hk
          have hlk := unquote_length _ _ _ hk
          split at h
          · rename_i r1 heq1
            have hl1 := skipSpace_cons_length r0 58 r1 heq1
            split at h
            · simp at h
            · rename_i v r2 hv
              obtain ⟨hr2, hallv⟩ := ihv _ _ _ _ hv
              split at h
              · rename_i r3 heq3
                have hl3 := skipSpace_cons_length r2 44 r3 heq3
                rw [Option.map_eq_some'] at h
                obtain ⟨⟨q, r4⟩, hp, he⟩ := h
                simp only [Prod.mk.injEq] at he
                obtain ⟨hr, hall⟩ := ihm _ _ _ _ hp
                refine ⟨by rw [← he.2]; omega, ?_⟩
                intro n hn
                obtain ⟨m, rfl⟩ : ∃ m, n = m + 1 := ⟨n - 1, by omega⟩
                rw [parseMembers]
                simp only [heq0, hk, heq1]
                rw [hallv m (by omega)]
                simp only [heq3]
                rw [hall m (by omega)]
                simp [he.1, he.2]
              · rename_i r3 heq3
                have hl3 := skipSpace_cons_length r2 125 r3 heq3
                simp only [Option.some.injEq, Prod.mk.injEq] at h
                refine ⟨by rw [← h.2]; omega, ?_⟩
                intro n hn
                obtain ⟨m, rfl⟩ : ∃ m, n = m + 1 := ⟨n - 1, by omega⟩
                rw [parseMembers]
                simp only [heq0, hk, heq1]
                rw [hallv m (by omega)]
                simp only [heq3]
                simp [h.1, h.2]
              · simp at h
          · simp at h
      · simp at h

/-- The fuel of `decode` is never exhausted: a text that parses as a JSON
value with any fuel at all parses, to the same value, with the fuel `decode`
uses. -/
theorem parseValue_decode_fuel (sc : Strconv) (fuel : Nat) (data : Bytes)
    (v : Value sc.Float64) (rest : Bytes) (h : parseValue sc fuel 0 data = some (v, rest)) :
    parseValue sc (2 * data.length + 2) 0 data = some (v, rest) :=
  ((parse_fuel sc fuel).1 0 data v rest h).2 _ (by omega)

end ParserFuel

/-! ## The limit on nesting -/

section NestingLimit
open json

/-- More opening brackets than the scanner's limit leaves room for are not
read, whatever follows them. -/
theorem parseValue_too_deep (sc : Strconv) (k : Nat) : ∀ (d fuel : Nat) (rest : Bytes),
    maxNestingDepth ≤ d + k →
    parseValue sc fuel d (List.replicate (k + 1) 91 ++ rest) = none := by
  induction k with
  | zero =>
    intro d fuel rest h
    cases fuel with
    | zero => rfl
    | succ n =>
      rw [parseValue]
      simp only [List.replicate, List.cons_append, List.nil_append]
      rw [skipSpace_cons 91 _ (by decide)]
      simp only [show ¬ (91 = 123) by decide, if_false, if_true]
      rw [if_pos (by omega)]
  | succ k ih =>
    intro d fuel rest h
    cases fuel with
    | zero => rfl
    | succ n =>
      rw [parseValue, List.replicate_succ, List.cons_append, skipSpace_cons 91 _ (by decide)]
      simp only [show ¬ (91 = 123) by decide, if_false, if_true]
      by_cases hd : maxNestingDepth ≤ d
      · rw [if_pos hd]
      · rw [if_neg hd]
        have hinner : parseElements sc n (d + 1) (List.replicate (k + 1) 91 ++ rest) = none := by
          cases n with
          | zero => rfl
          | succ n1 =>
            rw [parseElements, ih (d + 1) n1 rest (by omega)]
        rw [hinner]
        split
        · rename_i t1 heq
          rw [List.replicate_succ, List.cons_append, skipSpace_cons 91 _ (by decide)] at heq
          simp at heq
        · rfl

theorem parseValue_exceeded (sc : Strconv) (n d fuel : Nat) (rest : Bytes) (hn : 1 ≤ n)
    (h : maxNestingDepth < d + n) :
    parseValue sc fuel d (List.replicate n 91 ++ rest) = none := by
  obtain ⟨k, rfl⟩ : ∃ k, n = k + 1 := ⟨n - 1, by omega⟩
  exact parseValue_too_deep sc k d fuel rest (by omega)

theorem parseValue_member_none (sc : Strconv) (big : Bytes)
    (h : ∀ fuel, parseValue sc fuel 1 big = none) :
    ∀ fuel, parseValue sc fuel 0 (123 :: 34 :: 97 :: 34 :: 58 :: big) = none := by
  intro fuel
  cases fuel with
  | zero => rfl
  | succ n =>
    have hm : parseMembers sc n 1 (34 :: 97 :: 34 :: 58 :: big) = none := by
      cases n with
      | zero => rfl
      | succ n1 =>
        have hu : unquote (97 :: 34 :: 58 :: big) = some ([97], 58 :: big) := by
          simp [unquote, unquoteAux]
        rw [parseMembers, skipSpace_cons 34 _ (by decide)]
        simp only [hu]
        rw [skipSpace_cons 58 _ (by decide)]
        simp only [h]
    rw [parseValue, skipSpace_cons 123 _ (by decide)]
    simp only [if_true]
    rw [if_neg (by decide), skipSpace_cons 34 _ (by decide), hm]
    rfl

/-- An object holding 10000 nested arrays or more, 10001 levels in all, is
refused by `Unmarshal` ("exceeded max depth"), whatever the arrays hold. -/
theorem Unmarshal_exceeded_max_depth (sc : Strconv) (n : Nat) (hn : 10000 ≤ n)
    (rest : Bytes) :
    Unmarshal sc (123 :: 34 :: 97 :: 34 :: 58 :: (List.replicate n 91 ++ rest)) =
      Except.error Error.unmarshal := by
  have hp := parseValue_member_none sc (List.replicate n 91 ++ rest)
    (fun fuel => parseValue_exceeded sc n 1 fuel rest (by omega)
      (by unfold maxNestingDepth; omega))
  unfold Unmarshal decode
  rw [hp]

theorem encodeValue_nested (sc : Strconv) (k : Nat) :
    encodeValue sc (nested k) =
      some (List.replicate (k + 1) 91 ++ List.replicate (k + 1) 93) := by
  induction k with
  | zero => rfl
  | succ k ih =>
    simp only [nested, encodeValue, ih, encodeElements]
    rw [List.replicate_succ (n := k + 1), List.replicate_succ' (n := k + 1)]
    simp

theorem wf_nested (sc : Strconv) (k : Nat) : WF sc (nested k) := by
  induction k with
  | zero => exact WF.array [] (by simp)
  | succ k ih =>
    refine WF.array _ ?_
    intro x hx
    simp only [List.mem_singleton] at hx
    rw [hx]; exact ih

theorem nesting_nested {F : Type} (k : Nat) : nesting (nested k : Value F) = k + 1 := by
  induction k with
  | zero => simp [nested, nesting, nestingElements]
  | succ k ih => simp [nested, nesting, nestingElements, ih]

/-- An object holding up to 9999 nested arrays, 10000 levels in all, is
accepted by `Unmarshal`: the scanner's limit is reached, not exceeded. -/
theorem Unmarshal_within_max_depth (sc : Strconv) (k : Nat) (hk : k + 2 ≤ 10000) :
    Unmarshal sc (123 :: 34 :: 97 :: 34 :: 58 ::
        (List.replicate (k + 1) 91 ++ (List.replicate (k + 1) 93 ++ [125]))) =
      Except.ok (some [([97], nested k)]) := by
  have hw : WF sc (Value.object [(([97] : Bytes), nested k)]) := by
    refine WF.object _ (by simp [SortedKeys]) ?_ ?_
    · intro kv hkv
      simp only [List.mem_singleton] at hkv
      rw [hkv]
      exact validString_of_ascii [97] (by decide)
    · intro kv hkv
      simp only [List.mem_singleton] at hkv
      rw [hkv]
      exact wf_nested sc k
  have hn : nesting (Value.object [(([97] : Bytes), (nested k : Value sc.Float64))]) ≤
      maxNestingDepth := by
    simp only [nesting, nestingMembers, nesting_nested, maxNestingDepth]
    omega
  obtain ⟨b, hb, hu⟩ := Unmarshal_Marshal sc _ hw hn
  have hbytes : Marshal sc (some [(([97] : Bytes), (nested k : Value sc.Float64))]) =
      Except.ok (123 :: 34 :: 97 :: 34 :: 58 ::
        (List.replicate (k + 1) 91 ++ (List.replicate (k + 1) 93 ++ [125]))) := by
    simp only [Marshal, encodeValue, encodeValue_nested, encodeMembers]
    simp [appendString, appendStringAux, htmlSafe]
  rw [hbytes] at hb
  simp only [Except.ok.injEq] at hb
  rw [hb]
  exact hu

end NestingLimit

/-! ## Valid JSON objects that `Run` drops -/

section Dropped
open json

set_option maxRecDepth 100000
set_option exponentiation.threshold 2000

/-- The `float64` constants of the encoder. -/
theorem float64_thresholds :
    strconv.ParseFloat (ascii "1e-6") = some float1eMinus6 ∧
    strconv.ParseFloat (ascii "1e21") = some float1e21 :=
  ⟨rfl, rfl⟩

/-- A channel that delivers one pack whose payload `Unmarshal` rejects: `Run`
logs the error, submits nothing and returns nil. -/
theorem Run_rejected_payload {σ : Type} (sc : Strconv) (zone : Int → Int)
    (f : FirehoseOutput σ) (pack : PipelinePack) (s : σ) (err : Error)
    (h : Unmarshal sc pack.Message.Payload = Except.error err) :
    Run sc zone f [pack] s =
      (headCalls 0 pack ++ [(0, Call.LogError Error.unmarshal)], Outcome.returned none, s) := by
  unfold Run
  rw [runLoop_cons_next sc zone f 0 pack [] s s _ (iteration_of_rejected_payload sc zone f 0
    pack s err h), runLoop_nil]
  simp

/-- A JSON object with a number above the range of `float64` is dropped:
`ParseFloat` reports a range error, `Unmarshal` returns it, `Run` logs it. -/
theorem Run_number_out_of_range {σ : Type} (zone : Int → Int) (f : FirehoseOutput σ)
    (T : Int) (s : σ) :
    Run float64 zone f [{ Message := { Payload := ascii "\x7b\"a\":1e309\x7d",
                                        Timestamp := T } }] s =
      (headCalls 0 { Message := { Payload := ascii "\x7b\"a\":1e309\x7d", Timestamp := T } } ++
        [(0, Call.LogError Error.unmarshal)], Outcome.returned none, s) :=
  Run_rejected_payload float64 zone f _ s Error.unmarshal rfl

/-- A JSON object nested deeper than 10000 levels is dropped: `Unmarshal`
returns the scanner's error, `Run` logs it. -/
theorem Run_exceeded_max_depth {σ : Type} (sc : Strconv) (zone : Int → Int)
    (f : FirehoseOutput σ) (n : Nat) (hn : 10000 ≤ n) (rest : Bytes) (T : Int) (s : σ) :
    Run sc zone f [{ Message := { Payload := 123 :: 34 :: 97 :: 34 :: 58 ::
                                    (List.replicate n 91 ++ rest),
                                  Timestamp := T } }] s =
      (headCalls 0 { Message := { Payload := 123 :: 34 :: 97 :: 34 :: 58 ::
                                    (List.replicate n 91 ++ rest),
                                  Timestamp := T } } ++
        [(0, Call.LogError Error.unmarshal)], Outcome.returned none, s) :=
  Run_rejected_payload sc zone f _ s Error.unmarshal
    (Unmarshal_exceeded_max_depth sc n hn rest)

end Dropped

end HekaCleverPlugins
